import Mathlib

/-!
Shallow embedding of the arithmetic soft-cores of `smolarith`
(`src/smolarith/div.py`, `src/smolarith/mul.py`, `src/smolarith/base10.py`).

Each Amaranth `Component` is modelled as a deterministic state machine:
a Lean structure holds the values of the `m.d.sync` registers, a `step`
function maps (state, input signals) to the registers' values after the
next clock edge, and `m.d.comb` outputs are functions of the current
state (and, where the source reads them, of the current input signals).
Register stores truncate to the declared signal width, mirrored here by
explicit `% 2^w` / wrap helpers.
-/

namespace Spec2Proof

/-- Two's-complement (signed) value of a `w`-bit pattern `x`
(Amaranth `.as_signed()` on a `w`-bit signal). -/
def sval (w x : Nat) : Int := if x < 2^(w-1) then (x : Int) else (x : Int) - 2^w

/-- Store an integer expression into a `w`-bit unsigned register:
truncation mod `2^w`. -/
def uwrap (w : Nat) (x : Int) : Nat := (x % (2^w : Int)).toNat

/-- Store an integer expression into a `w`-bit register and read it back
as a signed value. -/
def swrap (w : Nat) (x : Int) : Int := sval w (uwrap w x)

/-- `_Negate` (div.py): `(-inp.as_signed())[:-1]`, the low `w` bits of the
`(w+1)`-bit negation of the signed reading of `inp`. -/
def negOut (w x : Nat) : Nat := uwrap w (-(sval w x))

namespace Div

/-- `div.Sign`: interpretation tag for divider operands. -/
inductive Sign
  | UNSIGNED
  | SIGNED
deriving DecidableEq, Repr

/-- `div.Inputs`: sign tag plus `w`-bit dividend `n` and divisor `d` patterns. -/
structure Inputs where
  sign : Sign
  n : Nat
  d : Nat
deriving DecidableEq, Repr

/-- `div.Outputs`: sign tag plus `w`-bit quotient `q` and remainder `r` patterns. -/
structure Outputs where
  sign : Sign
  q : Nat
  r : Nat
deriving DecidableEq, Repr

/-! ### `_RestoringDiv`: unsigned-only restoring divider core -/

/-- Registers of `_RestoringDiv`. `intermediate` is the shared
`2w+1`-bit remainder/quotient backing store. -/
structure RestState where
  intermediate : Nat
  itersLeft : Nat
  outValid : Bool
  sCopy : Sign
  dCopy : Nat
deriving DecidableEq, Repr

/-- Reset state of `_RestoringDiv` (all registers zero). -/
def restInit : RestState :=
  { intermediate := 0, itersLeft := 0, outValid := false,
    sCopy := .UNSIGNED, dCopy := 0 }

/-- Comb `in_progress = (iters_left != 0)`. -/
def restInProgress (st : RestState) : Bool := st.itersLeft ≠ 0

/-- Comb `inp.ready = (outp.ready & outp.valid) | ~in_progress`. -/
def restInpReady (st : RestState) (outpReady : Bool) : Bool :=
  (outpReady && st.outValid) || !(restInProgress st)

/-- One `DIVIDE_LOOP` iteration of `_RestoringDiv` acting on `intermediate`:
`S := S << 1` if `(S << 1) - (d << w) < 0`, else
`S := ((S << 1) - (d << w)) | 1`, truncated to the `2w+1`-bit register. -/
def restIter (w d s : Nat) : Nat :=
  if 2 * s < d * 2^w then (2 * s) % 2^(2*w+1)
  else ((2 * s - d * 2^w) % 2^(2*w+1)) ||| 1

/-- Clock-edge transition of `_RestoringDiv`.  The three `m.d.sync` blocks
of the source are applied in order, later assignments overriding earlier
ones; every right-hand side reads the pre-edge register values. -/
def restStep (w : Nat) (st : RestState) (inp : Inputs)
    (inpValid outpReady : Bool) : RestState :=
  let accept := restInpReady st outpReady && inpValid
  let ov := if st.outValid && outpReady then false else st.outValid
  let st1 : RestState :=
    if accept then
      { intermediate := inp.n, itersLeft := w, outValid := ov,
        sCopy := inp.sign, dCopy := inp.d }
    else
      { st with outValid := ov }
  if restInProgress st then
    { st1 with
        itersLeft := st.itersLeft - 1,
        outValid := if st.itersLeft - 1 = 0 then true else st1.outValid,
        intermediate := restIter w st.dCopy st.intermediate }
  else st1

/-- Comb output payload of `_RestoringDiv`:
`q = intermediate[:w]`, `r = intermediate[w:]` (truncated to `w` bits),
`sign = s_copy`. -/
def restOut (w : Nat) (st : RestState) : Outputs :=
  { sign := st.sCopy, q := st.intermediate % 2^w,
    r := st.intermediate / 2^w % 2^w }

/-! #### Closed form of the restoring-division loop -/

/-- For even `x`, or-ing in the freshly shifted quotient bit is addition. -/
lemma lor_one_of_even (x : Nat) (hx : x % 2 = 0) : x ||| 1 = x + 1 := by
  apply Nat.eq_of_testBit_eq
  intro i
  rw [Nat.testBit_lor]
  cases i with
  | zero =>
    rw [Nat.testBit_zero, Nat.testBit_zero, Nat.testBit_zero]
    simp
    omega
  | succ j =>
    rw [Nat.testBit_succ, Nat.testBit_succ, Nat.testBit_succ]
    have h2 : (x + 1) / 2 = x / 2 := by omega
    have h1 : (1 : Nat) / 2 = 0 := by norm_num
    rw [h2, h1, Nat.zero_testBit, Bool.or_false]

/-- Division/modulus recognizer for explicit decompositions. -/
lemma divmod_of_decomp {d x q r : Nat} (hx : x = r + q * d) (hr : r < d) :
    x % d = r ∧ x / d = q := by
  subst hx
  constructor
  · rw [Nat.add_mul_mod_self_right, Nat.mod_eq_of_lt hr]
  · rw [Nat.add_mul_div_right _ _ (by omega : 0 < d), Nat.div_eq_of_lt hr]
    omega

/-- Invariant of the `_RestoringDiv` loop, for a nonzero divisor: after `k`
iterations the `2w+1`-bit backing store holds the partial remainder of the
top `k` dividend bits in its upper half, the not-yet-consumed dividend bits
shifted up by `k` in its lower half, and the partial quotient bits below
them. -/
lemma restIter_loop (w d n : Nat) (hd : 0 < d) (hdw : d < 2^w) (hn : n < 2^w) :
    ∀ k, k ≤ w →
      (restIter w d)^[k] n =
        (n / 2^(w-k) % d) * 2^w + (n % 2^(w-k)) * 2^k + n / 2^(w-k) / d := by
  intro k
  induction k with
  | zero =>
    intro _
    have h1 : n / 2^w = 0 := Nat.div_eq_of_lt hn
    have h2 : n % 2^w = n := Nat.mod_eq_of_lt hn
    simp [h1, h2]
  | succ k ih =>
    intro hk
    have hkw : k < w := by omega
    rw [Function.iterate_succ_apply', ih (by omega)]
    -- Abbreviations for the two halves of the dividend split.
    set P : Nat := 2^(w-(k+1)) with hPdef
    set K : Nat := 2^k with hKdef
    have hPpos : 0 < P := pow_pos (by norm_num) _
    have hKpos : 0 < K := pow_pos (by norm_num) _
    have hsplit : 2^(w-k) = P * 2 := by
      rw [hPdef, ← Nat.pow_succ]
      congr 1
      omega
    have hE : 2^w = P * K * 2 := by
      rw [hPdef, hKdef, ← Nat.pow_add, ← Nat.pow_succ]
      congr 1
      omega
    have hK1 : 2^(k+1) = K * 2 := by rw [hKdef, Nat.pow_succ]
    set T : Nat := n / 2^(w-k) with hTdef
    set Tp : Nat := n / P with hTpdef
    have hTTp : T = Tp / 2 := by
      rw [hTdef, hTpdef, hsplit, Nat.div_div_eq_div_mul]
    set b : Nat := Tp % 2 with hbdef
    set Lp : Nat := n % P with hLpdef
    have hLpP : Lp < P := Nat.mod_lt _ hPpos
    have hb : b < 2 := Nat.mod_lt _ (by omega)
    have hnP : n = Tp * P + Lp := by
      rw [hTpdef, hLpdef, Nat.mul_comm]
      exact (Nat.div_add_mod n P).symm
    have hTp2 : Tp = T * 2 + b := by
      rw [hTTp, hbdef, Nat.mul_comm]
      exact (Nat.div_add_mod Tp 2).symm
    have hLsplit : n % 2^(w-k) = b * P + Lp := by
      rw [hsplit]
      have hform : n = (b * P + Lp) + (P * 2) * T := by
        rw [hnP, hTp2]; ring
      rw [hform, Nat.add_mul_mod_self_left]
      have hbP : b * P ≤ P := by
        calc b * P ≤ 1 * P := Nat.mul_le_mul_right _ (by omega)
          _ = P := one_mul P
      exact Nat.mod_eq_of_lt (by omega)
    -- Bounds on T, Tp.
    have hTplt : Tp < K * 2 := by
      rw [hTpdef, Nat.div_lt_iff_lt_mul hPpos]
      calc n < 2^w := hn
        _ = K * 2 * P := by rw [hE]; ring
    have hTlt : T < K := by omega
    set ρ : Nat := T % d with hρdef
    set Q : Nat := T / d with hQdef
    have hρd : ρ < d := Nat.mod_lt _ hd
    have hQK : Q ≤ T := Nat.div_le_self _ _
    have hTd : T = d * Q + ρ := (Nat.div_add_mod T d).symm
    -- The shifted store.
    have h2S : 2 * (ρ * 2^w + (n % 2^(w-k)) * K + Q)
        = (2*ρ + b) * 2^w + (Lp * (K*2) + 2*Q) := by
      rw [hLsplit, hE]
      ring
    have hlow : Lp * (K*2) + 2*Q < 2^w := by
      rw [hE]
      have h1 : Lp * (K*2) ≤ (P-1) * (K*2) :=
        Nat.mul_le_mul_right _ (by omega)
      have h2 : (P-1) * (K*2) + K*2 = P * (K*2) := by
        have hPP : P - 1 + 1 = P := by omega
        calc (P-1) * (K*2) + K*2 = (P-1+1) * (K*2) := by ring
          _ = P * (K*2) := by rw [hPP]
      have h3 : 2*Q < K*2 := by omega
      calc Lp * (K*2) + 2*Q < (P-1) * (K*2) + K*2 := by omega
        _ = P * (K*2) := h2
        _ = P * K * 2 := by ring
    have hEbig : d * 2^w < 2^(2*w+1) := by
      have h1 : 2^(2*w+1) = 2^w * 2^w * 2 := by
        rw [← Nat.pow_add, ← Nat.pow_succ]
        congr 1
        omega
      have h2 : d * 2^w < 2^w * 2^w :=
        mul_lt_mul_of_pos_right hdw (pow_pos (by norm_num) _)
      omega
    have hdE : (d-1) * 2^w + 2^w = d * 2^w := by
      have hd1 : d - 1 + 1 = d := by omega
      calc (d-1) * 2^w + 2^w = (d-1+1) * 2^w := by ring
        _ = d * 2^w := by rw [hd1]
    -- The next values of the closed form.
    have hTpdecomp : Tp = (2*ρ + b) + (2*Q) * d := by
      rw [hTp2, hTd]; ring
    simp only [restIter]
    rw [h2S]
    by_cases hc : 2*ρ + b < d
    · -- branch taken: subtraction would be negative, just shift
      have hdm := divmod_of_decomp hTpdecomp hc
      have hcond : (2*ρ + b) * 2^w + (Lp * (K*2) + 2*Q) < d * 2^w := by
        calc (2*ρ + b) * 2^w + (Lp * (K*2) + 2*Q)
            < (2*ρ + b) * 2^w + 2^w := Nat.add_lt_add_left hlow _
          _ ≤ (d - 1) * 2^w + 2^w :=
              Nat.add_le_add_right
                (Nat.mul_le_mul_right _ (by omega : 2*ρ + b ≤ d - 1)) _
          _ = d * 2^w := hdE
      rw [if_pos hcond]
      have hfit : (2*ρ + b) * 2^w + (Lp * (K*2) + 2*Q) < 2^(2*w+1) := by omega
      rw [Nat.mod_eq_of_lt hfit, hdm.1, hdm.2, hK1]
      ring
    · -- branch not taken: subtract and set the quotient bit
      push_neg at hc
      have hrhopd : 2*ρ + b - d < d := by omega
      have hTpdecomp2 : Tp = (2*ρ + b - d) + (2*Q + 1) * d := by
        have hexp : (2*Q + 1) * d = (2*Q) * d + d := by ring
        omega
      have hdm := divmod_of_decomp hTpdecomp2 hrhopd
      have hgeq : d * 2^w ≤ (2*ρ + b) * 2^w + (Lp * (K*2) + 2*Q) := by
        have h1 := Nat.mul_le_mul_right (2^w) hc
        omega
      rw [if_neg (by omega)]
      have hsub : (2*ρ + b) * 2^w + (Lp * (K*2) + 2*Q) - d * 2^w
          = (2*ρ + b - d) * 2^w + (Lp * (K*2) + 2*Q) := by
        have hback : (2*ρ + b - d) + d = 2*ρ + b := by omega
        have h1 : (2*ρ + b) * 2^w = (2*ρ + b - d) * 2^w + d * 2^w := by
          calc (2*ρ + b) * 2^w = ((2*ρ + b - d) + d) * 2^w := by rw [hback]
            _ = (2*ρ + b - d) * 2^w + d * 2^w := by ring
        omega
      rw [hsub]
      have hfit : (2*ρ + b - d) * 2^w + (Lp * (K*2) + 2*Q) < 2^(2*w+1) := by
        have h1 : (2*ρ + b - d) * 2^w ≤ (d-1) * 2^w :=
          Nat.mul_le_mul_right _ (by omega : 2*ρ + b - d ≤ d - 1)
        omega
      rw [Nat.mod_eq_of_lt hfit]
      have heven : ((2*ρ + b - d) * 2^w + (Lp * (K*2) + 2*Q)) % 2 = 0 := by
        have h2w : 2^w % 2 = 0 := by
          have hw1 : 2^w = 2^(w-1) * 2 := by
            rw [← Nat.pow_succ]
            congr 1
            omega
          omega
        have h1 : (2*ρ + b - d) * 2^w % 2 = 0 := by
          rw [Nat.mul_mod, h2w]
          simp
        have h2 : (Lp * (K*2) + 2*Q) % 2 = 0 := by
          have hLK : Lp * (K*2) = (Lp * K) * 2 := by ring
          omega
        omega
      rw [lor_one_of_even _ heven, hdm.1, hdm.2, hK1]
      ring

/-- With a zero divisor the restoring loop degenerates to shifting in
ones: after `k` iterations the store holds `n * 2^k + (2^k - 1)`. -/
lemma restIter_loop_zero (w n : Nat) (hn : n < 2^w) :
    ∀ k, k ≤ w → (restIter w 0)^[k] n = n * 2^k + (2^k - 1) := by
  intro k
  induction k with
  | zero => intro _; simp
  | succ k ih =>
    intro hk
    rw [Function.iterate_succ_apply', ih (by omega)]
    have hSbound : n * 2^k + (2^k - 1) < 2^(w+k) := by
      have h1 : n * 2^k ≤ (2^w - 1) * 2^k :=
        Nat.mul_le_mul_right _ (by omega)
      have h2 : (2^w - 1) * 2^k + 2^k = 2^w * 2^k := by
        have hww : 2^w - 1 + 1 = 2^w := by
          have := pow_pos (by norm_num : (0:Nat) < 2) w
          omega
        calc (2^w - 1) * 2^k + 2^k = (2^w - 1 + 1) * 2^k := by ring
          _ = 2^w * 2^k := by rw [hww]
      have h3 : 2^(w+k) = 2^w * 2^k := by rw [Nat.pow_add]
      have h4 : 0 < 2^k := pow_pos (by norm_num) _
      omega
    have hfit : 2 * (n * 2^k + (2^k - 1)) < 2^(2*w+1) := by
      have h1 : 2^(w+k) * 2 ≤ 2^(2*w+1) := by
        rw [← Nat.pow_succ]
        exact Nat.pow_le_pow_right (by norm_num) (by omega)
      omega
    simp only [restIter]
    rw [if_neg (by simp), Nat.zero_mul, Nat.sub_zero, Nat.mod_eq_of_lt hfit]
    have heven : (2 * (n * 2^k + (2^k - 1))) % 2 = 0 := by omega
    rw [lor_one_of_even _ heven]
    have h2k : 0 < 2^k := pow_pos (by norm_num) _
    have hpow : 2^(k+1) = 2^k * 2 := Nat.pow_succ 2 k
    calc 2 * (n * 2^k + (2^k - 1)) + 1 = n * (2^k * 2) + (2^k * 2 - 1) := by
          have hdist : n * (2^k * 2) = 2 * (n * 2^k) := by ring
          omega
      _ = n * 2^(k+1) + (2^(k+1) - 1) := by rw [hpow]

/-- The `q`/`r` halves of the `_RestoringDiv` store after the full `w`
iterations: quotient and remainder of `n / d`, with the RISC-V
divide-by-zero values when `d = 0`. -/
lemma restIter_result (w d n : Nat) (hw : 1 ≤ w) (hd : d < 2^w) (hn : n < 2^w) :
    ((restIter w d)^[w] n) % 2^w = (if d = 0 then 2^w - 1 else n / d) ∧
    ((restIter w d)^[w] n) / 2^w % 2^w = (if d = 0 then n else n % d) := by
  have hqlt : 0 < 2^w := pow_pos (by norm_num) _
  by_cases hz : d = 0
  · subst hz
    rw [restIter_loop_zero w n hn w (le_refl w)]
    simp only [eq_self_iff_true, if_true]
    rw [Nat.add_comm]
    constructor
    · rw [Nat.add_mul_mod_self_right, Nat.mod_eq_of_lt (by omega)]
    · rw [Nat.add_mul_div_right _ _ hqlt, Nat.div_eq_of_lt (by omega),
        Nat.zero_add, Nat.mod_eq_of_lt hn]
  · have hform := restIter_loop w d n (by omega) hd hn w (le_refl w)
    rw [Nat.sub_self, Nat.pow_zero, Nat.div_one, Nat.mod_one,
      Nat.zero_mul, Nat.add_zero] at hform
    rw [hform, if_neg hz, if_neg hz, Nat.add_comm]
    have hqn : n / d ≤ n := Nat.div_le_self _ _
    have hrd : n % d < d := Nat.mod_lt _ (by omega)
    constructor
    · rw [Nat.add_mul_mod_self_right, Nat.mod_eq_of_lt (by omega)]
    · rw [Nat.add_mul_div_right _ _ hqlt, Nat.div_eq_of_lt (by omega),
        Nat.zero_add, Nat.mod_eq_of_lt (by omega)]

/-! ### `_NonRestoringDiv`: unsigned-only non-restoring divider core -/

/-- Registers of `_NonRestoringDiv`: the shared `2w+1`-bit backing store,
the loop counter, the post-loop restore flag and a separate remainder
register. -/
structure NRState where
  intermediate : Nat
  itersLeft : Nat
  restoreStep : Bool
  outValid : Bool
  sCopy : Sign
  dCopy : Nat
  r : Nat
deriving DecidableEq, Repr

/-- Reset state of `_NonRestoringDiv`. -/
def nrInit : NRState :=
  { intermediate := 0, itersLeft := 0, restoreStep := false,
    outValid := false, sCopy := .UNSIGNED, dCopy := 0, r := 0 }

/-- Comb `in_progress = (iters_left != 0) | restore_step`. -/
def nrInProgress (st : NRState) : Bool :=
  (st.itersLeft ≠ 0 : Bool) || st.restoreStep

/-- Comb `inp.ready = (outp.ready & outp.valid) | ~in_progress`. -/
def nrInpReady (st : NRState) (outpReady : Bool) : Bool :=
  (outpReady && st.outValid) || !(nrInProgress st)

/-- One loop iteration of `_NonRestoringDiv` acting on `intermediate`:
add the shifted divisor back when the running remainder (top bit of the
store) is negative, else subtract it and or in a quotient bit. -/
def nrIter (w d s : Nat) : Nat :=
  if s.testBit (2*w) then (2*s + d * 2^w) % 2^(2*w+1)
  else (uwrap (2*w+1) ((2*s : Int) - (d : Int) * 2^w)) ||| 1

/-- The restore-cycle update of `_NonRestoringDiv`: writes the corrected
quotient into the low half of `intermediate` (subtracting the ones'
complement of the raw quotient, minus one more on a negative remainder)
and moves the (possibly divisor-corrected) remainder into `r`. -/
def nrRestore (w : Nat) (st : NRState) : NRState :=
  let lowq : Nat := st.intermediate % 2^w
  let high : Nat := st.intermediate / 2^w
  if st.intermediate.testBit (2*w) then
    { st with
        restoreStep := false, outValid := true,
        intermediate := high * 2^w +
          uwrap w ((lowq : Int) - ((2^w - 1 - lowq : Nat) : Int) - 1),
        r := (high + st.dCopy) % 2^w }
  else
    { st with
        restoreStep := false, outValid := true,
        intermediate := high * 2^w +
          uwrap w ((lowq : Int) - ((2^w - 1 - lowq : Nat) : Int)),
        r := high % 2^w }

/-- Clock-edge transition of `_NonRestoringDiv`: the `m.d.sync` blocks of
the source applied in order (consume, accept, loop iteration, restore
cycle). -/
def nrStep (w : Nat) (st : NRState) (inp : Inputs)
    (inpValid outpReady : Bool) : NRState :=
  let accept := nrInpReady st outpReady && inpValid
  let ov := if st.outValid && outpReady then false else st.outValid
  let st1 : NRState :=
    if accept then
      { st with
          intermediate := inp.n, itersLeft := w, outValid := ov,
          sCopy := inp.sign, dCopy := inp.d }
    else
      { st with outValid := ov }
  if nrInProgress st && !st.restoreStep then
    { st1 with
        itersLeft := st.itersLeft - 1,
        restoreStep := st.itersLeft - 1 = 0,
        intermediate := nrIter w st.dCopy st.intermediate }
  else if st.restoreStep then nrRestore w st1
  else st1

/-- Comb output payload of `_NonRestoringDiv`:
`q = intermediate[:w]`, `r` from its own register, `sign = s_copy`. -/
def nrOut (w : Nat) (st : NRState) : Outputs :=
  { sign := st.sCopy, q := st.intermediate % 2^w, r := st.r }

/-! ### `MulticycleDiv`: sign-conversion shell around the unsigned cores -/

/-- `div.Impl`: selector for the internal division algorithm. -/
inductive Impl
  | RESTORING
  | NON_RESTORING
deriving DecidableEq, Repr

/-- Interface of an internal divider core as seen by the `MulticycleDiv`
shell: clock-edge transition, comb `inp.ready`, comb `outp.valid` and comb
output payload. -/
structure CoreIfc (σ : Type) where
  step : Nat → σ → Inputs → Bool → Bool → σ
  inpReady : σ → Bool → Bool
  outValid : σ → Bool
  out : Nat → σ → Outputs

/-- `_RestoringDiv` packaged as a core. -/
def restCore : CoreIfc RestState :=
  { step := restStep, inpReady := restInpReady,
    outValid := fun st => st.outValid, out := restOut }

/-- `_NonRestoringDiv` packaged as a core. -/
def nrCore : CoreIfc NRState :=
  { step := nrStep, inpReady := nrInpReady,
    outValid := fun st => st.outValid, out := nrOut }

/-- The four FSM states of `MulticycleDiv.elaborate`. -/
inductive Fsm
  | IDLE
  | DIVIDE_IN
  | DIVIDE_LOOP
  | DIVIDE_OUT
deriving DecidableEq, Repr

/-- Registers of the `MulticycleDiv` shell: FSM state, the `_Quadrant`
flags, the latched (possibly negated) core inputs, the output payload
register, and the internal coreps registers. -/
structure MDState (σ : Type) where
  fsm : Fsm
  quadN : Bool
  quadD : Bool
  divInputs : Inputs
  outPayload : Outputs
  core : σ

/-- Reset state of `MulticycleDiv`. -/
def mdInit {σ : Type} (coreInit : σ) : MDState σ :=
  { fsm := .IDLE, quadN := false, quadD := false,
    divInputs := { sign := .UNSIGNED, n := 0, d := 0 },
    outPayload := { sign := .UNSIGNED, q := 0, r := 0 },
    core := coreInit }

/-- `quad.n` latched on acceptance: the dividend's sign bit, suppressed
when the divisor is zero (RISC-V divide-by-zero rule). -/
def mdQuadN (w : Nat) (inp : Inputs) : Bool :=
  inp.n.testBit (w-1) && inp.d ≠ 0

/-- `quad.d` latched on acceptance: the divisor's sign bit. -/
def mdQuadD (w : Nat) (inp : Inputs) : Bool := inp.d.testBit (w-1)

/-- The operands latched into `div_inputs` on acceptance: negated to
magnitudes for a signed divide (through the shared `_Negate` units). -/
def mdDivInputs (w : Nat) (inp : Inputs) : Inputs :=
  let di1 : Inputs :=
    if inp.sign = .SIGNED && mdQuadN w inp then
      { inp with n := negOut w inp.n } else inp
  if inp.sign = .SIGNED && mdQuadD w inp then
    { di1 with d := negOut w inp.d } else di1

/-- The quadrant-controlled negation of the coreps results applied when
leaving `DIVIDE_LOOP`: exactly one of the three override cases may fire,
each reading the coreps raw `q`/`r` payload `p0`. -/
def mdOutputFix (w : Nat) (sign : Sign) (qN qD : Bool) (p0 : Outputs) :
    Outputs :=
  let sg : Bool := sign = .SIGNED
  let p1 :=
    if sg && qN && !qD then
      { p0 with q := negOut w p0.q, r := negOut w p0.r } else p0
  let p2 :=
    if sg && !qN && qD then
      { p1 with q := negOut w p0.q } else p1
  if sg && qN && qD then { p2 with r := negOut w p0.r } else p2

/-- Clock-edge transition of `MulticycleDiv`.  The core always steps with
`inp.payload = div_inputs`, `inp.valid = (fsm == DIVIDE_IN)` and
`outp.ready = (fsm == DIVIDE_LOOP)`; the shell FSM latches quadrant
information on acceptance (suppressing the dividend's sign when the
divisor is zero, per the RISC-V rule) and negates the coreps results
according to the quadrant on completion. -/
def mdStep {σ : Type} (C : CoreIfc σ) (w : Nat) (st : MDState σ)
    (inp : Inputs) (inpValid outpReady : Bool) : MDState σ :=
  let coreInpValid : Bool := st.fsm = .DIVIDE_IN
  let coreOutReady : Bool := st.fsm = .DIVIDE_LOOP
  let corep := C.step w st.core st.divInputs coreInpValid coreOutReady
  match st.fsm with
  | .IDLE =>
    if inpValid then
      { st with fsm := .DIVIDE_IN, quadN := mdQuadN w inp,
                quadD := mdQuadD w inp, divInputs := mdDivInputs w inp,
                core := corep }
    else { st with core := corep }
  | .DIVIDE_IN =>
    if C.inpReady st.core coreOutReady then
      { st with fsm := .DIVIDE_LOOP, core := corep }
    else { st with core := corep }
  | .DIVIDE_LOOP =>
    if C.outValid st.core then
      { st with fsm := .DIVIDE_OUT,
                outPayload := mdOutputFix w st.divInputs.sign st.quadN
                  st.quadD (C.out w st.core),
                core := corep }
    else { st with core := corep }
  | .DIVIDE_OUT =>
    if outpReady then { st with fsm := .IDLE, core := corep }
    else { st with core := corep }

/-- Comb `outp.valid` of `MulticycleDiv` (asserted in `DIVIDE_OUT`). -/
def mdOutValid {σ : Type} (st : MDState σ) : Bool := st.fsm = .DIVIDE_OUT

/-- State of `MulticycleDiv` observed in cycle `j` of a single-transaction
run: the payload is presented with `inp.valid` during cycle 0 and accepted
on its clock edge, after which `inp.valid` is dropped and `outp.ready` is
held high (the test benches' protocol). -/
def mdRun {σ : Type} (C : CoreIfc σ) (coreInit : σ) (w : Nat)
    (inp : Inputs) (j : Nat) : MDState σ :=
  match j with
  | 0 => mdInit coreInit
  | j+1 => mdStep C w (mdRun C coreInit w inp j) inp (j = 0) true

/-- Latency of `MulticycleDiv` as documented: `w+3` cycles for the
restoring core, `w+4` for the non-restoring core. -/
def mdLatency (w : Nat) : Impl → Nat
  | .RESTORING => w + 3
  | .NON_RESTORING => w + 4

/-- The `(outp.valid, outp.payload)` pair of `MulticycleDiv` observed at
its documented latency. -/
def mdResult (w : Nat) (impl : Impl) (inp : Inputs) : Bool × Outputs :=
  match impl with
  | .RESTORING =>
    let st := mdRun restCore restInit w inp (mdLatency w .RESTORING)
    (mdOutValid st, st.outPayload)
  | .NON_RESTORING =>
    let st := mdRun nrCore nrInit w inp (mdLatency w .NON_RESTORING)
    (mdOutValid st, st.outPayload)

example : mdResult 12 .RESTORING { sign := .SIGNED, n := 1362, d := 14 }
    = (true, { sign := .SIGNED, q := 97, r := 4 }) := by decide

/-! #### Closed form of the non-restoring division loop -/

lemma uwrap_nonneg_eq (w : Nat) (x : Int) (h0 : 0 ≤ x) (h1 : x < 2^w) :
    uwrap w x = x.toNat := by
  rw [uwrap, Int.emod_eq_of_lt h0 (by exact_mod_cast h1)]

lemma uwrap_neg_eq (w : Nat) (x : Int) (h0 : -(2^w) ≤ x) (h1 : x < 0) :
    uwrap w x = (x + 2^w).toNat := by
  rw [uwrap]
  have hmod : x % ((2:Int)^w) = (x + 2^w) % 2^w := by
    rw [show x + (2:Int)^w = x + 2^w * 1 by ring, Int.add_mul_emod_self_left]
  rw [hmod, Int.emod_eq_of_lt (by omega) (by push_cast; omega)]

/-- `uwrap` of a cast natural is plain truncation. -/
lemma uwrap_natCast (w m : Nat) : uwrap w ((m : Nat) : Int) = m % 2^w := by
  rw [uwrap]
  norm_cast

/-- The top bit of a `2w+1`-bit store is set exactly when the store is at
least `2^(2w)`. -/
lemma testBit_top (w S : Nat) (hS : S < 2^(2*w+1)) :
    S.testBit (2*w) = decide (2^(2*w) ≤ S) := by
  have hE : 2^(2*w+1) = 2^(2*w) * 2 := Nat.pow_succ 2 (2*w)
  have hEpos : 0 < 2^(2*w) := pow_pos (by norm_num) _
  rw [Nat.testBit_to_div_mod]
  by_cases h : 2^(2*w) ≤ S
  · have h1 : 1 ≤ S / 2^(2*w) := (Nat.le_div_iff_mul_le hEpos).mpr (by omega)
    have h2 : S / 2^(2*w) < 2 := (Nat.div_lt_iff_lt_mul hEpos).mpr (by omega)
    have h3 : S / 2^(2*w) = 1 := by omega
    simp [h3, h]
  · have h3 : S / 2^(2*w) = 0 := Nat.div_eq_of_lt (by omega)
    simp [h3, h]

/-- Invariant of the `_NonRestoringDiv` loop for a nonzero divisor: the
upper half of the store holds the (signed, `w+1`-bit) running partial
remainder `ρ`, the lower half the remaining dividend bits above the
plus-minus-one digit encoding `qe` of the partial quotient, with
`d * (2*qe - (2^k - 1)) + ρ` recovering the processed dividend bits. -/
lemma nrIter_loop (w d n : Nat) (hw : 1 ≤ w) (hd : 0 < d) (hdw : d < 2^w)
    (hn : n < 2^w) :
    ∀ k, k ≤ w →
      ∃ ρ : Int, ∃ qe : Nat,
        (nrIter w d)^[k] n = uwrap (w+1) ρ * 2^w + (n % 2^(w-k)) * 2^k + qe ∧
        -(d:Int) ≤ ρ ∧ ρ < d ∧ qe < 2^k ∧
        (d:Int) * (2 * (qe:Int) - (2^k - 1)) + ρ = ((n / 2^(w-k) : Nat) : Int) := by
  intro k
  induction k with
  | zero =>
    intro _
    refine ⟨0, 0, ?_, by omega, by exact_mod_cast hd, by omega, ?_⟩
    · rw [uwrap_nonneg_eq _ _ (le_refl 0) (pow_pos (by norm_num) _)]
      simp [Nat.mod_eq_of_lt hn]
    · have h0 : n / 2^(w-0) = 0 := Nat.div_eq_of_lt (by simpa using hn)
      rw [h0]
      push_cast
      ring
  | succ k ih =>
    intro hk
    have hkw : k < w := by omega
    obtain ⟨ρ, qe, hS, hlo, hhi, hqe, hlin⟩ := ih (by omega)
    rw [Function.iterate_succ_apply', hS]
    -- Dividend-bit bookkeeping, as in the restoring proof.
    set P : Nat := 2^(w-(k+1)) with hPdef
    set K : Nat := 2^k with hKdef
    have hPpos : 0 < P := pow_pos (by norm_num) _
    have hKpos : 0 < K := pow_pos (by norm_num) _
    have hsplit : 2^(w-k) = P * 2 := by
      rw [hPdef, ← Nat.pow_succ]
      congr 1
      omega
    have hE : 2^w = P * K * 2 := by
      rw [hPdef, hKdef, ← Nat.pow_add, ← Nat.pow_succ]
      congr 1
      omega
    have hK1 : 2^(k+1) = K * 2 := by rw [hKdef, Nat.pow_succ]
    set T : Nat := n / 2^(w-k) with hTdef
    set Tp : Nat := n / P with hTpdef
    have hTTp : T = Tp / 2 := by
      rw [hTdef, hTpdef, hsplit, Nat.div_div_eq_div_mul]
    set b : Nat := Tp % 2 with hbdef
    set Lp : Nat := n % P with hLpdef
    have hLpP : Lp < P := Nat.mod_lt _ hPpos
    have hb : b < 2 := Nat.mod_lt _ (by omega)
    have hnP : n = Tp * P + Lp := by
      rw [hTpdef, hLpdef, Nat.mul_comm]
      exact (Nat.div_add_mod n P).symm
    have hTp2 : Tp = T * 2 + b := by
      rw [hTTp, hbdef, Nat.mul_comm]
      exact (Nat.div_add_mod Tp 2).symm
    have hLsplit : n % 2^(w-k) = b * P + Lp := by
      rw [hsplit]
      have hform : n = (b * P + Lp) + (P * 2) * T := by
        rw [hnP, hTp2]; ring
      rw [hform, Nat.add_mul_mod_self_left]
      have hbP : b * P ≤ P := by
        calc b * P ≤ 1 * P := Nat.mul_le_mul_right _ (by omega)
          _ = P := one_mul P
      exact Nat.mod_eq_of_lt (by omega)
    -- Power bookkeeping.
    have hEpos : 0 < 2^w := pow_pos (by norm_num : (0:ℕ) < 2) w
    have hMeq : 2^(2*w+1) = 2^w * 2^w * 2 := by
      rw [← Nat.pow_add, ← Nat.pow_succ]
      congr 1
      omega
    have hW1 : 2^(w+1) = 2^w * 2 := Nat.pow_succ 2 w
    -- Split of the low half after the shift.
    have hlow : Lp * (K*2) + 2*qe < 2^w := by
      rw [hE]
      have h1 : Lp * (K*2) ≤ (P-1) * (K*2) :=
        Nat.mul_le_mul_right _ (by omega)
      have h2 : (P-1) * (K*2) + K*2 = P * (K*2) := by
        have hPP : P - 1 + 1 = P := by omega
        calc (P-1) * (K*2) + K*2 = (P-1+1) * (K*2) := by ring
          _ = P * (K*2) := by rw [hPP]
      have h3 : 2*qe < K*2 := by omega
      calc Lp * (K*2) + 2*qe < (P-1) * (K*2) + K*2 := by omega
        _ = P * (K*2) := h2
        _ = P * K * 2 := by ring
    have hlow2 : (n % 2^(w-k)) * K + qe < 2^w := by
      have hL : n % 2^(w-k) ≤ P * 2 - 1 := by
        have h0 := Nat.mod_lt n (show 0 < 2^(w-k) from pow_pos (by norm_num) _)
        omega
      have h1 : (n % 2^(w-k)) * K ≤ (P * 2 - 1) * K :=
        Nat.mul_le_mul_right _ hL
      have h2 : (P * 2 - 1) * K + K = P * 2 * K := by
        have hPP : P * 2 - 1 + 1 = P * 2 := by omega
        calc (P*2-1)*K + K = (P*2-1+1)*K := by ring
          _ = P*2*K := by rw [hPP]
      have hE2 : 2^w = P * 2 * K := by rw [hE]; ring
      omega
    have h2low : 2 * ((n % 2^(w-k)) * K + qe)
        = b * 2^w + (Lp * (K*2) + 2*qe) := by
      rw [hLsplit, hE]
      ring
    -- Linear facts over ℤ used by all four branches.
    have hTp2I : (Tp : Int) = (T : Int) * 2 + b := by exact_mod_cast hTp2
    have hbI : (b : Int) < 2 := by exact_mod_cast hb
    have hdI : (0:Int) < d := by exact_mod_cast hd
    have hW1I : ((2:Int))^(w+1) = 2^w * 2 := by ring
    have hdwI : (d:Int) < 2^w := by exact_mod_cast hdw
    have hwp : (0:Int) < 2^w := by positivity
    have hcW : ((2^w : Nat) : Int) = (2:Int)^w := by push_cast; ring
    have hcW1 : ((2^(w+1) : Nat) : Int) = (2:Int)^(w+1) := by push_cast; ring
    -- More power bookkeeping shared by the four branches.
    have hM2 : 2^(2*w) = 2^w * 2^w := by
      rw [← Nat.pow_add]
      congr 1
      omega
    have hMM : 2^(2*w+1) = 2^(w+1) * 2^w := by
      rw [← Nat.pow_add]
      congr 1
      omega
    have hW2 : 2^(w+2) = 2^(w+1) * 2 := Nat.pow_succ 2 (w+1)
    have hevenX : ∀ X : Nat, (X * 2^w + (Lp * (K*2) + 2*qe)) % 2 = 0 := by
      intro X
      have h2w : 2^w % 2 = 0 := by
        have hw1 : 2^w = 2^(w-1) * 2 := by
          rw [← Nat.pow_succ]
          congr 1
          omega
        omega
      have h1 : X * 2^w % 2 = 0 := by
        rw [Nat.mul_mod, h2w]
        simp
      have hLK : Lp * (K*2) = (Lp * K) * 2 := by ring
      omega
    have hW1I : ((2:Int))^(w+1) = 2^w * 2 := by ring
    have hdI2 : (d:Int) < 2^w := by
      have := hdwI
      push_cast
      exact_mod_cast hdw
    set lowp : Nat := Lp * (K*2) + 2*qe with hlowpdef
    have hlowplt : lowp < 2^w := hlow
    have hlin2 : ∀ ρ2 : Int, ∀ qe2 : Nat, (qe2 = 2*qe ∧ ρ2 = 2*ρ + b + d) ∨
        (qe2 = 2*qe + 1 ∧ ρ2 = 2*ρ + b - d) →
        (d:Int) * (2 * (qe2:Int) - (2^(k+1) - 1)) + ρ2 = (Tp : Int) := by
      intro ρ2 qe2 hcase
      have hKI : ((2:Int))^(k+1) = 2^k * 2 := by ring
      rcases hcase with ⟨hq, hr⟩ | ⟨hq, hr⟩ <;>
        (subst hq; subst hr; rw [hKI, hTp2I]; push_cast; linear_combination 2 * hlin)
    by_cases hρ : ρ < 0
    · -- running remainder negative: add the divisor back, quotient digit 0
      have hU : uwrap (w+1) ρ = (ρ + 2^(w+1)).toNat := by
        apply uwrap_neg_eq _ _ _ hρ
        omega
      have hUpos : (0:Int) ≤ ρ + 2^(w+1) := by omega
      have hUcast : ((ρ + 2^(w+1)).toNat : Int) = ρ + 2^(w+1) :=
        Int.toNat_of_nonneg hUpos
      have hUlow : 2^w + 1 ≤ (ρ + 2^(w+1)).toNat := by omega
      have hUhigh : (ρ + 2^(w+1)).toNat < 2^(w+1) := by omega
      have hSbig : 2^(2*w) ≤ uwrap (w+1) ρ * 2^w + n % 2^(w-k) * K + qe := by
        rw [hU]
        have h1 : (2^w + 1) * 2^w ≤ (ρ + 2^(w+1)).toNat * 2^w :=
          Nat.mul_le_mul_right _ hUlow
        have h3 : (2^w + 1) * 2^w = 2^w * 2^w + 2^w := by ring
        omega
      have hSlt : uwrap (w+1) ρ * 2^w + n % 2^(w-k) * K + qe < 2^(2*w+1) := by
        rw [hU]
        have h1 : (ρ + 2^(w+1)).toNat * 2^w ≤ (2^(w+1) - 1) * 2^w :=
          Nat.mul_le_mul_right _ (by omega)
        have h2 : (2^(w+1) - 1) * 2^w + 2^w = 2^(w+1) * 2^w := by
          have hPP : 2^(w+1) - 1 + 1 = 2^(w+1) :=
            Nat.succ_pred_eq_of_pos (pow_pos (by norm_num) _)
          calc (2^(w+1) - 1) * 2^w + 2^w = (2^(w+1) - 1 + 1) * 2^w := by ring
            _ = 2^(w+1) * 2^w := by rw [hPP]
        omega
      refine ⟨2*ρ + b + d, 2*qe, ?_, by omega, by omega, by omega,
        hlin2 _ _ (Or.inl ⟨rfl, rfl⟩)⟩
      simp only [nrIter]
      rw [testBit_top w _ hSlt]
      rw [if_pos (by simpa using hSbig)]
      -- the added value, split into quotient/remainder halves
      have hval : 2 * (uwrap (w+1) ρ * 2^w + n % 2^(w-k) * K + qe) + d * 2^w
          = (2 * (ρ + 2^(w+1)).toNat + b + d) * 2^w + lowp := by
        rw [hU]
        have hexp : (2 * (ρ + 2^(w+1)).toNat + b + d) * 2^w
            = 2 * ((ρ + 2^(w+1)).toNat * 2^w) + b * 2^w + d * 2^w := by ring
        omega
      rw [hval]
      by_cases hrhop : (0:Int) ≤ 2*ρ + b + d
      · -- corrected remainder back to nonnegative
        have hUp : uwrap (w+1) (2*ρ + b + d) = (2*ρ + b + d).toNat := by
          apply uwrap_nonneg_eq _ _ hrhop
          omega
        have hcoef : 2 * (ρ + 2^(w+1)).toNat + b + d
            = (2*ρ + b + d).toNat + 2^(w+2) := by omega
        have hsplit2 : ((2*ρ + b + d).toNat + 2^(w+2)) * 2^w + lowp
            = ((2*ρ + b + d).toNat * 2^w + lowp) + 2^(2*w+1) * 2 := by
          have hexp : ((2*ρ + b + d).toNat + 2^(w+2)) * 2^w
              = (2*ρ + b + d).toNat * 2^w + 2^(w+2) * 2^w := by ring
          have hpow : 2^(w+2) * 2^w = 2^(2*w+1) * 2 := by
            rw [hW2, hMM]
            ring
          omega
        rw [hcoef, hsplit2, Nat.add_mul_mod_self_left]
        have hfit : (2*ρ + b + d).toNat * 2^w + lowp < 2^(2*w+1) := by
          have h1 : (2*ρ + b + d).toNat * 2^w ≤ (2^w - 1) * 2^w := by
            apply Nat.mul_le_mul_right
            omega
          have h2 : (2^w - 1) * 2^w + 2^w = 2^w * 2^w := by
            have hPP : 2^w - 1 + 1 = 2^w := by omega
            calc (2^w - 1) * 2^w + 2^w = (2^w - 1 + 1) * 2^w := by ring
              _ = 2^w * 2^w := by rw [hPP]
          omega
        rw [Nat.mod_eq_of_lt hfit, hUp, hK1, hlowpdef]
        ring
      · -- corrected remainder still negative
        push_neg at hrhop
        have hUp : uwrap (w+1) (2*ρ + b + d) = (2*ρ + b + d + 2^(w+1)).toNat := by
          apply uwrap_neg_eq _ _ _ hrhop
          omega
        have hcoef : 2 * (ρ + 2^(w+1)).toNat + b + d
            = (2*ρ + b + d + 2^(w+1)).toNat + 2^(w+1) := by omega
        have hsplit2 : ((2*ρ + b + d + 2^(w+1)).toNat + 2^(w+1)) * 2^w + lowp
            = ((2*ρ + b + d + 2^(w+1)).toNat * 2^w + lowp) + 2^(2*w+1) := by
          have hexp : ((2*ρ + b + d + 2^(w+1)).toNat + 2^(w+1)) * 2^w
              = (2*ρ + b + d + 2^(w+1)).toNat * 2^w + 2^(w+1) * 2^w := by ring
          omega
        rw [hcoef, hsplit2]
        rw [show ((2*ρ + b + d + 2^(w+1)).toNat * 2^w + lowp) + 2^(2*w+1)
            = ((2*ρ + b + d + 2^(w+1)).toNat * 2^w + lowp) + 2^(2*w+1) * 1 by ring]
        rw [Nat.add_mul_mod_self_left]
        have hfit : (2*ρ + b + d + 2^(w+1)).toNat * 2^w + lowp < 2^(2*w+1) := by
          have h1 : (2*ρ + b + d + 2^(w+1)).toNat * 2^w ≤ (2^(w+1) - 1) * 2^w := by
            apply Nat.mul_le_mul_right
            omega
          have h2 : (2^(w+1) - 1) * 2^w + 2^w = 2^(w+1) * 2^w := by
            have hPP : 2^(w+1) - 1 + 1 = 2^(w+1) :=
              Nat.succ_pred_eq_of_pos (pow_pos (by norm_num) _)
            calc (2^(w+1) - 1) * 2^w + 2^w = (2^(w+1) - 1 + 1) * 2^w := by ring
              _ = 2^(w+1) * 2^w := by rw [hPP]
          omega
        rw [Nat.mod_eq_of_lt hfit, hUp, hK1, hlowpdef]
        ring
    · -- running remainder nonnegative: subtract, quotient digit 1
      push_neg at hρ
      have hU : uwrap (w+1) ρ = ρ.toNat := by
        apply uwrap_nonneg_eq _ _ hρ
        omega
      have hSlt2 : uwrap (w+1) ρ * 2^w + n % 2^(w-k) * K + qe < 2^(2*w) := by
        rw [hU]
        have h1 : ρ.toNat * 2^w ≤ (2^w - 1) * 2^w := by
          apply Nat.mul_le_mul_right
          omega
        have h2 : (2^w - 1) * 2^w + 2^w = 2^w * 2^w := by
          have hPP : 2^w - 1 + 1 = 2^w := by omega
          calc (2^w - 1) * 2^w + 2^w = (2^w - 1 + 1) * 2^w := by ring
            _ = 2^w * 2^w := by rw [hPP]
        omega
      refine ⟨2*ρ + b - d, 2*qe + 1, ?_, by omega, by omega, by omega,
        hlin2 _ _ (Or.inr ⟨rfl, rfl⟩)⟩
      simp only [nrIter]
      rw [Nat.testBit_eq_false_of_lt hSlt2]
      simp only [Bool.false_eq_true, if_false]
      -- the subtracted value over ℤ
      have hcW : ((2^w : Nat) : Int) = (2:Int)^w := by push_cast; ring
      have hρcast : (ρ.toNat : Int) = ρ := Int.toNat_of_nonneg hρ
      have h2lowI : 2 * (((n % 2^(w-k)) * K + qe : Nat) : Int)
          = (b : Int) * (2:Int)^w + (lowp : Int) := by
        exact_mod_cast h2low
      have hvalI : 2 * ((uwrap (w+1) ρ * 2^w + n % 2^(w-k) * K + qe : Nat) : Int)
          - (d : Int) * (2:Int)^w
          = (2*ρ + b - d) * (2:Int)^w + (lowp : Int) := by
        have hSc : ((uwrap (w+1) ρ * 2^w + n % 2^(w-k) * K + qe : Nat) : Int)
            = ρ * (2:Int)^w + (((n % 2^(w-k)) * K + qe : Nat) : Int) := by
          rw [hU]
          push_cast [Int.toNat_of_nonneg hρ]
          ring
        rw [hSc]
        linear_combination h2lowI
      by_cases hrhop : (0:Int) ≤ 2*ρ + b - d
      · -- new remainder nonnegative
        have hUp : uwrap (w+1) (2*ρ + b - d) = (2*ρ + b - d).toNat := by
          apply uwrap_nonneg_eq _ _ hrhop
          omega
        have hvalN : 2 * ((uwrap (w+1) ρ * 2^w + n % 2^(w-k) * K + qe : Nat) : Int)
            - (d : Int) * (2:Int)^w
            = (((2*ρ + b - d).toNat * 2^w + lowp : Nat) : Int) := by
          rw [hvalI]
          have hc2 : (((2*ρ + b - d).toNat : Int)) = 2*ρ + b - d :=
            Int.toNat_of_nonneg hrhop
          push_cast [hc2]
          try ring
        rw [hvalN, uwrap_natCast]
        have hfit : (2*ρ + b - d).toNat * 2^w + lowp < 2^(2*w+1) := by
          have h1 : (2*ρ + b - d).toNat * 2^w ≤ (2^w - 1) * 2^w := by
            apply Nat.mul_le_mul_right
            omega
          have h2 : (2^w - 1) * 2^w + 2^w = 2^w * 2^w := by
            have hPP : 2^w - 1 + 1 = 2^w := by omega
            calc (2^w - 1) * 2^w + 2^w = (2^w - 1 + 1) * 2^w := by ring
              _ = 2^w * 2^w := by rw [hPP]
          omega
        rw [Nat.mod_eq_of_lt hfit, lor_one_of_even _ (hevenX _), hUp, hK1,
          hlowpdef]
        ring
      · -- new remainder negative: wraps around the `2w+1`-bit store
        push_neg at hrhop
        have hUp : uwrap (w+1) (2*ρ + b - d)
            = (2*ρ + b - d + 2^(w+1)).toNat := by
          apply uwrap_neg_eq _ _ _ hrhop
          omega
        have hcM : ((2^(2*w+1) : Nat) : Int) = (2:Int)^(2*w+1) := by
          push_cast
          ring
        have hMMI : ((2:Int))^(2*w+1) = 2^(w+1) * 2^w := by
          rw [← pow_add]
          congr 1
          omega
        have hvalneg : 2 * ((uwrap (w+1) ρ * 2^w + n % 2^(w-k) * K + qe : Nat) : Int)
            - (d : Int) * (2:Int)^w < 0 := by
          rw [hvalI]
          have h1 : (2*ρ + b - d) * (2:Int)^w ≤ (-1) * (2:Int)^w := by
            apply mul_le_mul_of_nonneg_right _ (by positivity)
            omega
          have h2 : (lowp : Int) < (2:Int)^w := by
            rw [← hcW]
            exact_mod_cast hlowplt
          omega
        have hvalge : -((2:Int)^(2*w+1))
            ≤ 2 * ((uwrap (w+1) ρ * 2^w + n % 2^(w-k) * K + qe : Nat) : Int)
              - (d : Int) * (2:Int)^w := by
          rw [hvalI, hMMI]
          have h1 : -((2:Int)^(w+1) * 2^w) ≤ (2*ρ + b - d) * (2:Int)^w := by
            have h0 : (-(2:Int)^(w+1)) * 2^w ≤ (2*ρ + b - d) * (2:Int)^w := by
              apply mul_le_mul_of_nonneg_right _ (by positivity)
              omega
            linarith [h0]
          have h2 : (0:Int) ≤ (lowp : Int) := by positivity
          omega
        rw [uwrap_neg_eq _ _ hvalge hvalneg]
        have hvalN2 : 2 * ((uwrap (w+1) ρ * 2^w + n % 2^(w-k) * K + qe : Nat) : Int)
            - (d : Int) * (2:Int)^w + (2:Int)^(2*w+1)
            = (((2*ρ + b - d + 2^(w+1)).toNat * 2^w + lowp : Nat) : Int) := by
          rw [hvalI, hMMI]
          push_cast
          rw [Int.toNat_of_nonneg (by omega : (0:Int) ≤ 2*ρ + b - d + 2^(w+1))]
          ring
        rw [hvalN2]
        have htoNat : (((2*ρ + b - d + 2^(w+1)).toNat * 2^w + lowp : Nat) : Int).toNat
            = (2*ρ + b - d + 2^(w+1)).toNat * 2^w + lowp := Int.toNat_natCast _
        rw [htoNat, lor_one_of_even _ (hevenX _), hUp, hK1, hlowpdef]
        ring

/-- With a zero divisor the non-restoring loop also degenerates to
shifting in ones. -/
lemma nrIter_loop_zero (w n : Nat) (hn : n < 2^w) :
    ∀ k, k ≤ w → (nrIter w 0)^[k] n = n * 2^k + (2^k - 1) := by
  intro k
  induction k with
  | zero => intro _; simp
  | succ k ih =>
    intro hk
    rw [Function.iterate_succ_apply', ih (by omega)]
    have hSbound : n * 2^k + (2^k - 1) < 2^(w+k) := by
      have h1 : n * 2^k ≤ (2^w - 1) * 2^k :=
        Nat.mul_le_mul_right _ (by omega)
      have h2 : (2^w - 1) * 2^k + 2^k = 2^w * 2^k := by
        have hww : 2^w - 1 + 1 = 2^w := by
          have := pow_pos (by norm_num : (0:Nat) < 2) w
          omega
        calc (2^w - 1) * 2^k + 2^k = (2^w - 1 + 1) * 2^k := by ring
          _ = 2^w * 2^k := by rw [hww]
      have h3 : 2^(w+k) = 2^w * 2^k := by rw [Nat.pow_add]
      have h4 : 0 < 2^k := pow_pos (by norm_num) _
      omega
    have hTopLt : n * 2^k + (2^k - 1) < 2^(2*w) := by
      have h1 : 2^(w+k) ≤ 2^(2*w) :=
        Nat.pow_le_pow_right (by norm_num) (by omega)
      omega
    simp only [nrIter]
    rw [Nat.testBit_eq_false_of_lt hTopLt]
    simp only [Bool.false_eq_true, if_false]
    have hfits : 2 * (n * 2^k + (2^k - 1)) < 2^(2*w+1) := by
      have h1 : 2^(w+k) * 2 ≤ 2^(2*w+1) := by
        rw [← Nat.pow_succ]
        exact Nat.pow_le_pow_right (by norm_num) (by omega)
      omega
    have hzero : 2 * (((n * 2^k + (2^k - 1)) : Nat) : Int) - (0:Nat) * (2:Int)^w
        = ((2 * (n * 2^k + (2^k - 1)) : Nat) : Int) := by
      push_cast
      ring
    rw [hzero, uwrap_natCast, Nat.mod_eq_of_lt hfits]
    have heven : (2 * (n * 2^k + (2^k - 1))) % 2 = 0 := by omega
    rw [lor_one_of_even _ heven]
    have h2k : 0 < 2^k := pow_pos (by norm_num) _
    have hpow : 2^(k+1) = 2^k * 2 := Nat.pow_succ 2 k
    calc 2 * (n * 2^k + (2^k - 1)) + 1 = n * (2^k * 2) + (2^k * 2 - 1) := by
          have hdist : n * (2^k * 2) = 2 * (n * 2^k) := by ring
          omega
      _ = n * 2^(k+1) + (2^(k+1) - 1) := by rw [hpow]

/-- After the full `w` loop iterations and the restore cycle,
`_NonRestoringDiv` holds the true quotient in the low half of its store
and the true remainder in `r`, with the RISC-V divide-by-zero values when
`d = 0`. -/
lemma nrRestore_result (w d n : Nat) (hw : 1 ≤ w) (hd : d < 2^w)
    (hn : n < 2^w) (st : NRState) (hi : st.intermediate = (nrIter w d)^[w] n)
    (hdc : st.dCopy = d) :
    (nrRestore w st).intermediate % 2^w = (if d = 0 then 2^w - 1 else n / d) ∧
    (nrRestore w st).r = (if d = 0 then n else n % d) := by
  have hEpos : 0 < 2^w := pow_pos (by norm_num : (0:Nat) < 2) w
  have hM2 : 2^(2*w) = 2^w * 2^w := by
    rw [← Nat.pow_add]
    congr 1
    omega
  by_cases hz : d = 0
  · subst hz
    rw [if_pos rfl, if_pos rfl]
    have hloop := nrIter_loop_zero w n hn w (le_refl w)
    have hSlt : (nrIter w 0)^[w] n < 2^(2*w) := by
      rw [hloop]
      have h1 : n * 2^w ≤ (2^w - 1) * 2^w := Nat.mul_le_mul_right _ (by omega)
      have h2 : (2^w - 1) * 2^w + 2^w = 2^w * 2^w := by
        have hPP : 2^w - 1 + 1 = 2^w := by omega
        calc (2^w - 1) * 2^w + 2^w = (2^w - 1 + 1) * 2^w := by ring
          _ = 2^w * 2^w := by rw [hPP]
      omega
    have hqmod : (nrIter w 0)^[w] n % 2^w = 2^w - 1 := by
      rw [hloop, Nat.add_comm, Nat.add_mul_mod_self_right,
        Nat.mod_eq_of_lt (by omega)]
    have hqdiv : (nrIter w 0)^[w] n / 2^w = n := by
      rw [hloop, Nat.add_comm, Nat.add_mul_div_right _ _ hEpos,
        Nat.div_eq_of_lt (by omega)]
      omega
    have hcW : ((2^w : Nat) : Int) = (2:Int)^w := by push_cast; ring
    constructor
    · simp only [nrRestore, hi, hdc]
      rw [Nat.testBit_eq_false_of_lt hSlt]
      simp only [Bool.false_eq_true, if_false, hqmod, hqdiv]
      have harg : ((2^w - 1 : Nat) : Int) - ((2^w - 1 - (2^w - 1) : Nat) : Int)
          = ((2^w - 1 : Nat) : Int) := by omega
      have hm1 : (2^w - 1) % 2^w = 2^w - 1 := Nat.mod_eq_of_lt (by omega)
      rw [harg, uwrap_natCast, hm1, Nat.add_comm, Nat.add_mul_mod_self_right,
        hm1]
    · simp only [nrRestore, hi, hdc]
      rw [Nat.testBit_eq_false_of_lt hSlt]
      simp only [Bool.false_eq_true, if_false, hqdiv]
      rw [Nat.mod_eq_of_lt hn]
  · obtain ⟨ρ, qe, hS, hlo, hhi, hqe, hlin⟩ :=
      nrIter_loop w d n hw (by omega) hd hn w (le_refl w)
    rw [Nat.sub_self, Nat.pow_zero, Nat.mod_one, Nat.zero_mul,
      Nat.add_zero] at hS
    rw [Nat.sub_self, Nat.pow_zero, Nat.div_one] at hlin
    rw [if_neg hz, if_neg hz]
    have hdI : (0:Int) < d := by exact_mod_cast Nat.pos_of_ne_zero hz
    have hdwI : (d:Int) < 2^w := by exact_mod_cast hd
    have hwp : (0:Int) < 2^w := by positivity
    have hW1I : ((2:Int))^(w+1) = 2^w * 2 := by ring
    have hqelt : qe < 2^w := hqe
    -- the quotient encoded by the plus-minus-one digits
    set Q : Int := 2 * (qe:Int) - (2^w - 1) with hQdef
    have hnI : (d:Int) * Q + ρ = (n:Int) := by
      rw [hQdef]
      exact hlin
    by_cases hρ : ρ < 0
    · -- negative running remainder: restore step adds the divisor back
      have hUpos : (0:Int) ≤ ρ + 2^(w+1) := by omega
      have hU : uwrap (w+1) ρ = (ρ + 2^(w+1)).toNat :=
        uwrap_neg_eq _ _ (by omega) hρ
      have hUcast : ((ρ + 2^(w+1)).toNat : Int) = ρ + 2^(w+1) :=
        Int.toNat_of_nonneg hUpos
      have hcW : ((2^w : Nat) : Int) = (2:Int)^w := by push_cast; ring
      have hUlow : 2^w + 1 ≤ (ρ + 2^(w+1)).toNat := by omega
      have hUhigh : (ρ + 2^(w+1)).toNat < 2^(w+1) := by omega
      have hSbig : 2^(2*w) ≤ (nrIter w d)^[w] n := by
        rw [hS, hU]
        have h1 : (2^w + 1) * 2^w ≤ (ρ + 2^(w+1)).toNat * 2^w :=
          Nat.mul_le_mul_right _ hUlow
        have h3 : (2^w + 1) * 2^w = 2^w * 2^w + 2^w := by ring
        omega
      have hSmod : (nrIter w d)^[w] n % 2^w = qe := by
        rw [hS, Nat.add_comm, Nat.add_mul_mod_self_right,
          Nat.mod_eq_of_lt hqelt]
      have hSdiv : (nrIter w d)^[w] n / 2^w = (ρ + 2^(w+1)).toNat := by
        rw [hS, hU, Nat.add_comm, Nat.add_mul_div_right _ _ hEpos,
          Nat.div_eq_of_lt hqelt]
        omega
      -- the corrected quotient and remainder
      have hQpos : 1 ≤ Q := by
        by_contra hcon
        push_neg at hcon
        have h1 : (d:Int) * Q ≤ 0 :=
          mul_nonpos_iff.mpr (Or.inl ⟨by positivity, by omega⟩)
        have h2 : (0:Int) ≤ (n:Int) := by positivity
        omega
      set qn : Nat := (Q - 1).toNat with hqndef
      set rn : Nat := (ρ + d).toNat with hrndef
      have hQ1 : (qn : Int) = Q - 1 := Int.toNat_of_nonneg (by omega)
      have hrn : (rn : Int) = ρ + d := Int.toNat_of_nonneg (by omega)
      have hrnd : rn < d := by omega
      have hdecomp : n = rn + qn * d := by
        have hInt : (n:Int) = rn + qn * d := by
          rw [hQ1, hrn]
          linear_combination -hnI
        exact_mod_cast hInt
      have hdm := divmod_of_decomp hdecomp hrnd
      have hqn2w : qn < 2^w := by
        have h1 : qn ≤ n := by
          rw [hdecomp]
          have h2 : qn ≤ qn * d := Nat.le_mul_of_pos_right _ (by omega)
          omega
        omega
      have hcW1 : ((2^(w+1) : Nat) : Int) = (2:Int)^(w+1) := by push_cast; ring
      have hW1n : 2^(w+1) = 2^w * 2 := Nat.pow_succ 2 w
      have hSlt : (nrIter w d)^[w] n < 2^(2*w+1) := by
        rw [hS, hU]
        have h1 : (ρ + 2^(w+1)).toNat * 2^w ≤ (2^(w+1) - 1) * 2^w :=
          Nat.mul_le_mul_right _ (by omega)
        have h2 : (2^(w+1) - 1) * 2^w + 2^w = 2^(w+1) * 2^w := by
          have hPP : 2^(w+1) - 1 + 1 = 2^(w+1) :=
            Nat.succ_pred_eq_of_pos (pow_pos (by norm_num) _)
          calc (2^(w+1) - 1) * 2^w + 2^w = (2^(w+1) - 1 + 1) * 2^w := by ring
            _ = 2^(w+1) * 2^w := by rw [hPP]
        have hMM : 2^(2*w+1) = 2^(w+1) * 2^w := by
          rw [← Nat.pow_add]
          congr 1
          omega
        omega
      constructor
      · -- the quotient half of the store
        simp only [nrRestore, hi, hdc]
        rw [testBit_top w _ hSlt, if_pos (by simpa using hSbig)]
        simp only [hSmod, hSdiv]
        have harg : (qe:Int) - ((2^w - 1 - qe : Nat) : Int) - 1 = (qn : Int) := by
          rw [hQ1, hQdef]
          omega
        rw [harg, uwrap_natCast, Nat.mod_eq_of_lt hqn2w, Nat.add_comm,
          Nat.add_mul_mod_self_right, Nat.mod_eq_of_lt hqn2w, hdm.2]
      · -- the corrected remainder
        simp only [nrRestore, hi, hdc]
        rw [testBit_top w _ hSlt, if_pos (by simpa using hSbig)]
        simp only [hSdiv]
        have hUd : (ρ + 2^(w+1)).toNat + d = rn + 2^w * 2 := by omega
        rw [hUd, Nat.add_mul_mod_self_left, Nat.mod_eq_of_lt (by omega), hdm.1]
    · -- nonnegative running remainder: no correction needed
      push_neg at hρ
      have hU : uwrap (w+1) ρ = ρ.toNat :=
        uwrap_nonneg_eq _ _ hρ (by omega)
      have hρcast : (ρ.toNat : Int) = ρ := Int.toNat_of_nonneg hρ
      have hcW : ((2^w : Nat) : Int) = (2:Int)^w := by push_cast; ring
      have hSlt : (nrIter w d)^[w] n < 2^(2*w) := by
        rw [hS, hU]
        have h1 : ρ.toNat * 2^w ≤ (2^w - 1) * 2^w := by
          apply Nat.mul_le_mul_right
          omega
        have h2 : (2^w - 1) * 2^w + 2^w = 2^w * 2^w := by
          have hPP : 2^w - 1 + 1 = 2^w := by omega
          calc (2^w - 1) * 2^w + 2^w = (2^w - 1 + 1) * 2^w := by ring
            _ = 2^w * 2^w := by rw [hPP]
        omega
      have hSmod : (nrIter w d)^[w] n % 2^w = qe := by
        rw [hS, Nat.add_comm, Nat.add_mul_mod_self_right,
          Nat.mod_eq_of_lt hqelt]
      have hSdiv : (nrIter w d)^[w] n / 2^w = ρ.toNat := by
        rw [hS, hU, Nat.add_comm, Nat.add_mul_div_right _ _ hEpos,
          Nat.div_eq_of_lt hqelt]
        omega
      have hQpos : 0 ≤ Q := by
        by_contra hcon
        push_neg at hcon
        have h1 : (d:Int) * Q ≤ (d:Int) * (-1) := by
          apply mul_le_mul_of_nonneg_left (by omega) (by positivity)
        have h2 : (0:Int) ≤ (n:Int) := by positivity
        omega
      set qn : Nat := Q.toNat with hqndef
      set rn : Nat := ρ.toNat with hrndef
      have hQ1 : (qn : Int) = Q := Int.toNat_of_nonneg hQpos
      have hrn : (rn : Int) = ρ := hρcast
      have hrnd : rn < d := by omega
      have hdecomp : n = rn + qn * d := by
        have hInt : (n:Int) = rn + qn * d := by
          rw [hQ1, hrn]
          linear_combination -hnI
        exact_mod_cast hInt
      have hdm := divmod_of_decomp hdecomp hrnd
      have hqn2w : qn < 2^w := by
        have h1 : qn ≤ n := by
          rw [hdecomp]
          have h2 : qn ≤ qn * d := Nat.le_mul_of_pos_right _ (by omega)
          omega
        omega
      constructor
      · simp only [nrRestore, hi, hdc]
        rw [Nat.testBit_eq_false_of_lt hSlt]
        simp only [Bool.false_eq_true, if_false, hSmod, hSdiv]
        have harg : (qe:Int) - ((2^w - 1 - qe : Nat) : Int) = (qn : Int) := by
          rw [hQ1, hQdef]
          omega
        rw [harg, uwrap_natCast, Nat.mod_eq_of_lt hqn2w, Nat.add_comm,
          Nat.add_mul_mod_self_right, Nat.mod_eq_of_lt hqn2w, hdm.2]
      · simp only [nrRestore, hi, hdc]
        rw [Nat.testBit_eq_false_of_lt hSlt]
        simp only [Bool.false_eq_true, if_false, hSdiv]
        rw [Nat.mod_eq_of_lt (by omega), hdm.1]

/-! ### The specified (RISC-V) division results -/

/-- Reference quotient bit pattern demanded by the spec: mathematical
division truncated toward zero, with all bits set on divide-by-zero.
Stated from the spec's words, for comparison with the cores. -/
def specQ (w : Nat) (inp : Inputs) : Nat :=
  match inp.sign with
  | .UNSIGNED => if inp.d = 0 then 2^w - 1 else inp.n / inp.d
  | .SIGNED =>
    if inp.d = 0 then 2^w - 1
    else uwrap w ((sval w inp.n).tdiv (sval w inp.d))

/-- Reference remainder bit pattern demanded by the spec: the remainder
takes the dividend's sign; on divide-by-zero it is the dividend itself
(`tmod` by zero already returns the dividend). -/
def specR (w : Nat) (inp : Inputs) : Nat :=
  match inp.sign with
  | .UNSIGNED => if inp.d = 0 then inp.n else inp.n % inp.d
  | .SIGNED => uwrap w ((sval w inp.n).tmod (sval w inp.d))

/-! #### Bit-pattern and sign helpers -/

lemma uwrap_congr (w : Nat) (x y : Int) (h : x % ((2:Int)^w) = y % 2^w) :
    uwrap w x = uwrap w y := by
  rw [uwrap, uwrap, h]

lemma negOut_natCast (w x : Nat) : negOut w x = uwrap w (-(x:Int)) := by
  rw [negOut]
  apply uwrap_congr
  rw [sval]
  by_cases h : x < 2^(w-1)
  · rw [if_pos h]
  · rw [if_neg h]
    have hstep : -((x:Int) - 2^w) = -(x:Int) + 2^w * 1 := by ring
    rw [hstep, Int.add_mul_emod_self_left]

lemma uwrap_natAbs_of_neg (w : Nat) (N : Int) (hneg : N < 0)
    (hmag : N.natAbs ≤ 2^w) : uwrap w (-N) = N.natAbs % 2^w := by
  have h1 : -N = (N.natAbs : Int) := by omega
  rw [h1, uwrap_natCast]

lemma uwrap_natCast_lt (w m : Nat) (h : m < 2^w) : uwrap w (m : Int) = m := by
  rw [uwrap_natCast, Nat.mod_eq_of_lt h]

/-- The most significant bit of an in-range pattern reads off its
magnitude threshold. -/
lemma testBit_msb (e x : Nat) (hx : x < 2^(e+1)) :
    x.testBit e = decide (2^e ≤ x) := by
  have hEpos : 0 < 2^e := pow_pos (by norm_num) _
  have hE : 2^(e+1) = 2^e * 2 := Nat.pow_succ 2 e
  rw [Nat.testBit_to_div_mod]
  by_cases h : 2^e ≤ x
  · have h1 : 1 ≤ x / 2^e := (Nat.le_div_iff_mul_le hEpos).mpr (by omega)
    have h2 : x / 2^e < 2 := (Nat.div_lt_iff_lt_mul hEpos).mpr (by omega)
    have h3 : x / 2^e = 1 := by omega
    simp [h3, h]
  · have h3 : x / 2^e = 0 := Nat.div_eq_of_lt (by omega)
    simp [h3, h]

/-- The sign of the two's-complement reading is the top bit. -/
lemma sval_neg_iff (w x : Nat) (hw : 1 ≤ w) (hx : x < 2^w) :
    sval w x < 0 ↔ x.testBit (w-1) = true := by
  have hsplit : 2^w = 2^(w-1) * 2 := by
    rw [← Nat.pow_succ]
    congr 1
    omega
  have hbit : x.testBit (w-1) = decide (2^(w-1) ≤ x) := by
    apply testBit_msb
    have : w - 1 + 1 = w := by omega
    rw [this]
    exact hx
  rw [sval, hbit]
  by_cases h : x < 2^(w-1)
  · rw [if_pos h]
    simp
    omega
  · rw [if_neg h]
    simp
    constructor
    · intro _
      omega
    · intro _
      have hxI : (x:Int) < ((2^w : Nat) : Int) := by exact_mod_cast hx
      push_cast at hxI
      omega

lemma sval_bounds (w x : Nat) (hw : 1 ≤ w) (hx : x < 2^w) :
    -((2:Int)^(w-1)) ≤ sval w x ∧ sval w x < 2^(w-1) := by
  have hsplit : (2:Int)^w = 2^(w-1) * 2 := by
    rw [← pow_succ]
    congr 1
    omega
  have hxI : (x:Int) < 2^w := by exact_mod_cast hx
  have hp2 : (0:Int) < 2^(w-1) := by positivity
  rw [sval]
  by_cases h : x < 2^(w-1)
  · rw [if_pos h]
    have hxI2 : (x:Int) < 2^(w-1) := by exact_mod_cast h
    have hp : (0:Int) ≤ (x:Int) := by positivity
    omega
  · rw [if_neg h]
    have hxI2 : ((2:Int))^(w-1) ≤ x := by exact_mod_cast Nat.le_of_not_lt h
    omega

lemma uwrap_sval (w x : Nat) (hx : x < 2^w) : uwrap w (sval w x) = x := by
  have h1 : uwrap w (sval w x) = uwrap w (x:Int) := by
    apply uwrap_congr
    rw [sval]
    by_cases h : x < 2^(w-1)
    · rw [if_pos h]
    · rw [if_neg h]
      have hstep : (x:Int) - 2^w = (x:Int) + 2^w * (-1) := by ring
      rw [hstep, Int.add_mul_emod_self_left]
  rw [h1, uwrap_natCast_lt _ _ hx]

/-- `tmod` negates with its first argument (derived from
`Int.tmod_add_tdiv`). -/
lemma neg_tmod_eq (a b : Int) : (-a).tmod b = -(a.tmod b) := by
  have h1 := Int.tmod_add_tdiv a b
  have h2 := Int.tmod_add_tdiv (-a) b
  rw [Int.neg_tdiv] at h2
  linarith

lemma tdiv_natCast (m n : Nat) : (m : Int).tdiv (n : Int) = ((m / n : Nat) : Int) := rfl

lemma tmod_natCast (m n : Nat) : (m : Int).tmod (n : Int) = ((m % n : Nat) : Int) := rfl

lemma sval_natAbs_le (w x : Nat) (hw : 1 ≤ w) (hx : x < 2^w) :
    (sval w x).natAbs ≤ 2^(w-1) := by
  obtain ⟨h1, h2⟩ := sval_bounds w x hw hx
  have hc : ((2:Int)^(w-1)) = ((2^(w-1) : Nat) : Int) := by push_cast; ring
  omega

lemma mdDivInputs_unsigned (w : Nat) (inp : Inputs)
    (hs : inp.sign = .UNSIGNED) : mdDivInputs w inp = inp := by
  simp [mdDivInputs, hs]

lemma mdDivInputs_d0 (w : Nat) (inp : Inputs) (hd : inp.d = 0) :
    mdDivInputs w inp = inp := by
  simp [mdDivInputs, mdQuadN, mdQuadD, hd, Nat.zero_testBit]

lemma mdDivInputs_fields (w : Nat) (inp : Inputs) :
    (mdDivInputs w inp).sign = inp.sign ∧
    (mdDivInputs w inp).n =
      (if inp.sign = .SIGNED && mdQuadN w inp then negOut w inp.n
       else inp.n) ∧
    (mdDivInputs w inp).d =
      (if inp.sign = .SIGNED && mdQuadD w inp then negOut w inp.d
       else inp.d) := by
  rw [mdDivInputs]
  by_cases h1 : (inp.sign = Sign.SIGNED && mdQuadN w inp) = true <;>
    by_cases h2 : (inp.sign = Sign.SIGNED && mdQuadD w inp) = true <;>
    simp [h1, h2]

lemma mdDivInputs_signed (w : Nat) (hw : 1 ≤ w) (inp : Inputs)
    (hn : inp.n < 2^w) (hd : inp.d < 2^w) (hs : inp.sign = .SIGNED)
    (hdz : inp.d ≠ 0) :
    (mdDivInputs w inp).sign = .SIGNED ∧
    (mdDivInputs w inp).n = (sval w inp.n).natAbs ∧
    (mdDivInputs w inp).d = (sval w inp.d).natAbs := by
  have habs_n := sval_natAbs_le w inp.n hw hn
  have habs_d := sval_natAbs_le w inp.d hw hd
  have hhalf : 2^(w-1) < 2^w := Nat.pow_lt_pow_right (by norm_num) (by omega)
  have hmag : ∀ x : Nat, x < 2^w → x.testBit (w-1) = true →
      negOut w x = (sval w x).natAbs := by
    intro x hx hbit
    have hneg : sval w x < 0 := (sval_neg_iff w x hw hx).mpr hbit
    have habs := sval_natAbs_le w x hw hx
    rw [negOut_natCast]
    have hcong : (-(x:Int)) % ((2:Int)^w) = (-(sval w x)) % 2^w := by
      rw [sval]
      by_cases h : x < 2^(w-1)
      · rw [if_pos h]
      · rw [if_neg h]
        have hstep : -((x:Int) - 2^w) = -(x:Int) + 2^w * 1 := by ring
        rw [hstep, Int.add_mul_emod_self_left]
    rw [uwrap_congr _ _ _ hcong, uwrap_natAbs_of_neg _ _ hneg (by omega),
      Nat.mod_eq_of_lt (by omega)]
  have hpos : ∀ x : Nat, x < 2^w → x.testBit (w-1) = false →
      x = (sval w x).natAbs := by
    intro x hx hbit
    have hnneg : ¬(sval w x < 0) := by
      rw [sval_neg_iff w x hw hx, hbit]
      simp
    push_neg at hnneg
    have hval : sval w x = (x:Int) := by
      rw [sval]
      by_cases h : x < 2^(w-1)
      · rw [if_pos h]
      · rw [if_neg h]
        exfalso
        rw [sval, if_neg h] at hnneg
        have hxI : (x:Int) < ((2^w:Nat):Int) := by exact_mod_cast hx
        push_cast at hxI
        omega
    rw [hval]
    omega
  obtain ⟨hsgn, hnf, hdf⟩ := mdDivInputs_fields w inp
  refine ⟨by rw [hsgn, hs], ?_, ?_⟩
  · rw [hnf]
    cases hbn : inp.n.testBit (w-1)
    · have hc : (inp.sign = Sign.SIGNED && mdQuadN w inp) = false := by
        simp [mdQuadN, hbn]
      rw [hc]
      simp only [Bool.false_eq_true, if_false]
      exact hpos inp.n hn hbn
    · have hc : (inp.sign = Sign.SIGNED && mdQuadN w inp) = true := by
        simp [mdQuadN, hbn, hs, hdz]
      rw [hc]
      simp only [if_true]
      exact hmag inp.n hn hbn
  · rw [hdf]
    cases hbd : inp.d.testBit (w-1)
    · have hc : (inp.sign = Sign.SIGNED && mdQuadD w inp) = false := by
        simp [mdQuadD, hbd]
      rw [hc]
      simp only [Bool.false_eq_true, if_false]
      exact hpos inp.d hd hbd
    · have hc : (inp.sign = Sign.SIGNED && mdQuadD w inp) = true := by
        simp [mdQuadD, hbd, hs]
      rw [hc]
      simp only [if_true]
      exact hmag inp.d hd hbd

/-- The sign-conversion shell around an exact unsigned divider core
produces exactly the specified RISC-V quotient/remainder patterns. -/
lemma mdOutputFix_spec (w : Nat) (hw : 1 ≤ w) (inp : Inputs)
    (hn : inp.n < 2^w) (hd : inp.d < 2^w) :
    mdOutputFix w inp.sign (mdQuadN w inp) (mdQuadD w inp)
      { sign := inp.sign,
        q := if (mdDivInputs w inp).d = 0 then 2^w - 1
             else (mdDivInputs w inp).n / (mdDivInputs w inp).d,
        r := if (mdDivInputs w inp).d = 0 then (mdDivInputs w inp).n
             else (mdDivInputs w inp).n % (mdDivInputs w inp).d }
      = { sign := inp.sign, q := specQ w inp, r := specR w inp } := by
  have hhalf : 2^(w-1) < 2^w := Nat.pow_lt_pow_right (by norm_num) (by omega)
  cases hsign : inp.sign with
  | UNSIGNED =>
    rw [mdDivInputs_unsigned w inp hsign]
    simp [mdOutputFix, specQ, specR, hsign]
  | SIGNED =>
    by_cases hdz : inp.d = 0
    · rw [mdDivInputs_d0 w inp hdz]
      have hq0 : mdQuadN w inp = false := by simp [mdQuadN, hdz]
      have hd0 : mdQuadD w inp = false := by
        simp [mdQuadD, hdz, Nat.zero_testBit]
      have hsv0 : sval w 0 = 0 := by
        rw [sval]
        rw [if_pos (pow_pos (by norm_num) _)]
        exact Nat.cast_zero
      have htm : (sval w inp.n).tmod 0 = sval w inp.n := by
        have h1 := Int.tmod_add_tdiv (sval w inp.n) 0
        simpa using h1
      simp only [mdOutputFix, specQ, specR, hsign, hq0, hd0, hdz, hsv0, htm,
        Bool.and_false, Bool.false_and, Bool.and_true, if_false,
        Bool.false_eq_true, eq_self_iff_true, if_true]
      rw [uwrap_sval w inp.n hn]
    · obtain ⟨hsg, hnA, hdA⟩ :=
        mdDivInputs_signed w hw inp hn hd hsign hdz
      have habs_n := sval_natAbs_le w inp.n hw hn
      have habs_d := sval_natAbs_le w inp.d hw hd
      have hD0 : sval w inp.d ≠ 0 := by
        have hdI : ((inp.d : Nat) : Int) < ((2^w : Nat) : Int) := by
          exact_mod_cast hd
        rw [sval]
        split
        · exact_mod_cast hdz
        · push_cast at hdI ⊢
          omega
      have hbz : (sval w inp.d).natAbs ≠ 0 := by
        intro h
        exact hD0 (by omega)
      set a : Nat := (sval w inp.n).natAbs with hadef
      set b : Nat := (sval w inp.d).natAbs with hbdef
      have hqb : a / b < 2^w := by
        have := Nat.div_le_self a b
        omega
      have hrb : a % b < 2^w := by
        have := Nat.mod_le a b
        omega
      rw [hnA, hdA, if_neg hbz, if_neg hbz]
      cases hbn : inp.n.testBit (w-1) <;> cases hbd : inp.d.testBit (w-1)
      · -- n ≥ 0, d > 0
        have hN : sval w inp.n = ((a : Nat) : Int) := by
          have h1 : ¬(sval w inp.n < 0) := by
            rw [sval_neg_iff w inp.n hw hn, hbn]
            simp
          omega
        have hD : sval w inp.d = ((b : Nat) : Int) := by
          have h1 : ¬(sval w inp.d < 0) := by
            rw [sval_neg_iff w inp.d hw hd, hbd]
            simp
          omega
        have hqn : mdQuadN w inp = false := by simp [mdQuadN, hbn]
        have hqd : mdQuadD w inp = false := by simp [mdQuadD, hbd]
        simp only [mdOutputFix, specQ, specR, hsign, hqn, hqd, if_neg hdz,
          Bool.and_false, Bool.false_and, Bool.and_true, Bool.false_eq_true,
          if_false, hN, hD, tdiv_natCast, tmod_natCast,
          uwrap_natCast_lt _ _ hqb, uwrap_natCast_lt _ _ hrb]
      · -- n ≥ 0, d < 0
        have hN : sval w inp.n = ((a : Nat) : Int) := by
          have h1 : ¬(sval w inp.n < 0) := by
            rw [sval_neg_iff w inp.n hw hn, hbn]
            simp
          omega
        have hD : sval w inp.d = -((b : Nat) : Int) := by
          have h1 : sval w inp.d < 0 :=
            (sval_neg_iff w inp.d hw hd).mpr hbd
          omega
        have hqn : mdQuadN w inp = false := by simp [mdQuadN, hbn]
        have hqd : mdQuadD w inp = true := by simp [mdQuadD, hbd]
        simp only [mdOutputFix, specQ, specR, hsign, hqn, hqd, if_neg hdz,
          Bool.and_false, Bool.false_and, Bool.and_true, Bool.true_and,
          Bool.not_false, Bool.not_true, Bool.false_eq_true, if_false,
          if_true, decide_True, hN, hD, Int.tdiv_neg, Int.tmod_neg,
          tdiv_natCast, tmod_natCast, uwrap_natCast_lt _ _ hrb,
          negOut_natCast]
      · -- n < 0, d > 0
        have hN : sval w inp.n = -((a : Nat) : Int) := by
          have h1 : sval w inp.n < 0 :=
            (sval_neg_iff w inp.n hw hn).mpr hbn
          omega
        have hD : sval w inp.d = ((b : Nat) : Int) := by
          have h1 : ¬(sval w inp.d < 0) := by
            rw [sval_neg_iff w inp.d hw hd, hbd]
            simp
          omega
        have hqn : mdQuadN w inp = true := by simp [mdQuadN, hbn, hdz]
        have hqd : mdQuadD w inp = false := by simp [mdQuadD, hbd]
        simp only [mdOutputFix, specQ, specR, hsign, hqn, hqd, if_neg hdz,
          Bool.and_false, Bool.false_and, Bool.and_true, Bool.true_and,
          Bool.not_false, Bool.not_true, Bool.false_eq_true, if_false,
          if_true, decide_True, hN, hD, Int.neg_tdiv, neg_tmod_eq,
          tdiv_natCast, tmod_natCast, negOut_natCast]
      · -- n < 0, d < 0
        have hN : sval w inp.n = -((a : Nat) : Int) := by
          have h1 : sval w inp.n < 0 :=
            (sval_neg_iff w inp.n hw hn).mpr hbn
          omega
        have hD : sval w inp.d = -((b : Nat) : Int) := by
          have h1 : sval w inp.d < 0 :=
            (sval_neg_iff w inp.d hw hd).mpr hbd
          omega
        have hqn : mdQuadN w inp = true := by simp [mdQuadN, hbn, hdz]
        have hqd : mdQuadD w inp = true := by simp [mdQuadD, hbd]
        simp only [mdOutputFix, specQ, specR, hsign, hqn, hqd, if_neg hdz,
          Bool.and_false, Bool.false_and, Bool.and_true, Bool.true_and,
          Bool.not_false, Bool.not_true, Bool.false_eq_true, if_false,
          if_true, decide_True, hN, hD, Int.neg_tdiv, Int.tdiv_neg,
          Int.tmod_neg, neg_tmod_eq, tdiv_natCast, tmod_natCast,
          uwrap_natCast_lt _ _ hqb, negOut_natCast]
        rw [neg_neg, uwrap_natCast_lt _ _ hqb]

lemma uwrap_lt (w : Nat) (x : Int) : uwrap w x < 2^w := by
  have hpos : (0:Int) < 2^w := pow_pos (by norm_num) w
  have h1 : 0 ≤ x % 2^w := Int.emod_nonneg x (by omega)
  have h2 : x % 2^w < 2^w := Int.emod_lt_of_pos x hpos
  have hc : ((2^w : Nat) : Int) = (2:Int)^w := by push_cast; ring
  rw [uwrap]
  omega

/-- The latched core operands stay inside the `w`-bit range. -/
lemma mdDivInputs_lt (w : Nat) (inp : Inputs) (hn : inp.n < 2^w)
    (hd : inp.d < 2^w) :
    (mdDivInputs w inp).n < 2^w ∧ (mdDivInputs w inp).d < 2^w := by
  obtain ⟨-, hnf, hdf⟩ := mdDivInputs_fields w inp
  constructor
  · rw [hnf]
    split
    · exact uwrap_lt w _
    · exact hn
  · rw [hdf]
    split
    · exact uwrap_lt w _
    · exact hd

/-- Single-transaction run of `MulticycleDiv` over `_RestoringDiv`:
after acceptance the shell sits in `DIVIDE_LOOP` while the core runs its
counter down; the state during cycle `k+2` for `k ≤ w`. -/
lemma mdRun_rest_loop (w : Nat) (hw : 1 ≤ w) (inp : Inputs) :
    ∀ k, k ≤ w →
    mdRun restCore restInit w inp (k+2) =
      { fsm := .DIVIDE_LOOP, quadN := mdQuadN w inp,
        quadD := mdQuadD w inp, divInputs := mdDivInputs w inp,
        outPayload := { sign := .UNSIGNED, q := 0, r := 0 },
        core := { intermediate :=
                    (restIter w (mdDivInputs w inp).d)^[k]
                      ((mdDivInputs w inp).n),
                  itersLeft := w - k, outValid := decide (k = w),
                  sCopy := (mdDivInputs w inp).sign,
                  dCopy := (mdDivInputs w inp).d } } := by
  intro k
  induction k with
  | zero =>
    intro _
    have h0 : decide (0 = w) = false := by
      simp only [decide_eq_false_iff_not]
      omega
    rw [h0]
    rfl
  | succ k ih =>
    intro hk1
    have hk : k ≤ w := by omega
    have hkw : decide (k = w) = false := by
      simp only [decide_eq_false_iff_not]
      omega
    have hwk : w - k ≠ 0 := by omega
    have hstep : mdRun restCore restInit w inp (k+1+2)
        = mdStep restCore w (mdRun restCore restInit w inp (k+2)) inp
            false true := rfl
    rw [hstep, ih hk]
    by_cases hkw1 : k + 1 = w
    · simp only [mdStep, restCore, restStep, restInpReady, restInProgress,
        hkw, Function.iterate_succ_apply, Bool.false_eq_true, if_false,
        Bool.and_false, Bool.false_and, Bool.and_true, Bool.true_and,
        Bool.false_or, Bool.or_false]
      simp [restStep, restInpReady, restInProgress, hkw, hwk,
        show w - k - 1 = 0 by omega, hkw1, show w - w = 0 by omega]
      exact (Function.iterate_succ_apply' _ k _).symm.trans
        (Function.iterate_succ_apply _ k _)
    · simp only [mdStep, restCore]
      simp [restStep, restInpReady, restInProgress, hkw, hwk,
        show w - k - 1 = w - (k+1) by omega, hkw1,
        show ¬(w - (k+1) = 0) by omega, Function.iterate_succ_apply']

/-- `MulticycleDiv` with the restoring core: at the documented latency
`w+3` the output is valid and carries the specified quotient/remainder
patterns. -/
lemma mdResult_rest (w : Nat) (hw : 1 ≤ w) (inp : Inputs)
    (hn : inp.n < 2^w) (hd : inp.d < 2^w) :
    mdResult w .RESTORING inp
      = (true, { sign := inp.sign, q := specQ w inp, r := specR w inp }) := by
  obtain ⟨hDIn, hDId⟩ := mdDivInputs_lt w inp hn hd
  obtain ⟨hDIs, -, -⟩ := mdDivInputs_fields w inp
  have hloop := mdRun_rest_loop w hw inp w (le_refl w)
  have hstep : mdRun restCore restInit w inp (w+3)
      = mdStep restCore w (mdRun restCore restInit w inp (w+2)) inp
          false true := rfl
  have hres := restIter_result w (mdDivInputs w inp).d
    (mdDivInputs w inp).n hw hDId hDIn
  have hfix := mdOutputFix_spec w hw inp hn hd
  simp only [mdResult, mdLatency]
  rw [hstep, hloop]
  simp only [mdStep, restCore, restOut, mdOutValid, decide_True,
    Bool.true_eq_false, if_true, eq_self_iff_true]
  rw [hres.1, hres.2, hDIs]
  rw [hfix]

/-- Single-transaction run of `MulticycleDiv` over `_NonRestoringDiv`:
state during cycle `k+2` for `k ≤ w` (loop phase; the restore flag rises
with the last loop edge). -/
lemma mdRun_nr_loop (w : Nat) (hw : 1 ≤ w) (inp : Inputs) :
    ∀ k, k ≤ w →
    mdRun nrCore nrInit w inp (k+2) =
      { fsm := .DIVIDE_LOOP, quadN := mdQuadN w inp,
        quadD := mdQuadD w inp, divInputs := mdDivInputs w inp,
        outPayload := { sign := .UNSIGNED, q := 0, r := 0 },
        core := { intermediate :=
                    (nrIter w (mdDivInputs w inp).d)^[k]
                      ((mdDivInputs w inp).n),
                  itersLeft := w - k, restoreStep := decide (k = w),
                  outValid := false,
                  sCopy := (mdDivInputs w inp).sign,
                  dCopy := (mdDivInputs w inp).d, r := 0 } } := by
  intro k
  induction k with
  | zero =>
    intro _
    have h0 : decide (0 = w) = false := by
      simp only [decide_eq_false_iff_not]
      omega
    rw [h0]
    rfl
  | succ k ih =>
    intro hk1
    have hk : k ≤ w := by omega
    have hkw : decide (k = w) = false := by
      simp only [decide_eq_false_iff_not]
      omega
    have hwk : w - k ≠ 0 := by omega
    have hstep : mdRun nrCore nrInit w inp (k+1+2)
        = mdStep nrCore w (mdRun nrCore nrInit w inp (k+2)) inp
            false true := rfl
    rw [hstep, ih hk]
    by_cases hkw1 : k + 1 = w
    · simp only [mdStep, nrCore]
      simp [nrStep, nrInpReady, nrInProgress, hkw, hwk,
        show w - k - 1 = 0 by omega, hkw1, show w - w = 0 by omega]
      rw [← hkw1]
      exact (Function.iterate_succ_apply' _ k _).symm
    · simp only [mdStep, nrCore]
      simp [nrStep, nrInpReady, nrInProgress, hkw, hwk,
        show w - k - 1 = w - (k+1) by omega, hkw1,
        show ¬(w - (k+1) = 0) by omega, Function.iterate_succ_apply']

/-- Both branches of the restore cycle raise `out_valid`. -/
lemma nrRestore_outValid (w : Nat) (st : NRState) :
    (nrRestore w st).outValid = true := by
  rw [nrRestore]
  split
  · rfl
  · rfl

/-- The restore cycle keeps the latched sign. -/
lemma nrRestore_sCopy (w : Nat) (st : NRState) :
    (nrRestore w st).sCopy = st.sCopy := by
  rw [nrRestore]
  split
  · rfl
  · rfl

/-- The non-restoring run during cycle `w+3`: the restore cycle has been
taken and the shell is still in `DIVIDE_LOOP`. -/
lemma mdRun_nr_restore (w : Nat) (hw : 1 ≤ w) (inp : Inputs) :
    mdRun nrCore nrInit w inp (w+3) =
      { fsm := .DIVIDE_LOOP, quadN := mdQuadN w inp,
        quadD := mdQuadD w inp, divInputs := mdDivInputs w inp,
        outPayload := { sign := .UNSIGNED, q := 0, r := 0 },
        core := nrRestore w
          { intermediate := (nrIter w (mdDivInputs w inp).d)^[w]
              ((mdDivInputs w inp).n),
            itersLeft := 0, restoreStep := true, outValid := false,
            sCopy := (mdDivInputs w inp).sign,
            dCopy := (mdDivInputs w inp).d, r := 0 } } := by
  have hloop := mdRun_nr_loop w hw inp w (le_refl w)
  have hstep : mdRun nrCore nrInit w inp (w+3)
      = mdStep nrCore w (mdRun nrCore nrInit w inp (w+2)) inp
          false true := rfl
  rw [hstep, hloop]
  simp [mdStep, nrCore, nrStep, nrInpReady, nrInProgress,
    show w - w = 0 by omega]

/-- `MulticycleDiv` with the non-restoring core: at the documented
latency `w+4` the output is valid and carries the specified patterns. -/
lemma mdResult_nr (w : Nat) (hw : 1 ≤ w) (inp : Inputs)
    (hn : inp.n < 2^w) (hd : inp.d < 2^w) :
    mdResult w .NON_RESTORING inp
      = (true, { sign := inp.sign, q := specQ w inp, r := specR w inp }) := by
  obtain ⟨hDIn, hDId⟩ := mdDivInputs_lt w inp hn hd
  obtain ⟨hDIs, -, -⟩ := mdDivInputs_fields w inp
  have hrst := mdRun_nr_restore w hw inp
  have hstep : mdRun nrCore nrInit w inp (w+4)
      = mdStep nrCore w (mdRun nrCore nrInit w inp (w+3)) inp
          false true := rfl
  have hres := nrRestore_result w (mdDivInputs w inp).d
    (mdDivInputs w inp).n hw hDId hDIn
    { intermediate := (nrIter w (mdDivInputs w inp).d)^[w]
        ((mdDivInputs w inp).n),
      itersLeft := 0, restoreStep := true, outValid := false,
      sCopy := (mdDivInputs w inp).sign,
      dCopy := (mdDivInputs w inp).d, r := 0 } rfl rfl
  have hsc : (nrRestore w
      { intermediate := (nrIter w (mdDivInputs w inp).d)^[w]
          ((mdDivInputs w inp).n),
        itersLeft := 0, restoreStep := true, outValid := false,
        sCopy := (mdDivInputs w inp).sign,
        dCopy := (mdDivInputs w inp).d, r := 0 } : NRState).sCopy
      = inp.sign := by
    rw [nrRestore_sCopy]
    exact hDIs
  have hfix := mdOutputFix_spec w hw inp hn hd
  simp only [mdResult, mdLatency]
  rw [hstep, hrst]
  simp only [mdStep, nrCore, nrRestore_outValid, if_true, mdOutValid,
    nrOut, decide_True, eq_self_iff_true]
  rw [hres.1, hres.2, hsc, hDIs]
  rw [hfix]

/-- Both `MulticycleDiv` variants deliver the specified patterns at their
documented latencies. -/
lemma mdResult_spec (w : Nat) (hw : 1 ≤ w) (inp : Inputs)
    (hn : inp.n < 2^w) (hd : inp.d < 2^w) (impl : Impl) :
    mdResult w impl inp
      = (true, { sign := inp.sign, q := specQ w inp, r := specR w inp }) := by
  cases impl with
  | RESTORING => exact mdResult_rest w hw inp hn hd
  | NON_RESTORING => exact mdResult_nr w hw inp hn hd

/-! ### `LongDivider`: the long-division reference core -/

/-- Fuel-driven bit length (`int.bit_length` / Amaranth `bits_for`):
number of bits needed to represent `n`, with `bitLen 0 = 0`. -/
def bitLenAux : Nat → Nat → Nat
  | 0, _ => 0
  | fuel+1, n => if n = 0 then 0 else bitLenAux fuel (n / 2) + 1

def bitLen (n : Nat) : Nat := bitLenAux n n

/-- Width of the `iters_left` register, `Signal(range(width))`:
`bits_for(width - 1)` bits.  For `width = 1` this is zero bits. -/
def ilBits (w : Nat) : Nat := bitLen (w - 1)

/-- Registers of `LongDivider`: the double-width quotient and remainder
accumulators, the loop counter, the registered output-valid flag, the
latched sign mode and the two latched operand sign bits (`a_sign` from
the dividend, `n_sign` from the divisor). -/
structure LDState where
  quotient : Nat
  remainder : Nat
  itersLeft : Nat
  outValid : Bool
  sCopy : Sign
  aSign : Bool
  nSign : Bool
deriving DecidableEq, Repr

def ldInit : LDState :=
  { quotient := 0, remainder := 0, itersLeft := 0, outValid := false,
    sCopy := .UNSIGNED, aSign := false, nSign := false }

/-- Comb `in_progress = (iters_left != 0)`. -/
def ldInProgress (st : LDState) : Bool := st.itersLeft ≠ 0

/-- Comb `inp.ready = (outp.ready & outp.valid) | ~in_progress`. -/
def ldInpReady (st : LDState) (outpReady : Bool) : Bool :=
  (outpReady && st.outValid) || !(ldInProgress st)

/-- Comb output payload: the low `w` bits of each accumulator. -/
def ldOut (w : Nat) (st : LDState) : Outputs :=
  { sign := st.sCopy, q := st.quotient % 2^w, r := st.remainder % 2^w }

/-- The value of a `w`-bit payload signal under `as_signed()` /
`as_unsigned()` according to the sign mode. -/
def extVal (w : Nat) (s : Sign) (x : Nat) : Int :=
  match s with
  | .UNSIGNED => (x : Int)
  | .SIGNED => sval w x

/-- `_MagnitudeComparator.o = abs(divisor) <= abs(dividend)` (both ports
wide enough that no operand is truncated). -/
def magO (divisor dividend : Int) : Bool := divisor.natAbs ≤ dividend.natAbs

/-- The accept-edge block of `LongDivider.elaborate` (the body of
`m.If(self.inp.ready & self.inp.valid)`), reading the live payload and
writing onto `base`.  The four quotient/remainder cases are sequential
`m.If`s, so later cases override earlier ones; Python operator precedence
makes the third disjunct of the first case `(n[-1] & d) == 0` (true when
the dividend sign bit is clear or the divisor is even) and the last
conjunct of the second case `~(d == (0 & n[-1])) = (d != 0)`. -/
def ldAccept (w : Nat) (inp : Inputs) (base : LDState) : LDState :=
  let nb := inp.n.testBit (w-1)
  let db := inp.d.testBit (w-1)
  let sg : Bool := inp.sign = Sign.SIGNED
  let clr : Bool := sg && decide (inp.d = 0) && nb
  let dvs : Int := extVal w inp.sign inp.d * 2^(w-1)
  let dvd : Int := extVal w inp.sign inp.n
  let fire := magO dvs dvd
  let c1 : Bool := !sg || (!nb && !db) || (!nb || decide (inp.d % 2 = 0))
  let c2 : Bool := sg && nb && !db && !(decide (inp.d = 0))
  let c3 : Bool := sg && !nb && db
  let c4 : Bool := sg && nb && db
  let qp : Nat :=
    if fire then
      if c4 then 2^(w-1) % 2^(2*w)
      else if c3 then uwrap (2*w) (-((2:Int)^(w-1)))
      else if c2 then uwrap (2*w) (-((2:Int)^(w-1)))
      else if c1 then 2^(w-1) % 2^(2*w)
      else base.quotient
    else 0
  let rp : Nat :=
    if fire then
      if c4 then uwrap (2*w) (sval w inp.n - sval w inp.d * 2^(w-1))
      else if c3 then
        uwrap (2*w) (sval w inp.n - sval w inp.d * (-((2:Int)^(w-1))))
      else if c2 then
        uwrap (2*w) (sval w inp.n - sval w inp.d * (-((2:Int)^(w-1))))
      else if c1 then
        uwrap (2*w) (extVal w inp.sign inp.n
          - extVal w inp.sign inp.d * 2^(w-1))
      else base.remainder
    else uwrap (2*w) (extVal w inp.sign inp.n)
  { base with
      itersLeft := (w - 1) % 2^(ilBits w),
      aSign := nb && !clr, nSign := db && !clr, sCopy := inp.sign,
      quotient := qp, remainder := rp }

/-- The main division-loop block of `LongDivider.elaborate` (the body of
`m.If(in_progress)`): right-hand sides read the pre-edge state `pre` and
the live payload, and the assignments land on top of `base`.  The
magnitude comparator is driven from the live `sign`/`d` payload signals,
while the case dispatch uses the registered `s_copy`/`a_sign`/`n_sign`. -/
def ldLoop (w : Nat) (inp : Inputs) (pre base : LDState) : LDState :=
  let sgLive : Bool := inp.sign = Sign.SIGNED
  let sgC : Bool := pre.sCopy = Sign.SIGNED
  let j := pre.itersLeft - 1
  let dvs : Int := extVal w inp.sign inp.d * 2^j
  let dvd : Int :=
    if sgLive then sval (2*w) pre.remainder else (pre.remainder : Int)
  let fire := magO dvs dvd
  let b1 : Bool := !sgC || (!pre.aSign && !pre.nSign)
  let b2 : Bool := sgC && pre.aSign && !pre.nSign
  let b3 : Bool := sgC && !pre.aSign && pre.nSign
  let b4 : Bool := sgC && pre.aSign && pre.nSign
  let qp : Nat :=
    if fire && b4 then (pre.quotient + 2^j) % 2^(2*w)
    else if fire && b3 then uwrap (2*w) ((pre.quotient : Int) - 2^j)
    else if fire && b2 then uwrap (2*w) ((pre.quotient : Int) - 2^j)
    else if fire && b1 then (pre.quotient + 2^j) % 2^(2*w)
    else base.quotient
  let rp : Nat :=
    if fire && b4 then
      uwrap (2*w) ((pre.remainder : Int) - sval w inp.d * 2^j)
    else if fire && b3 then
      uwrap (2*w) ((pre.remainder : Int) - sval w inp.d * (-((2:Int)^j)))
    else if fire && b2 then
      uwrap (2*w) ((pre.remainder : Int) - sval w inp.d * (-((2:Int)^j)))
    else if fire && b1 then
      uwrap (2*w) ((pre.remainder : Int) - extVal w pre.sCopy inp.d * 2^j)
    else base.remainder
  { base with
      itersLeft := (pre.itersLeft - 1) % 2^(ilBits w),
      quotient := qp, remainder := rp,
      outValid := if pre.itersLeft - 1 = 0 then true else base.outValid }

/-- Clock-edge transition of `LongDivider`: the valid-consume block, the
accept block and the loop block applied in order (every right-hand side
reading pre-edge values, later assignments overriding earlier ones). -/
def ldStep (w : Nat) (st : LDState) (inp : Inputs)
    (inpValid outpReady : Bool) : LDState :=
  let ov := if outpReady && st.outValid then false else st.outValid
  let st0 : LDState := { st with outValid := ov }
  let accept := ldInpReady st outpReady && inpValid
  let stA := if accept then ldAccept w inp st0 else st0
  if ldInProgress st then ldLoop w inp st stA else stA

/-- State of `LongDivider` observed in cycle `j` of a single-transaction
run (same protocol as `mdRun`). -/
def ldRun (w : Nat) (inp : Inputs) : Nat → LDState
  | 0 => ldInit
  | j+1 => ldStep w (ldRun w inp j) inp (j = 0) true

/-- The `(outp.valid, outp.payload)` pair of `LongDivider` observed at
its documented latency of `w` cycles. -/
def ldResult (w : Nat) (inp : Inputs) : Bool × Outputs :=
  let st := ldRun w inp w
  (st.outValid, ldOut w st)

/-! #### Magnitude-level long division -/

/-- Running remainder magnitude of classic long division after processing
exponents `w-1 … w-t`. -/
def ldU (w Dm Nm : Nat) : Nat → Nat
  | 0 => Nm
  | t+1 => if Dm * 2^(w-1-t) ≤ ldU w Dm Nm t
           then ldU w Dm Nm t - Dm * 2^(w-1-t) else ldU w Dm Nm t

/-- Accumulated quotient magnitude of classic long division. -/
def ldQ (w Dm Nm : Nat) : Nat → Nat
  | 0 => 0
  | t+1 => if Dm * 2^(w-1-t) ≤ ldU w Dm Nm t
           then ldQ w Dm Nm t + 2^(w-1-t) else ldQ w Dm Nm t

lemma ldU_le (w Dm Nm : Nat) : ∀ t, ldU w Dm Nm t ≤ Nm := by
  intro t
  induction t with
  | zero => exact le_refl _
  | succ t ih =>
    rw [ldU]
    split
    · omega
    · exact ih

lemma ldUQ_inv (w Dm Nm : Nat) (hD : 1 ≤ Dm) (hN : Nm < 2^w) :
    ∀ t, t ≤ w →
      Nm = Dm * ldQ w Dm Nm t + ldU w Dm Nm t ∧
      ldU w Dm Nm t < Dm * 2^(w-t) ∧
      ldQ w Dm Nm t ≤ 2^w - 2^(w-t) := by
  intro t
  induction t with
  | zero =>
    intro _
    refine ⟨by simp [ldU, ldQ], ?_, by simp [ldQ]⟩
    simpa [ldU] using lt_of_lt_of_le hN (Nat.le_mul_of_pos_left _ hD)
  | succ t ih =>
    intro ht1
    obtain ⟨hsum, hu, hq⟩ := ih (by omega)
    have hj : w - t = (w - 1 - t) + 1 := by omega
    have hjj : w - (t+1) = w - 1 - t := by omega
    have hpow : 2^(w-t) = 2 * 2^(w-1-t) := by
      rw [hj, pow_succ]
      ring
    have hple : 2^(w-1-t) ≤ 2^w := Nat.pow_le_pow_right (by norm_num)
      (by omega)
    have hple2 : 2^(w-t) ≤ 2^w := Nat.pow_le_pow_right (by norm_num)
      (by omega)
    have hppos : 0 < 2^(w-1-t) := pow_pos (by norm_num) _
    rw [ldU, ldQ, hjj]
    by_cases hfire : Dm * 2^(w-1-t) ≤ ldU w Dm Nm t
    · rw [if_pos hfire, if_pos hfire]
      have hmul : Dm * (ldQ w Dm Nm t + 2^(w-1-t))
          = Dm * ldQ w Dm Nm t + Dm * 2^(w-1-t) := by ring
      have hmul2 : Dm * 2^(w-t) = 2 * (Dm * 2^(w-1-t)) := by
        rw [hpow]
        ring
      refine ⟨by omega, by omega, by omega⟩
    · rw [if_neg hfire, if_neg hfire]
      refine ⟨hsum, by omega, by omega⟩

lemma ldUQ_final (w Dm Nm : Nat) (hD : 1 ≤ Dm) (hN : Nm < 2^w) :
    ldQ w Dm Nm w = Nm / Dm ∧ ldU w Dm Nm w = Nm % Dm := by
  obtain ⟨hsum, hu, -⟩ := ldUQ_inv w Dm Nm hD hN w (le_refl w)
  rw [Nat.sub_self, pow_zero, Nat.mul_one] at hu
  have hcomm : Dm * ldQ w Dm Nm w = ldQ w Dm Nm w * Dm := Nat.mul_comm _ _
  have hx : Nm = ldU w Dm Nm w + ldQ w Dm Nm w * Dm := by omega
  have h := divmod_of_decomp hx hu
  exact ⟨h.2.symm, h.1.symm⟩

lemma ldU_zero (w Nm : Nat) : ∀ t, ldU w 0 Nm t = Nm := by
  intro t
  induction t with
  | zero => rfl
  | succ t ih =>
    rw [ldU]
    simp [ih]

lemma ldQ_zero (w Nm : Nat) : ∀ t, t ≤ w →
    ldQ w 0 Nm t = 2^w - 2^(w-t) := by
  intro t
  induction t with
  | zero => simp [ldQ]
  | succ t ih =>
    intro ht
    have hj : w - t = (w - 1 - t) + 1 := by omega
    have hjj : w - (t+1) = w - 1 - t := by omega
    have hpow : 2^(w-t) = 2 * 2^(w-1-t) := by
      rw [hj, pow_succ]
      ring
    have hple2 : 2^(w-t) ≤ 2^w := Nat.pow_le_pow_right (by norm_num)
      (by omega)
    rw [ldQ, if_pos (by omega), ih (by omega), hjj]
    omega

/-- Quotient magnitudes always fit the accumulator. -/
lemma ldQ_lt (w Dm Nm : Nat) (hN : Nm < 2^w) (t : Nat) (ht : t ≤ w) :
    ldQ w Dm Nm t < 2^w := by
  have hppos : 0 < 2^(w-t) := pow_pos (by norm_num) _
  have hple2 : 2^(w-t) ≤ 2^w := Nat.pow_le_pow_right (by norm_num)
    (by omega)
  by_cases hD : 1 ≤ Dm
  · obtain ⟨-, -, hq⟩ := ldUQ_inv w Dm Nm hD hN t ht
    omega
  · have hz : Dm = 0 := by omega
    rw [hz, ldQ_zero w Nm t ht]
    omega

/-! #### Wrapping helpers -/

lemma bitLenAux_lt : ∀ fuel n, n ≤ fuel → n < 2^(bitLenAux fuel n) := by
  intro fuel
  induction fuel with
  | zero =>
    intro n hn
    have : n = 0 := by omega
    simp [this, bitLenAux]
  | succ fuel ih =>
    intro n hn
    rw [bitLenAux]
    by_cases h0 : n = 0
    · simp [h0]
    · rw [if_neg h0]
      have hh : n / 2 ≤ fuel := by omega
      have := ih (n / 2) hh
      rw [pow_succ]
      omega

lemma bitLen_lt (n : Nat) : n < 2^(bitLen n) := bitLenAux_lt n n (le_refl n)

lemma sval_uwrap (w : Nat) (hw : 1 ≤ w) (x : Int)
    (h1 : -(2^(w-1)) ≤ x) (h2 : x < 2^(w-1)) : sval w (uwrap w x) = x := by
  have hsplit : (2:Int)^w = 2^(w-1) * 2 := by
    rw [← pow_succ]
    congr 1
    omega
  have hc1 : ((2^(w-1) : Nat) : Int) = (2:Int)^(w-1) := by push_cast; ring
  have hcw : ((2^w : Nat) : Int) = (2:Int)^w := by push_cast; ring
  have hppos : (0:Int) < 2^w := pow_pos (by norm_num) _
  by_cases hx : 0 ≤ x
  · have hmod : x % 2^w = x := Int.emod_eq_of_lt hx (by omega)
    rw [uwrap, hmod, sval]
    rw [if_pos (by omega)]
    omega
  · have hadd : x % (2:Int)^w = x + 2^w := by
      have h4 : (x + 2^w * 1) % 2^w = x % 2^w :=
        Int.add_mul_emod_self_left x ((2:Int)^w) 1
      have h5 : (x + 2^w) % 2^w = x + 2^w :=
        Int.emod_eq_of_lt (by omega) (by omega)
      rw [← h5]
      rw [show x + (2:Int)^w = x + 2^w * 1 by ring, h4]
    rw [uwrap, hadd, sval]
    rw [if_neg (by omega)]
    omega

lemma uwrap_emod (w : Nat) (x : Int) :
    ((uwrap w x : Nat) : Int) % 2^w = x % 2^w := by
  have hppos : (0:Int) < 2^w := pow_pos (by norm_num) _
  rw [uwrap, Int.toNat_of_nonneg (Int.emod_nonneg x (by omega)),
    Int.emod_emod_of_dvd x dvd_rfl]

lemma uwrap_addr (w : Nat) (x y : Int) :
    uwrap w ((uwrap w x : Nat) + y) = uwrap w (x + y) := by
  apply uwrap_congr
  have h : Int.ModEq ((2:Int)^w) ((uwrap w x : Nat) : Int) x :=
    uwrap_emod w x
  exact Int.ModEq.add_right y h

lemma uwrap_subr (w : Nat) (x y : Int) :
    uwrap w ((uwrap w x : Nat) - y) = uwrap w (x - y) := by
  apply uwrap_congr
  have h : Int.ModEq ((2:Int)^w) ((uwrap w x : Nat) : Int) x :=
    uwrap_emod w x
  exact Int.ModEq.sub_right y h

lemma uwrap_nat_add (w : Nat) (x : Int) (a : Nat) :
    (uwrap w x + a) % 2^w = uwrap w (x + a) := by
  have h1 : uwrap w ((uwrap w x + a : Nat) : Int) = uwrap w (x + a) := by
    push_cast
    exact uwrap_addr w x a
  rw [← h1, uwrap_natCast]

/-- Quotient increment direction selected by the registered flags: minus
one for a signed divide with differing operand sign bits, else plus one. -/
def ldSigma (s : Sign) (A Nf : Bool) : Int :=
  if (s = Sign.SIGNED : Bool) && (A != Nf) then -1 else 1

/-- Ghost description of `LongDivider`'s registers during cycle `t` of a
single-transaction run, in terms of the magnitude-level recursion. -/
def ldTrace (w : Nat) (inp : Inputs) (A Nf : Bool) (sgnN : Int)
    (Dm Nm : Nat) (t : Nat) : LDState :=
  { quotient := uwrap (2*w) (ldSigma inp.sign A Nf * ldQ w Dm Nm t),
    remainder := uwrap (2*w) (sgnN * ldU w Dm Nm t),
    itersLeft := w - t,
    outValid := decide (t = w ∧ 2 ≤ w),
    sCopy := inp.sign, aSign := A, nSign := Nf }

/-- Truncating a wider wrap to `v` bits wraps to `v` bits. -/
lemma uwrap_mod_le (W V : Nat) (h : V ≤ W) (x : Int) :
    uwrap W x % 2^V = uwrap V x := by
  have hppos : (0:Int) < 2^W := pow_pos (by norm_num) _
  have hpw : (0:Int) < 2^V := pow_pos (by norm_num) _
  have hnn : 0 ≤ x % 2^W := Int.emod_nonneg x (by omega)
  have hdvd : ((2:Int)^V) ∣ 2^W := pow_dvd_pow 2 h
  have hcast : ((uwrap W x % 2^V : Nat) : Int) = (x % 2^W) % 2^V := by
    push_cast [uwrap]
    rw [Int.toNat_of_nonneg hnn]
  have h2 : (x % 2^W) % 2^V = x % 2^V := Int.emod_emod_of_dvd x hdvd
  have h3 : ((uwrap V x : Nat) : Int) = x % 2^V := by
    rw [uwrap, Int.toNat_of_nonneg (Int.emod_nonneg x (by omega))]
  omega

lemma uwrap_mod (w : Nat) (x : Int) : uwrap (2*w) x % 2^w = uwrap w x := by
  have hppos : (0:Int) < 2^(2*w) := pow_pos (by norm_num) _
  have hpw : (0:Int) < 2^w := pow_pos (by norm_num) _
  have hnn : 0 ≤ x % 2^(2*w) := Int.emod_nonneg x (by omega)
  have hdvd : ((2:Int)^w) ∣ 2^(2*w) := pow_dvd_pow 2 (by omega)
  have hcast : ((uwrap (2*w) x % 2^w : Nat) : Int)
      = (x % 2^(2*w)) % 2^w := by
    push_cast [uwrap]
    rw [Int.toNat_of_nonneg hnn]
  have h2 : (x % 2^(2*w)) % 2^w = x % 2^w := Int.emod_emod_of_dvd x hdvd
  have h3 : ((uwrap w x : Nat) : Int) = x % 2^w := by
    rw [uwrap, Int.toNat_of_nonneg (Int.emod_nonneg x (by omega))]
  omega

/-- One main-loop edge of `LongDivider` advances the ghost trace by one
step: the live magnitude comparator reproduces the magnitude-recursion
test, and whichever quadrant case fires applies the signed increment and
subtraction matching it. -/
lemma ldLoop_trace (w : Nat) (inp : Inputs)
    (A Nf : Bool) (sgnN : Int) (Dm Nm : Nat)
    (h1 : sgnN = 1 ∨ sgnN = -1)
    (h2 : extVal w inp.sign inp.d * ldSigma inp.sign A Nf = sgnN * Dm)
    (h3 : inp.sign = Sign.UNSIGNED → sgnN = 1)
    (hNm : Nm < 2^w)
    (t : Nat) (ht1 : 1 ≤ t) (ht : t < w) :
    ldLoop w inp (ldTrace w inp A Nf sgnN Dm Nm t)
      { ldTrace w inp A Nf sgnN Dm Nm t with outValid := false }
      = ldTrace w inp A Nf sgnN Dm Nm (t+1) := by
  obtain ⟨s, nv, dv⟩ := inp
  simp only at h2 h3 ⊢
  have hw2 : 2 ≤ w := by omega
  have hule : ldU w Dm Nm t ≤ Nm := ldU_le w Dm Nm t
  have hu2 : ldU w Dm Nm t < 2^(2*w) := by
    have hp : (2:Nat)^w ≤ 2^(2*w) :=
      Nat.pow_le_pow_right (by norm_num) (by omega)
    omega
  have hj : w - t - 1 = w - 1 - t := by omega
  have hilstore : (w - t - 1) % 2^(ilBits w) = w - (t+1) := by
    have hb := bitLen_lt (w - 1)
    have hlt : w - t - 1 < 2^(ilBits w) := by
      rw [ilBits]
      exact lt_of_le_of_lt (by omega) hb
    rw [Nat.mod_eq_of_lt hlt]
    omega
  have hov2 : (if w - t - 1 = 0 then true else false)
      = decide (t + 1 = w ∧ 2 ≤ w) := by
    by_cases h : w - t - 1 = 0
    · rw [if_pos h,
        decide_eq_true (show t + 1 = w ∧ 2 ≤ w from ⟨by omega, hw2⟩)]
    · rw [if_neg h, eq_comm]
      apply decide_eq_false
      simp only [not_and]
      intro hc
      omega
  have hσ : ldSigma s A Nf = 1 ∨ ldSigma s A Nf = -1 := by
    rw [ldSigma]
    split
    · exact Or.inr rfl
    · exact Or.inl rfl
  have habsd : (extVal w s dv).natAbs = Dm := by
    have hcongr := congrArg Int.natAbs h2
    rw [Int.natAbs_mul, Int.natAbs_mul] at hcongr
    rcases hσ with hσ1 | hσ1 <;> rcases h1 with hN1 | hN1 <;>
      rw [hσ1, hN1] at hcongr <;> simpa using hcongr
  simp only [ldLoop, ldTrace]
  rw [hilstore, hov2, hj]
  cases s with
  | UNSIGNED =>
    have hsg1 : sgnN = 1 := h3 rfl
    have hσ1 : ldSigma Sign.UNSIGNED A Nf = 1 := by
      rw [ldSigma]
      simp
    have hdD : dv = Dm := by
      rw [hσ1, mul_one, hsg1, one_mul] at h2
      simp only [extVal] at h2
      exact_mod_cast h2
    subst hdD
    subst hsg1
    rw [hσ1]
    simp only [extVal, one_mul]
    simp [uwrap_natCast_lt _ _ hu2]
    have hmag : magO ((dv : Int) * 2^(w-1-t)) ((ldU w dv Nm t : Nat) : Int)
        = decide (dv * 2^(w-1-t) ≤ ldU w dv Nm t) := by
      rw [magO]
      simp [Int.natAbs_mul, Int.natAbs_pow]
    rw [hmag]
    by_cases hfire : dv * 2^(w-1-t) ≤ ldU w dv Nm t
    · rw [decide_eq_true hfire]
      simp only [if_true]
      constructor
      · rw [uwrap_nat_add, ldQ, if_pos hfire]
        congr 1 <;> push_cast <;> try ring
      · rw [ldU, if_pos hfire]
        congr 1 <;> push_cast [hfire] <;> try ring
    · rw [decide_eq_false hfire]
      simp only [Bool.false_eq_true, if_false]
      constructor
      · rw [ldQ, if_neg hfire]
      · rw [ldU, if_neg hfire, uwrap_natCast_lt _ _ hu2]
  | SIGNED =>
    simp only [extVal] at habsd h2
    have hpw : (2:Nat)^w ≤ 2^(2*w-1) :=
      Nat.pow_le_pow_right (by norm_num) (by omega)
    have hc : ((2^(2*w-1) : Nat) : Int) = (2:Int)^(2*w-1) := by
      push_cast
      ring
    have hsvread : sval (2*w) (uwrap (2*w) (sgnN * (ldU w Dm Nm t : Nat)))
        = sgnN * ldU w Dm Nm t := by
      apply sval_uwrap (2*w) (by omega)
      · rcases h1 with hN1 | hN1 <;> rw [hN1] <;> omega
      · rcases h1 with hN1 | hN1 <;> rw [hN1] <;> omega
    have habs_u : ((sgnN * (ldU w Dm Nm t : Nat) : Int)).natAbs
        = ldU w Dm Nm t := by
      rcases h1 with hN1 | hN1 <;> rw [hN1] <;> simp
    have hmagS : magO (sval w dv * 2^(w-1-t))
        (sgnN * (ldU w Dm Nm t : Nat))
        = decide (Dm * 2^(w-1-t) ≤ ldU w Dm Nm t) := by
      rw [magO, Int.natAbs_mul, habsd, habs_u]
      simp [Int.natAbs_pow]
    simp only [extVal]
    simp [hsvread, hmagS]
    cases A <;> cases Nf
    · -- positive dividend, positive divisor
      have hσv : ldSigma Sign.SIGNED false false = 1 := by
        rw [ldSigma]
        simp
      rw [hσv] at h2
      rw [mul_one] at h2
      rw [hσv]
      by_cases hfire : Dm * 2^(w-1-t) ≤ ldU w Dm Nm t
      · simp [hfire]
        constructor
        · rw [uwrap_nat_add, ldQ, if_pos hfire]
          congr 1 <;> push_cast <;> try ring
        · rw [uwrap_subr, h2, ldU, if_pos hfire]
          congr 1 <;> push_cast [hfire] <;> try ring
      · simp [hfire]
        constructor
        · rw [ldQ, if_neg hfire]
        · rw [ldU, if_neg hfire]
    · -- positive dividend, negative divisor
      have hσv : ldSigma Sign.SIGNED false true = -1 := by
        rw [ldSigma]
        simp
      rw [hσv] at h2
      have hsv : sval w dv = -(sgnN * ↑Dm) := by linarith
      rw [hσv]
      by_cases hfire : Dm * 2^(w-1-t) ≤ ldU w Dm Nm t
      · simp [hfire]
        constructor
        · rw [uwrap_subr, ldQ, if_pos hfire]
          congr 1 <;> push_cast <;> try ring
        · rw [uwrap_addr, hsv, ldU, if_pos hfire]
          congr 1 <;> push_cast [hfire] <;> try ring
      · simp [hfire]
        constructor
        · rw [ldQ, if_neg hfire]
        · rw [ldU, if_neg hfire]
    · -- negative dividend, positive divisor
      have hσv : ldSigma Sign.SIGNED true false = -1 := by
        rw [ldSigma]
        simp
      rw [hσv] at h2
      have hsv : sval w dv = -(sgnN * ↑Dm) := by linarith
      rw [hσv]
      by_cases hfire : Dm * 2^(w-1-t) ≤ ldU w Dm Nm t
      · simp [hfire]
        constructor
        · rw [uwrap_subr, ldQ, if_pos hfire]
          congr 1 <;> push_cast <;> try ring
        · rw [uwrap_addr, hsv, ldU, if_pos hfire]
          congr 1 <;> push_cast [hfire] <;> try ring
      · simp [hfire]
        constructor
        · rw [ldQ, if_neg hfire]
        · rw [ldU, if_neg hfire]
    · -- negative dividend, negative divisor
      have hσv : ldSigma Sign.SIGNED true true = 1 := by
        rw [ldSigma]
        simp
      rw [hσv] at h2
      rw [mul_one] at h2
      rw [hσv]
      by_cases hfire : Dm * 2^(w-1-t) ≤ ldU w Dm Nm t
      · simp [hfire]
        constructor
        · rw [uwrap_nat_add, ldQ, if_pos hfire]
          congr 1 <;> push_cast <;> try ring
        · rw [uwrap_subr, h2, ldU, if_pos hfire]
          congr 1 <;> push_cast [hfire] <;> try ring
      · simp [hfire]
        constructor
        · rw [ldQ, if_neg hfire]
        · rw [ldU, if_neg hfire]


lemma uwrap_two_pow (w k : Nat) : uwrap w ((2:Int)^k) = 2^k % 2^w := by
  have h : ((2:Int)^k) = ((2^k : Nat) : Int) := by
    push_cast
    ring
  rw [h, uwrap_natCast]

/-- The accept-edge block realises the first magnitude-level step (at
exponent `w-1`): whichever of the four first-cycle cases ends up driving
the accumulators applies exactly the increment selected by the effective
quadrant flags, including the divide-by-zero redirection. -/
lemma ldAccept_trace (w : Nat) (hw : 1 ≤ w) (inp : Inputs)
    (A Nf : Bool) (sgnN : Int) (Dm Nm : Nat)
    (h1 : sgnN = 1 ∨ sgnN = -1)
    (h2 : extVal w inp.sign inp.d * ldSigma inp.sign A Nf = sgnN * Dm)
    (h3 : inp.sign = Sign.UNSIGNED → sgnN = 1)
    (hN : extVal w inp.sign inp.n = sgnN * Nm)
    (hNm : Nm < 2^w)
    (hA : A = (inp.n.testBit (w-1)
      && !((inp.sign = Sign.SIGNED : Bool) && decide (inp.d = 0))))
    (hNf : Nf = inp.d.testBit (w-1)) :
    ldAccept w inp ldInit = ldTrace w inp A Nf sgnN Dm Nm 1 := by
  obtain ⟨s, nv, dv⟩ := inp
  simp only at h2 h3 hN hA hNf ⊢
  have hilstore : (w - 1) % 2^(ilBits w) = w - 1 := by
    have hb := bitLen_lt (w - 1)
    apply Nat.mod_eq_of_lt
    rw [ilBits]
    exact hb
  have hov1 : decide (1 = w ∧ 2 ≤ w) = false := by
    simp only [decide_eq_false_iff_not, not_and]
    intro h
    omega
  have hσ : ldSigma s A Nf = 1 ∨ ldSigma s A Nf = -1 := by
    rw [ldSigma]
    split
    · exact Or.inr rfl
    · exact Or.inl rfl
  have habsd : (extVal w s dv).natAbs = Dm := by
    have hcongr := congrArg Int.natAbs h2
    rw [Int.natAbs_mul, Int.natAbs_mul] at hcongr
    rcases hσ with hσ1 | hσ1 <;> rcases h1 with hN1 | hN1 <;>
      rw [hσ1, hN1] at hcongr <;> simpa using hcongr
  have habsn : (extVal w s nv).natAbs = Nm := by
    have hcongr := congrArg Int.natAbs hN
    rw [Int.natAbs_mul] at hcongr
    rcases h1 with hN1 | hN1 <;> rw [hN1] at hcongr <;> simpa using hcongr
  have hmagA : magO (extVal w s dv * 2^(w-1)) (extVal w s nv)
      = decide (Dm * 2^(w-1) ≤ Nm) := by
    rw [magO, Int.natAbs_mul, habsd, habsn]
    simp [Int.natAbs_pow]
  have hU1 : ldU w Dm Nm 1
      = if Dm * 2^(w-1) ≤ Nm then Nm - Dm * 2^(w-1) else Nm := by
    simp [ldU]
  have hQ1 : ldQ w Dm Nm 1
      = if Dm * 2^(w-1) ≤ Nm then 2^(w-1) else 0 := by
    simp [ldQ, ldU]
  cases s with
  | UNSIGNED =>
    have hsg1 : sgnN = 1 := h3 rfl
    have hσ1 : ldSigma Sign.UNSIGNED A Nf = 1 := by
      rw [ldSigma]
      simp
    rw [hσ1, mul_one] at h2
    simp only [extVal] at h2 hN hmagA
    simp only [show (Sign.UNSIGNED = Sign.SIGNED : Prop) = False by simp,
      decide_False, Bool.false_and, Bool.and_false, Bool.not_false,
      Bool.and_true] at hA
    simp only [ldAccept, ldTrace, ldInit, extVal]
    rw [hσ1, hmagA, hilstore, hU1, hQ1]
    by_cases hfire : Dm * 2^(w-1) ≤ Nm
    · simp [hfire, hov1, hA, hNf]
      constructor
      · rw [uwrap_two_pow]
      · rw [hN, h2]
        congr 1
        push_cast [hfire]
        try ring
    · simp [hfire, hov1, hA, hNf]
      constructor
      · simp [uwrap]
      · rw [hN]
  | SIGNED =>
    simp only [extVal] at h2 hN hmagA
    simp only [show (Sign.SIGNED = Sign.SIGNED : Prop) = True by simp,
      decide_True, Bool.true_and] at hA
    simp only [ldAccept, ldTrace, ldInit, extVal]
    rw [hmagA, hilstore, hU1, hQ1]
    cases hnb : nv.testBit (w-1) <;> cases hdb : dv.testBit (w-1)
    · -- nonnegative dividend, nonnegative divisor
      rw [hnb] at hA
      simp only [Bool.false_and] at hA
      rw [hdb] at hNf
      subst hA
      subst hNf
      have hσv : ldSigma Sign.SIGNED false false = 1 := by
        rw [ldSigma]
        simp
      rw [hσv, mul_one] at h2
      rw [hσv]
      by_cases hfire : Dm * 2^(w-1) ≤ Nm
      · simp [hfire, hov1]
        constructor
        · rw [uwrap_two_pow]
        · rw [hN, h2]
          congr 1
          push_cast [hfire]
          try ring
      · simp [hfire, hov1]
        constructor
        · simp [uwrap]
        · rw [hN]
    · -- nonnegative dividend, negative divisor
      rw [hnb] at hA
      simp only [Bool.false_and] at hA
      rw [hdb] at hNf
      subst hA
      subst hNf
      have hσv : ldSigma Sign.SIGNED false true = -1 := by
        rw [ldSigma]
        simp
      rw [hσv] at h2
      have hsv : sval w dv = -(sgnN * ↑Dm) := by linarith
      rw [hσv]
      by_cases hfire : Dm * 2^(w-1) ≤ Nm
      · simp [hfire, hov1]
        rw [hN, hsv]
        congr 1
        push_cast [hfire]
        try ring
      · simp [hfire, hov1]
        constructor
        · simp [uwrap]
        · rw [hN]
    · -- negative dividend, nonnegative divisor
      rw [hnb] at hA
      simp only [Bool.true_and] at hA
      rw [hdb] at hNf
      subst hNf
      by_cases hd0 : dv = 0
      · -- divide by zero: the even-divisor disjunct redirects to case one
        have hd0d : decide (dv = 0) = true := decide_eq_true hd0
        rw [hd0d] at hA
        simp only [Bool.not_true, Bool.and_false] at hA
        subst hA
        have hσv : ldSigma Sign.SIGNED false false = 1 := by
          rw [ldSigma]
          simp
        rw [hσv, mul_one] at h2
        rw [hσv]
        have hdeven : decide (dv % 2 = 0) = true := by
          subst hd0
          simp
        simp only [hd0d, hdeven]
        by_cases hfire : Dm * 2^(w-1) ≤ Nm
        · simp [hfire, hov1]
          constructor
          · rw [uwrap_two_pow]
          · rw [hN, h2]
            congr 1
            push_cast [hfire]
            try ring
        · simp [hfire, hov1]
          constructor
          · simp [uwrap]
          · rw [hN]
      · have hd0d : decide (dv = 0) = false := decide_eq_false hd0
        rw [hd0d] at hA
        simp only [Bool.not_false, Bool.and_true] at hA
        subst hA
        have hσv : ldSigma Sign.SIGNED true false = -1 := by
          rw [ldSigma]
          simp
        rw [hσv] at h2
        have hsv : sval w dv = -(sgnN * ↑Dm) := by linarith
        rw [hσv]
        simp only [hd0d]
        by_cases hfire : Dm * 2^(w-1) ≤ Nm
        · simp [hfire, hov1]
          rw [hN, hsv]
          congr 1
          push_cast [hfire]
          try ring
        · simp [hfire, hov1]
          constructor
          · simp [uwrap]
          · rw [hN]
    · -- negative dividend, negative divisor
      rw [hnb] at hA
      simp only [Bool.true_and] at hA
      rw [hdb] at hNf
      subst hNf
      have hd0 : dv ≠ 0 := by
        intro hz
        rw [hz, Nat.zero_testBit] at hdb
        exact Bool.false_ne_true hdb
      have hd0d : decide (dv = 0) = false := decide_eq_false hd0
      rw [hd0d] at hA
      simp only [Bool.not_false, Bool.and_true] at hA
      subst hA
      have hσv : ldSigma Sign.SIGNED true true = 1 := by
        rw [ldSigma]
        simp
      rw [hσv, mul_one] at h2
      rw [hσv]
      simp only [hd0d]
      by_cases hfire : Dm * 2^(w-1) ≤ Nm
      · simp [hfire, hov1]
        constructor
        · rw [uwrap_two_pow]
        · rw [hN, h2]
          congr 1
          push_cast [hfire]
          try ring
      · simp [hfire, hov1]
        constructor
        · simp [uwrap]
        · rw [hN]


/-- A loop-phase clock edge of `LongDivider` (no acceptance, output not
yet valid) advances the ghost trace. -/
lemma ldStep_trace (w : Nat) (inp : Inputs)
    (A Nf : Bool) (sgnN : Int) (Dm Nm : Nat)
    (h1 : sgnN = 1 ∨ sgnN = -1)
    (h2 : extVal w inp.sign inp.d * ldSigma inp.sign A Nf = sgnN * Dm)
    (h3 : inp.sign = Sign.UNSIGNED → sgnN = 1)
    (hNm : Nm < 2^w)
    (t : Nat) (ht1 : 1 ≤ t) (ht : t < w) :
    ldStep w (ldTrace w inp A Nf sgnN Dm Nm t) inp false true
      = ldTrace w inp A Nf sgnN Dm Nm (t+1) := by
  have hov : (ldTrace w inp A Nf sgnN Dm Nm t).outValid = false := by
    simp only [ldTrace, decide_eq_false_iff_not, not_and]
    intro h
    omega
  have hip : ldInProgress (ldTrace w inp A Nf sgnN Dm Nm t) = true := by
    simp only [ldInProgress, ldTrace, decide_eq_true_eq]
    omega
  rw [ldStep]
  simp only [hov, hip, Bool.and_false, Bool.false_and, Bool.and_true,
    Bool.true_and, Bool.false_eq_true, if_false, if_true, ite_false,
    ite_true, Bool.false_or, Bool.or_false]
  exact ldLoop_trace w inp A Nf sgnN Dm Nm h1 h2 h3 hNm t ht1 ht

lemma ldRun_trace (w : Nat) (hw : 1 ≤ w) (inp : Inputs)
    (A Nf : Bool) (sgnN : Int) (Dm Nm : Nat)
    (h1 : sgnN = 1 ∨ sgnN = -1)
    (h2 : extVal w inp.sign inp.d * ldSigma inp.sign A Nf = sgnN * Dm)
    (h3 : inp.sign = Sign.UNSIGNED → sgnN = 1)
    (hN : extVal w inp.sign inp.n = sgnN * Nm)
    (hNm : Nm < 2^w)
    (hA : A = (inp.n.testBit (w-1)
      && !((inp.sign = Sign.SIGNED : Bool) && decide (inp.d = 0))))
    (hNf : Nf = inp.d.testBit (w-1)) :
    ∀ t, 1 ≤ t → t ≤ w →
      ldRun w inp t = ldTrace w inp A Nf sgnN Dm Nm t := by
  intro t
  induction t with
  | zero =>
    intro h0 _
    omega
  | succ t ih =>
    intro ht1 htw
    by_cases ht0 : t = 0
    · subst ht0
      have hbase : ldRun w inp 1 = ldAccept w inp ldInit := rfl
      rw [hbase]
      exact ldAccept_trace w hw inp A Nf sgnN Dm Nm h1 h2 h3 hN hNm hA hNf
    · have hstep : ldRun w inp (t+1)
          = ldStep w (ldRun w inp t) inp (decide (t = 0)) true := by
        rw [ldRun]
      rw [hstep, decide_eq_false ht0, ih (by omega) (by omega)]
      exact ldStep_trace w inp A Nf sgnN Dm Nm h1 h2 h3 hNm t
        (by omega) (by omega)


/-- `LongDivider` payload correctness: at cycle `w` the quotient/remainder
registers hold exactly the specified RISC-V patterns in every quadrant,
including divide-by-zero and overflow; `outp.valid` is asserted there
exactly when `w ≥ 2` (the `iters_left` register of a width-1 divider has
zero bits, so the loop that raises `outp.valid` never runs). -/
lemma ldResult_spec (w : Nat) (hw : 1 ≤ w) (inp : Inputs)
    (hn : inp.n < 2^w) (hd : inp.d < 2^w) :
    ldResult w inp
      = (decide (2 ≤ w),
         { sign := inp.sign, q := specQ w inp, r := specR w inp }) := by
  have hovw : decide (w = w ∧ 2 ≤ w) = decide (2 ≤ w) := by
    by_cases h : 2 ≤ w <;> simp [h]
  have hppos : (0:Nat) < 2^w := pow_pos (by norm_num) _
  have hhalf : (2:Nat)^(w-1) < 2^w :=
    Nat.pow_lt_pow_right (by norm_num) (by omega)
  have hsv0 : sval w 0 = 0 := by
    simp [sval]
  cases hsgn : inp.sign with
  | UNSIGNED =>
    have hσ1 : ldSigma inp.sign (inp.n.testBit (w-1))
        (inp.d.testBit (w-1)) = 1 := by
      rw [ldSigma, hsgn]
      simp
    have hrun := ldRun_trace w hw inp (inp.n.testBit (w-1))
      (inp.d.testBit (w-1)) 1 inp.d inp.n (Or.inl rfl)
      (by rw [hσ1, hsgn]; simp [extVal])
      (fun _ => rfl)
      (by rw [hsgn]; simp [extVal])
      hn
      (by rw [hsgn]; simp)
      rfl
      w (by omega) (le_refl w)
    simp only [ldResult]
    rw [hrun]
    simp only [ldTrace, ldOut, hovw, hσ1, one_mul, uwrap_mod]
    by_cases hdz : inp.d = 0
    · rw [hdz, ldU_zero, ldQ_zero w inp.n w (le_refl w)]
      simp only [Nat.sub_self, pow_zero]
      rw [specQ, specR, hsgn]
      simp only [hdz, if_pos rfl]
      rw [uwrap_natCast, uwrap_natCast_lt _ _ hn,
        Nat.mod_eq_of_lt (by omega)]
      simp
    · obtain ⟨hq, hu⟩ := ldUQ_final w inp.d inp.n (by omega) hn
      rw [hq, hu, specQ, specR, hsgn]
      simp only [hdz, if_neg hdz, if_false]
      have hqlt : inp.n / inp.d < 2^w :=
        lt_of_le_of_lt (Nat.div_le_self _ _) hn
      have hrlt : inp.n % inp.d < 2^w :=
        lt_of_le_of_lt (Nat.mod_le _ _) hn
      rw [uwrap_natCast_lt _ _ hqlt, uwrap_natCast_lt _ _ hrlt]
      simp
  | SIGNED =>
    have habs_n := sval_natAbs_le w inp.n hw hn
    have habs_d := sval_natAbs_le w inp.d hw hd
    have han : (sval w inp.n).natAbs < 2^w := by omega
    by_cases hdz : inp.d = 0
    · -- divide by zero
      have hsvd : sval w inp.d = 0 := by rw [hdz, hsv0]
      cases hnb : inp.n.testBit (w-1)
      · -- nonnegative dividend
        have hN : sval w inp.n = ((sval w inp.n).natAbs : Int) := by
          have h1 : ¬(sval w inp.n < 0) := by
            rw [sval_neg_iff w inp.n hw hn, hnb]
            simp
          omega
        have hσ1 : ldSigma inp.sign false false = 1 := by
          rw [ldSigma, hsgn]
          simp
        have hrun := ldRun_trace w hw inp false false 1 0
          ((sval w inp.n).natAbs) (Or.inl rfl)
          (by rw [hσ1, hsgn]; simp [extVal, hsvd])
          (by rw [hsgn]; intro h; exact absurd h (by simp))
          (by rw [hsgn]; simp only [extVal, one_mul]; exact hN)
          han
          (by rw [hsgn, hnb]; simp)
          (by rw [hdz]; simp [Nat.zero_testBit])
          w (by omega) (le_refl w)
        simp only [ldResult]
        rw [hrun]
        simp only [ldTrace, ldOut, hovw, hσ1, one_mul, uwrap_mod]
        rw [ldU_zero, ldQ_zero w _ w (le_refl w)]
        simp only [Nat.sub_self, pow_zero]
        rw [specQ, specR, hsgn]
        simp only [hdz, if_pos rfl, hsv0]
        rw [Int.tmod_zero, uwrap_natCast, Nat.mod_eq_of_lt (by omega)]
        rw [← hN]
        rw [uwrap_sval w inp.n hn]
        simp
      · -- negative dividend
        have hnlt : sval w inp.n < 0 := by
          rw [sval_neg_iff w inp.n hw hn]
          exact hnb
        have hN : sval w inp.n = -((sval w inp.n).natAbs : Int) := by
          omega
        have hσ1 : ldSigma inp.sign false false = 1 := by
          rw [ldSigma, hsgn]
          simp
        have hrun := ldRun_trace w hw inp false false (-1) 0
          ((sval w inp.n).natAbs) (Or.inr rfl)
          (by rw [hσ1, hsgn]; simp [extVal, hsvd])
          (by rw [hsgn]; intro h; exact absurd h (by simp))
          (by rw [hsgn]; simp only [extVal, neg_one_mul]; exact hN)
          han
          (by rw [hsgn, hnb, hdz]; simp)
          (by rw [hdz]; simp [Nat.zero_testBit])
          w (by omega) (le_refl w)
        simp only [ldResult]
        rw [hrun]
        simp only [ldTrace, ldOut, hovw, hσ1, one_mul, uwrap_mod]
        rw [ldU_zero, ldQ_zero w _ w (le_refl w)]
        simp only [Nat.sub_self, pow_zero]
        rw [specQ, specR, hsgn]
        simp only [hdz, if_pos rfl, hsv0]
        rw [Int.tmod_zero, uwrap_natCast, Nat.mod_eq_of_lt (by omega)]
        rw [hN]
        simp
    · -- nonzero divisor
      have hb1 : 1 ≤ (sval w inp.d).natAbs := by
        rcases Nat.eq_zero_or_pos (sval w inp.d).natAbs with h0 | h1
        · exfalso
          have hz : sval w inp.d = 0 := by omega
          have := uwrap_sval w inp.d hd
          rw [hz] at this
          simp [uwrap] at this
          exact hdz this.symm
        · exact h1
      obtain ⟨hqf, huf⟩ := ldUQ_final w (sval w inp.d).natAbs
        (sval w inp.n).natAbs hb1 han
      cases hnb : inp.n.testBit (w-1) <;> cases hdb : inp.d.testBit (w-1)
      · -- n ≥ 0, d > 0
        have hN : sval w inp.n = ((sval w inp.n).natAbs : Int) := by
          have h1 : ¬(sval w inp.n < 0) := by
            rw [sval_neg_iff w inp.n hw hn, hnb]
            simp
          omega
        have hD : sval w inp.d = ((sval w inp.d).natAbs : Int) := by
          have h1 : ¬(sval w inp.d < 0) := by
            rw [sval_neg_iff w inp.d hw hd, hdb]
            simp
          omega
        have hσ1 : ldSigma inp.sign false false = 1 := by
          rw [ldSigma, hsgn]
          simp
        have hrun := ldRun_trace w hw inp false false 1
          ((sval w inp.d).natAbs) ((sval w inp.n).natAbs) (Or.inl rfl)
          (by rw [hσ1, hsgn]; simp only [extVal, one_mul, mul_one]
              exact hD)
          (by rw [hsgn]; intro h; exact absurd h (by simp))
          (by rw [hsgn]; simp only [extVal, one_mul]; exact hN)
          han
          (by rw [hsgn, hnb]; simp)
          (by rw [hdb])
          w (by omega) (le_refl w)
        simp only [ldResult]
        rw [hrun]
        simp only [ldTrace, ldOut, hovw, hσ1, one_mul, uwrap_mod]
        rw [hqf, huf, specQ, specR, hsgn]
        simp only [hdz, if_neg hdz, if_false]
        rw [hN, hD, tdiv_natCast, tmod_natCast]
        simp
      · -- n ≥ 0, d < 0
        have hN : sval w inp.n = ((sval w inp.n).natAbs : Int) := by
          have h1 : ¬(sval w inp.n < 0) := by
            rw [sval_neg_iff w inp.n hw hn, hnb]
            simp
          omega
        have hdlt : sval w inp.d < 0 := by
          rw [sval_neg_iff w inp.d hw hd]
          exact hdb
        have hD : sval w inp.d = -((sval w inp.d).natAbs : Int) := by
          omega
        have hσ1 : ldSigma inp.sign false true = -1 := by
          rw [ldSigma, hsgn]
          simp
        have hrun := ldRun_trace w hw inp false true 1
          ((sval w inp.d).natAbs) ((sval w inp.n).natAbs) (Or.inl rfl)
          (by rw [hσ1, hsgn]; simp only [extVal, one_mul]; omega)
          (by rw [hsgn]; intro h; exact absurd h (by simp))
          (by rw [hsgn]; simp only [extVal, one_mul]; exact hN)
          han
          (by rw [hsgn, hnb]; simp)
          (by rw [hdb])
          w (by omega) (le_refl w)
        simp only [ldResult]
        rw [hrun]
        simp only [ldTrace, ldOut, hovw, hσ1, one_mul, uwrap_mod]
        rw [hqf, huf, specQ, specR, hsgn]
        simp only [hdz, if_neg hdz, if_false]
        rw [hN, hD, Int.tdiv_neg, Int.tmod_neg, tdiv_natCast, tmod_natCast]
        simp
      · -- n < 0, d > 0
        have hnlt : sval w inp.n < 0 := by
          rw [sval_neg_iff w inp.n hw hn]
          exact hnb
        have hN : sval w inp.n = -((sval w inp.n).natAbs : Int) := by
          omega
        have hD : sval w inp.d = ((sval w inp.d).natAbs : Int) := by
          have h1 : ¬(sval w inp.d < 0) := by
            rw [sval_neg_iff w inp.d hw hd, hdb]
            simp
          omega
        have hσ1 : ldSigma inp.sign true false = -1 := by
          rw [ldSigma, hsgn]
          simp
        have hrun := ldRun_trace w hw inp true false (-1)
          ((sval w inp.d).natAbs) ((sval w inp.n).natAbs) (Or.inr rfl)
          (by rw [hσ1, hsgn]; simp only [extVal]; omega)
          (by rw [hsgn]; intro h; exact absurd h (by simp))
          (by rw [hsgn]; simp only [extVal]; omega)
          han
          (by rw [hsgn, hnb]; simp [hdz])
          (by rw [hdb])
          w (by omega) (le_refl w)
        simp only [ldResult]
        rw [hrun]
        simp only [ldTrace, ldOut, hovw, hσ1, uwrap_mod]
        rw [hqf, huf, specQ, specR, hsgn]
        simp only [hdz, if_neg hdz, if_false]
        rw [hN, hD, Int.neg_tdiv, neg_tmod_eq, tdiv_natCast, tmod_natCast]
        simp
      · -- n < 0, d < 0
        have hnlt : sval w inp.n < 0 := by
          rw [sval_neg_iff w inp.n hw hn]
          exact hnb
        have hN : sval w inp.n = -((sval w inp.n).natAbs : Int) := by
          omega
        have hdlt : sval w inp.d < 0 := by
          rw [sval_neg_iff w inp.d hw hd]
          exact hdb
        have hD : sval w inp.d = -((sval w inp.d).natAbs : Int) := by
          omega
        have hσ1 : ldSigma inp.sign true true = 1 := by
          rw [ldSigma, hsgn]
          simp
        have hrun := ldRun_trace w hw inp true true (-1)
          ((sval w inp.d).natAbs) ((sval w inp.n).natAbs) (Or.inr rfl)
          (by rw [hσ1, hsgn]; simp only [extVal, mul_one]; omega)
          (by rw [hsgn]; intro h; exact absurd h (by simp))
          (by rw [hsgn]; simp only [extVal]; omega)
          han
          (by rw [hsgn, hnb]; simp [hdz])
          (by rw [hdb])
          w (by omega) (le_refl w)
        simp only [ldResult]
        rw [hrun]
        simp only [ldTrace, ldOut, hovw, hσ1, one_mul, uwrap_mod]
        rw [hqf, huf, specQ, specR, hsgn]
        simp only [hdz, if_neg hdz, if_false]
        rw [hN, hD, Int.tdiv_neg, Int.neg_tdiv, Int.tmod_neg, neg_tmod_eq,
          tdiv_natCast, tmod_natCast, neg_neg]
        simp

/-- Specified output patterns on divide-by-zero: all-ones quotient and
the untouched dividend as remainder, in both sign modes. -/
lemma specQR_d0 (w : Nat) (hw : 1 ≤ w) (n : Nat) (hn : n < 2^w)
    (s : Sign) :
    specQ w { sign := s, n := n, d := 0 } = 2^w - 1 ∧
    specR w { sign := s, n := n, d := 0 } = n := by
  have hsv0 : sval w 0 = 0 := by simp [sval]
  cases s with
  | UNSIGNED => simp [specQ, specR]
  | SIGNED =>
    constructor
    · simp [specQ]
    · simp only [specR, hsv0, Int.tmod_zero]
      exact uwrap_sval w n hn

/-- Specified output patterns on signed overflow
(`n = -2^(w-1)`, `d = -1`): quotient `-2^(w-1)`, remainder `0`. -/
lemma specQR_overflow (w : Nat) (hw : 1 ≤ w) :
    specQ w { sign := .SIGNED, n := 2^(w-1), d := 2^w - 1 } = 2^(w-1) ∧
    specR w { sign := .SIGNED, n := 2^(w-1), d := 2^w - 1 } = 0 := by
  have hhalf : (2:Nat)^(w-1) < 2^w :=
    Nat.pow_lt_pow_right (by norm_num) (by omega)
  have hpos : (0:Nat) < 2^(w-1) := pow_pos (by norm_num) _
  have hsplit : (2:Nat)^w = 2^(w-1) * 2 := by
    rw [← pow_succ]
    congr 1
    omega
  have hcH : ((2^(w-1) : Nat) : Int) = (2:Int)^(w-1) := by
    push_cast
    ring
  have hcW : ((2^w : Nat) : Int) = (2:Int)^w := by
    push_cast
    ring
  have hsvn : sval w (2^(w-1)) = -((2:Int)^(w-1)) := by
    rw [sval, if_neg (by omega)]
    omega
  have hsvd : sval w (2^w - 1) = -1 := by
    rw [sval, if_neg (by omega)]
    have hc1 : ((2^w - 1 : Nat) : Int) = (2:Int)^w - 1 := by
      push_cast [Nat.one_le_two_pow]
      ring
    omega
  have hdnz : (2:Nat)^w - 1 ≠ 0 := by omega
  constructor
  · simp only [specQ, if_neg hdnz, hsvn, hsvd]
    rw [Int.tdiv_neg, Int.neg_tdiv, Int.tdiv_one, neg_neg]
    rw [← hcH, uwrap_natCast_lt _ _ hhalf]
  · simp only [specR, hsvn, hsvd]
    rw [Int.tmod_neg, neg_tmod_eq, Int.tmod_one]
    simp [uwrap]

/-- **C1.** For every width `w ≥ 1`, every pair of `w`-bit operands and
both sign modes, `MulticycleDiv` (either implementation) and the
reference `LongDivider` produce bit-for-bit identical `(sign, q, r)`
payloads, and that payload is exactly the specified truncated
quotient/remainder pattern (`specQ`/`specR`, i.e. `Int.tdiv`/`Int.tmod`
wrapped to `w` bits, with the RISC-V divide-by-zero and overflow
behaviour); `MulticycleDiv`'s output is valid at its documented
latency. -/
theorem C1_divider_equivalence (w : Nat) (hw : 1 ≤ w) (inp : Inputs)
    (hn : inp.n < 2^w) (hd : inp.d < 2^w) (impl : Impl) :
    (mdResult w impl inp).2 = (ldResult w inp).2
    ∧ (mdResult w impl inp).2
        = { sign := inp.sign, q := specQ w inp, r := specR w inp }
    ∧ (mdResult w impl inp).1 = true := by
  have h1 := mdResult_spec w hw inp hn hd impl
  have h2 := ldResult_spec w hw inp hn hd
  rw [h1, h2]
  exact ⟨rfl, rfl, rfl⟩

theorem C1_divider_equivalence_witness :
    1 ≤ 8 ∧ (1362 % 256 : Nat) < 2^8 ∧ (14 : Nat) < 2^8 ∧
    ((mdResult 8 .RESTORING { sign := .SIGNED, n := 1362 % 256, d := 14 }).2
        = (ldResult 8 { sign := .SIGNED, n := 1362 % 256, d := 14 }).2
    ∧ (mdResult 8 .RESTORING { sign := .SIGNED, n := 1362 % 256, d := 14 }).2
        = { sign := .SIGNED,
            q := specQ 8 { sign := .SIGNED, n := 1362 % 256, d := 14 },
            r := specR 8 { sign := .SIGNED, n := 1362 % 256, d := 14 } }
    ∧ (mdResult 8 .RESTORING
        { sign := .SIGNED, n := 1362 % 256, d := 14 }).1 = true) :=
  ⟨by decide, by decide, by decide,
   C1_divider_equivalence 8 (by decide)
     { sign := .SIGNED, n := 1362 % 256, d := 14 }
     (by decide) (by decide) .RESTORING⟩

/-- **C2.** Dividing any dividend by zero, in either divider, any width
`w ≥ 1` and both sign modes, yields the all-ones quotient (`2^w - 1`,
i.e. `-1` read signed) and the dividend itself as remainder. -/
theorem C2_divide_by_zero (w : Nat) (hw : 1 ≤ w) (n : Nat)
    (hn : n < 2^w) (s : Sign) (impl : Impl) :
    (mdResult w impl { sign := s, n := n, d := 0 }).2
      = { sign := s, q := 2^w - 1, r := n }
    ∧ (ldResult w { sign := s, n := n, d := 0 }).2
      = { sign := s, q := 2^w - 1, r := n } := by
  have hd : (0:Nat) < 2^w := pow_pos (by norm_num) _
  obtain ⟨hq, hr⟩ := specQR_d0 w hw n hn s
  have h1 := mdResult_spec w hw { sign := s, n := n, d := 0 } hn hd impl
  have h2 := ldResult_spec w hw { sign := s, n := n, d := 0 } hn hd
  rw [h1, h2, hq, hr]
  exact ⟨rfl, rfl⟩

theorem C2_divide_by_zero_witness :
    1 ≤ 8 ∧ (255 : Nat) < 2^8 ∧
    ((mdResult 8 .NON_RESTORING { sign := .UNSIGNED, n := 255, d := 0 }).2
      = { sign := .UNSIGNED, q := 2^8 - 1, r := 255 }
    ∧ (ldResult 8 { sign := .UNSIGNED, n := 255, d := 0 }).2
      = { sign := .UNSIGNED, q := 2^8 - 1, r := 255 }) :=
  ⟨by decide, by decide,
   C2_divide_by_zero 8 (by decide) 255 (by decide) .UNSIGNED .NON_RESTORING⟩

/-- **C3.** The signed-overflow case `n = -2^(w-1)`, `d = -1` (bit
patterns `2^(w-1)` and `2^w - 1`) yields quotient `-2^(w-1)` (pattern
`2^(w-1)`) and remainder `0`, in both dividers for every width
`w ≥ 1`. -/
theorem C3_signed_overflow (w : Nat) (hw : 1 ≤ w) (impl : Impl) :
    (mdResult w impl { sign := .SIGNED, n := 2^(w-1), d := 2^w - 1 }).2
      = { sign := .SIGNED, q := 2^(w-1), r := 0 }
    ∧ (ldResult w { sign := .SIGNED, n := 2^(w-1), d := 2^w - 1 }).2
      = { sign := .SIGNED, q := 2^(w-1), r := 0 } := by
  have hhalf : (2:Nat)^(w-1) < 2^w :=
    Nat.pow_lt_pow_right (by norm_num) (by omega)
  have hpos : (0:Nat) < 2^w := pow_pos (by norm_num) _
  obtain ⟨hq, hr⟩ := specQR_overflow w hw
  have hdlt : (2^w - 1 : Nat) < 2^w := by omega
  have h1 := mdResult_spec w hw
    { sign := .SIGNED, n := 2^(w-1), d := 2^w - 1 } hhalf hdlt impl
  have h2 := ldResult_spec w hw
    { sign := .SIGNED, n := 2^(w-1), d := 2^w - 1 } hhalf hdlt
  rw [h1, h2, hq, hr]
  exact ⟨rfl, rfl⟩

theorem C3_signed_overflow_witness :
    1 ≤ 8 ∧
    ((mdResult 8 .RESTORING { sign := .SIGNED, n := 2^7, d := 2^8 - 1 }).2
      = { sign := .SIGNED, q := 2^7, r := 0 }
    ∧ (ldResult 8 { sign := .SIGNED, n := 2^7, d := 2^8 - 1 }).2
      = { sign := .SIGNED, q := 2^7, r := 0 }) :=
  ⟨by decide, C3_signed_overflow 8 (by decide) .RESTORING⟩

end Div

namespace Mul

/-! ## `smolarith/mul.py`

Shallow embedding of the two multiplier cores.  Machine integers are
`Nat` bit patterns; signed register reads go through `Div.sval` and
stores through `Div.uwrap`/explicit `% 2^k`. -/

open Div (ilBits bitLen uwrap_congr uwrap_natCast uwrap_lt bitLen_lt sval_uwrap sval_bounds uwrap_mod_le testBit_msb)

/-- `mul.Sign`: interpretation of the operands. -/
inductive Sign
  | UNSIGNED
  | SIGNED
  | SIGNED_UNSIGNED
deriving DecidableEq, Repr

/-- Payload of the multiplier input stream. -/
structure Inputs where
  sign : Sign
  a : Nat
  b : Nat
deriving DecidableEq, Repr

/-- Payload of the multiplier output stream (`o` is `2w` bits wide). -/
structure Outputs where
  sign : Sign
  o : Nat
deriving DecidableEq, Repr

/-- The specified product bit pattern: each operand read according to
the sign tag, the double-width result wrapped to `2w` bits. -/
def specO (w : Nat) (inp : Inputs) : Nat :=
  match inp.sign with
  | .UNSIGNED => (inp.a * inp.b) % 2^(2*w)
  | .SIGNED => uwrap (2*w) (sval w inp.a * sval w inp.b)
  | .SIGNED_UNSIGNED => uwrap (2*w) (sval w inp.a * (inp.b : Int))

/-! ### `MulticycleMul` -/

/-- Registers of `MulticycleMul`: the latched (possibly negated)
addend (`w+1` bits signed), the latched sign, the shared
`b`/product backing store (`2w+1` bits signed), the loop counter
(`bits_for(w-1)` bits — zero bits when `w = 1`) and the registered
output-valid flag. -/
structure MCMState where
  addend : Nat
  sCopy : Sign
  intermediate : Nat
  itersLeft : Nat
  outValid : Bool
deriving DecidableEq, Repr

def mcmInit : MCMState :=
  { addend := 0, sCopy := .UNSIGNED, intermediate := 0, itersLeft := 0,
    outValid := false }

def mcmInProgress (st : MCMState) : Bool := st.itersLeft ≠ 0

/-- Comb `inp.ready = (outp.ready & outp.valid) | ~in_progress`. -/
def mcmInpReady (st : MCMState) (outpReady : Bool) : Bool :=
  (outpReady && st.outValid) || !(mcmInProgress st)

/-- The accept-edge block of `MulticycleMul.elaborate`: latch the sign
and counter, pick the (possibly two's-complemented) addend, and
initialise the backing store with the first partial product ored onto
`b`, pre-shifted right once (an arithmetic shift, modelled with
`Int.fdiv` by two). -/
def mcmAccept (w : Nat) (inp : Inputs) (base : MCMState) : MCMState :=
  let base1 : MCMState :=
    { base with sCopy := inp.sign,
                itersLeft := (w - 1) % 2^(ilBits w) }
  if (inp.sign = Sign.SIGNED : Bool) && inp.b.testBit (w-1) then
    let pprod : Int :=
      -(sval w inp.a) * (uwrap (w+1) (-(sval w inp.b)) % 2)
    { base1 with
        addend := uwrap (w+1) (-(sval w inp.a)),
        intermediate := uwrap (2*w+1)
          (Int.fdiv (pprod * 2^w + (uwrap w (-((inp.b : Nat) : Int)) : Int))
            2) }
  else if (inp.sign = Sign.UNSIGNED : Bool) then
    let pprod : Int := (inp.a : Int) * (inp.b % 2)
    { base1 with
        addend := uwrap (w+1) ((inp.a : Nat) : Int),
        intermediate := uwrap (2*w+1)
          (Int.fdiv (pprod * 2^w + (inp.b : Int)) 2) }
  else
    let pprod : Int := sval w inp.a * (inp.b % 2)
    { base1 with
        addend := uwrap (w+1) (sval w inp.a),
        intermediate := uwrap (2*w+1)
          (Int.fdiv (pprod * 2^w + (inp.b : Int)) 2) }

/-- The shift-add loop block (`m.If(iters_left != 0)`): add the addend
(gated on the backing store's LSb) shifted up `w`, then shift the store
right arithmetically. -/
def mcmLoop (w : Nat) (pre base : MCMState) : MCMState :=
  let pprod : Int := sval (w+1) pre.addend * (pre.intermediate % 2)
  let st1 : MCMState :=
    { base with
        itersLeft := (pre.itersLeft - 1) % 2^(ilBits w),
        intermediate := uwrap (2*w+1)
          (Int.fdiv (sval (2*w+1) pre.intermediate + pprod * 2^w) 2) }
  if pre.itersLeft - 1 = 0 then { st1 with outValid := true } else st1

/-- Clock-edge transition of `MulticycleMul` (valid-consume, accept and
loop blocks in source order, right-hand sides reading pre-edge
values). -/
def mcmStep (w : Nat) (st : MCMState) (inp : Inputs)
    (inpValid outpReady : Bool) : MCMState :=
  let ov := if st.outValid && outpReady then false else st.outValid
  let st0 : MCMState := { st with outValid := ov }
  let accept := mcmInpReady st outpReady && inpValid
  let stA := if accept then mcmAccept w inp st0 else st0
  if mcmInProgress st then mcmLoop w st stA else stA

/-- Comb output payload: the low `2w` bits of the backing store and the
latched sign. -/
def mcmOut (w : Nat) (st : MCMState) : Outputs :=
  { sign := st.sCopy, o := st.intermediate % 2^(2*w) }

/-- Single-transaction run (as for the dividers): payload presented with
`inp.valid` during cycle 0, `outp.ready` held high. -/
def mcmRun (w : Nat) (inp : Inputs) : Nat → MCMState
  | 0 => mcmInit
  | j+1 => mcmStep w (mcmRun w inp j) inp (j = 0) true

/-- The `(outp.valid, outp.payload)` pair of `MulticycleMul` at its
documented latency of `w` cycles. -/
def mcmResult (w : Nat) (inp : Inputs) : Bool × Outputs :=
  let st := mcmRun w inp w
  (st.outValid, mcmOut w st)

/-! ### Ghost values for the MulticycleMul proof -/

/-- The effective (sign-adjusted) addend chosen by the accept block. -/
def mcmA (w : Nat) (inp : Inputs) : Int :=
  if (inp.sign = Sign.SIGNED : Bool) && inp.b.testBit (w-1) then
    -(sval w inp.a)
  else if (inp.sign = Sign.UNSIGNED : Bool) then (inp.a : Int)
  else sval w inp.a

/-- The effective (sign-adjusted) multiplier pattern stored at accept. -/
def mcmB (w : Nat) (inp : Inputs) : Nat :=
  if (inp.sign = Sign.SIGNED : Bool) && inp.b.testBit (w-1) then
    uwrap w (-((inp.b : Nat) : Int))
  else inp.b

/-- Value of the shared backing store after `t` arithmetic shifts. -/
def mcmVal (w : Nat) (inp : Inputs) (t : Nat) : Int :=
  mcmA w inp * (mcmB w inp % 2^t : Nat) * 2^(w-t) + (mcmB w inp / 2^t : Nat)

/-- Ghost trace of the registers, `1 ≤ t ≤ w`. -/
def mcmTrace (w : Nat) (inp : Inputs) (t : Nat) : MCMState :=
  { addend := uwrap (w+1) (mcmA w inp),
    sCopy := inp.sign,
    intermediate := uwrap (2*w+1) (mcmVal w inp t),
    itersLeft := (w - t) % 2^(ilBits w),
    outValid := decide (t = w ∧ 2 ≤ w) }

lemma fdiv_two (q r : Int) (h : r = 0 ∨ r = 1) :
    Int.fdiv (2*q + r) 2 = q := by
  rw [Int.fdiv_eq_ediv _ (by norm_num)]
  omega

lemma mcmA_bounds (w : Nat) (hw : 1 ≤ w) (inp : Inputs)
    (ha : inp.a < 2^w) :
    -(2:Int)^w < mcmA w inp ∧ mcmA w inp < 2^w := by
  have hs := sval_bounds w inp.a hw ha
  have h1 : (2:Int)^(w-1) * 2 = 2^w := by
    rw [← pow_succ]
    congr 1
    omega
  have hp : (0:Int) < 2^(w-1) := pow_pos (by norm_num) _
  have haI : (inp.a : Int) < 2^w := by exact_mod_cast ha
  have ha0 : (0:Int) ≤ (inp.a : Int) := by positivity
  rw [mcmA]
  split
  · omega
  · split
    · omega
    · omega

lemma mcmB_lt (w : Nat) (inp : Inputs) (hb : inp.b < 2^w) :
    mcmB w inp < 2^w := by
  rw [mcmB]
  split
  · exact uwrap_lt w _
  · exact hb

lemma mcmVal_bounds (w : Nat) (hw : 1 ≤ w) (inp : Inputs)
    (ha : inp.a < 2^w) (hb : inp.b < 2^w) (t : Nat) (ht : t ≤ w) :
    -(2:Int)^(2*w) < mcmVal w inp t ∧ mcmVal w inp t < 2^(2*w) := by
  obtain ⟨hA1, hA2⟩ := mcmA_bounds w hw inp ha
  have hBlt := mcmB_lt w inp hb
  set A := mcmA w inp with hAdef
  set B := mcmB w inp with hBdef
  -- x := (B % 2^t) * 2^(w-t) ≤ 2^w - 2^(w-t)
  have hxn : (B % 2^t) * 2^(w-t) < 2^w := by
    have h1 : B % 2^t < 2^t := Nat.mod_lt _ (pow_pos (by norm_num) _)
    calc (B % 2^t) * 2^(w-t) < 2^t * 2^(w-t) :=
          (Nat.mul_lt_mul_right (pow_pos (by norm_num) _)).mpr h1
      _ = 2^w := by rw [← pow_add]; congr 1; omega
  have hyn : B / 2^t < 2^w := Nat.lt_of_le_of_lt (Nat.div_le_self _ _) hBlt
  set x : Int := ((B % 2^t : Nat) : Int) with hxdef
  set y : Int := ((B / 2^t : Nat) : Int) with hydef
  have hx0 : 0 ≤ x := by positivity
  have hy0 : 0 ≤ y := by positivity
  have hxI : x * 2^(w-t) < 2^w := by
    have := hxn
    rw [hxdef]
    exact_mod_cast this
  have hyI : y < 2^w := by rw [hydef]; exact_mod_cast hyn
  have hXnn : (0:Int) ≤ x * 2^(w-t) := by positivity
  have hVdef : mcmVal w inp t = A * x * 2^(w-t) + y := by
    rw [mcmVal]
  rw [hVdef]
  set X : Int := x * 2^(w-t) with hXdef
  have hAX1 : A * x * 2^(w-t) = A * X := by rw [hXdef]; ring
  rw [hAX1]
  have hP2 : (2:Int)^(2*w) = 2^w * 2^w := by rw [two_mul, pow_add]
  have hub : A * X ≤ (2^w - 1) * X := by
    apply mul_le_mul_of_nonneg_right _ hXnn
    omega
  have hlb : -((2^w - 1) * X) ≤ A * X := by
    have h := mul_le_mul_of_nonneg_right
      (show -((2:Int)^w - 1) ≤ A by omega) hXnn
    rw [neg_mul] at h
    exact h
  have hXub : X ≤ 2^w - 1 := by omega
  have hXnn2 : (0:Int) ≤ X := hXnn
  have hwpos : (0:Int) < 2^w := pow_pos (by norm_num) _
  constructor
  · nlinarith
  · nlinarith

/-- The mathematical product of the ghost operands is the specified
product. -/
lemma mcmAB_spec (w : Nat) (hw : 1 ≤ w) (inp : Inputs)
    (ha : inp.a < 2^w) (hb : inp.b < 2^w) :
    uwrap (2*w) (mcmA w inp * (mcmB w inp : Int)) = specO w inp := by
  obtain ⟨s, av, bv⟩ := inp
  have hw1 : w - 1 + 1 = w := by omega
  cases s
  case UNSIGNED =>
    have hA : mcmA w { sign := .UNSIGNED, a := av, b := bv } = (av : Int) := by
      simp [mcmA]
    have hB : mcmB w { sign := .UNSIGNED, a := av, b := bv } = bv := by
      simp [mcmB]
    rw [hA, hB, specO]
    have hcp : ((av : Int) * (bv : Int)) = ((av * bv : Nat) : Int) := by
      push_cast
      ring
    rw [hcp, uwrap_natCast]
  case SIGNED =>
    have htb := testBit_msb (w-1) bv (by rw [hw1]; exact hb)
    by_cases hbit : bv.testBit (w-1)
    · have hA : mcmA w { sign := .SIGNED, a := av, b := bv }
          = -(sval w av) := by
        simp [mcmA, hbit]
      have hB : mcmB w { sign := .SIGNED, a := av, b := bv }
          = uwrap w (-((bv : Nat) : Int)) := by
        simp [mcmB, hbit]
      rw [hA, hB, specO]
      have hth : 2^(w-1) ≤ bv := by
        rw [hbit] at htb
        exact of_decide_eq_true htb.symm
      have hbI : (bv : Int) < 2^w := by exact_mod_cast hb
      have hthI : ((2:Int))^(w-1) ≤ bv := by exact_mod_cast hth
      have hsplit : (2:Int)^w = 2^(w-1) * 2 := by
        rw [← pow_succ]
        congr 1
        omega
      have hsv : sval w bv = (bv : Int) - 2^w := by
        rw [sval, if_neg (by omega)]
      have heq : -((bv : Nat) : Int) % 2^w = 2^w - bv := by
        have h4 : (-(bv:Int) + 2^w * 1) % 2^w = (-(bv:Int)) % 2^w :=
          Int.add_mul_emod_self_left _ _ _
        rw [show -(bv:Int) + 2^w * 1 = 2^w - bv by ring] at h4
        have h5 : ((2:Int)^w - bv) % 2^w = 2^w - bv := by
          apply Int.emod_eq_of_lt
          · have hp : (0:Int) < 2^(w-1) := pow_pos (by norm_num) _
            omega
          · have hb0 : (0:Int) ≤ (bv : Int) := by positivity
            have hp : (0:Int) < 2^(w-1) := pow_pos (by norm_num) _
            omega
        omega
      have hBcast : ((uwrap w (-((bv : Nat) : Int)) : Nat) : Int)
          = -(sval w bv) := by
        rw [uwrap, heq, Int.toNat_of_nonneg (by omega), hsv]
        ring
      rw [hBcast]
      congr 1
      ring
    · have hA : mcmA w { sign := .SIGNED, a := av, b := bv }
          = sval w av := by
        simp [mcmA, hbit]
      have hB : mcmB w { sign := .SIGNED, a := av, b := bv } = bv := by
        simp [mcmB, hbit]
      rw [hA, hB, specO]
      have hth : bv < 2^(w-1) := by
        rw [Bool.not_eq_true] at hbit
        rw [hbit] at htb
        have := of_decide_eq_false htb.symm
        omega
      have hsv : sval w bv = (bv : Int) := by rw [sval, if_pos hth]
      rw [hsv]
  case SIGNED_UNSIGNED =>
    have hA : mcmA w { sign := .SIGNED_UNSIGNED, a := av, b := bv }
        = sval w av := by
      simp [mcmA]
    have hB : mcmB w { sign := .SIGNED_UNSIGNED, a := av, b := bv } = bv := by
      simp [mcmB]
    rw [hA, hB, specO]

/-- The backing store at `t = 0` holds just the multiplier pattern. -/
lemma mcmVal_zero (w : Nat) (inp : Inputs) :
    mcmVal w inp 0 = (mcmB w inp : Int) := by
  rw [mcmVal]
  simp

/-- One arithmetic shift-add advances the ghost value. -/
lemma mcmVal_step (w : Nat) (inp : Inputs) (t : Nat) (ht : t < w) :
    Int.fdiv (mcmVal w inp t
        + mcmA w inp * ((mcmB w inp / 2^t % 2 : Nat) : Int) * 2^w) 2
      = mcmVal w inp (t+1) := by
  have hsplitN : mcmB w inp % 2^(t+1)
      = mcmB w inp % 2^t + 2^t * (mcmB w inp / 2^t % 2) := by
    rw [pow_succ, Nat.mod_mul]
  have hdiv : mcmB w inp / 2^(t+1) = mcmB w inp / 2^t / 2 := by
    rw [pow_succ]
    exact (Nat.div_div_eq_div_mul _ _ _).symm
  have hdm : mcmB w inp / 2^t
      = 2 * (mcmB w inp / 2^(t+1)) + mcmB w inp / 2^t % 2 := by
    rw [hdiv]
    omega
  have hW : (2:Int)^w = 2^t * (2^(w-(t+1)) * 2) := by
    rw [← pow_succ, ← pow_add]
    congr 1
    omega
  have hwt : (2:Int)^(w-t) = 2^(w-(t+1)) * 2 := by
    rw [← pow_succ]
    congr 1
    omega
  have hnum : mcmVal w inp t
        + mcmA w inp * ((mcmB w inp / 2^t % 2 : Nat) : Int) * 2^w
      = 2 * mcmVal w inp (t+1) + ((mcmB w inp / 2^t % 2 : Nat) : Int) := by
    rw [mcmVal, mcmVal, hwt, hW]
    have hsI : ((mcmB w inp % 2^(t+1) : Nat) : Int)
        = (mcmB w inp % 2^t : Nat) + 2^t * ((mcmB w inp / 2^t % 2 : Nat) : Int) := by
      exact_mod_cast hsplitN
    have hdmI : ((mcmB w inp / 2^t : Nat) : Int)
        = 2 * ((mcmB w inp / 2^(t+1) : Nat) : Int)
          + ((mcmB w inp / 2^t % 2 : Nat) : Int) := by
      exact_mod_cast hdm
    rw [hsI, hdmI]
    ring
  rw [hnum]
  apply fdiv_two
  omega

/-- The LSb of the stored pattern reads bit `t` of the multiplier. -/
lemma mcmLSB (w : Nat) (inp : Inputs) (t : Nat) (ht : t < w) :
    uwrap (2*w+1) (mcmVal w inp t) % 2 = mcmB w inp / 2^t % 2 := by
  have h1 : uwrap (2*w+1) (mcmVal w inp t) % 2^1 = uwrap 1 (mcmVal w inp t) :=
    uwrap_mod_le (2*w+1) 1 (by omega) _
  rw [pow_one] at h1
  rw [h1]
  have hpar : mcmVal w inp t % 2 = ((mcmB w inp / 2^t % 2 : Nat) : Int) % 2 := by
    rw [mcmVal]
    obtain ⟨k, hk⟩ : (2:Int) ∣ 2^(w-t) := dvd_pow_self 2 (by omega)
    rw [hk]
    have hre : mcmA w inp * ↑(mcmB w inp % 2^t) * (2 * k) + ((mcmB w inp / 2^t : Nat) : Int)
        = ((mcmB w inp / 2^t : Nat) : Int)
          + 2 * (mcmA w inp * ↑(mcmB w inp % 2^t) * k) := by ring
    rw [hre, Int.add_mul_emod_self_left]
    omega
  rw [uwrap, pow_one]
  omega

/-- The latched addend reads back as the ghost addend. -/
lemma mcmAddend (w : Nat) (hw : 1 ≤ w) (inp : Inputs) (ha : inp.a < 2^w) :
    sval (w+1) (uwrap (w+1) (mcmA w inp)) = mcmA w inp := by
  obtain ⟨h1, h2⟩ := mcmA_bounds w hw inp ha
  have hc : w + 1 - 1 = w := by omega
  refine sval_uwrap (w+1) (by omega) _ ?_ ?_ <;> rw [hc] <;> omega

/-- The accept-edge pre-shift realises the ghost value at `t = 1`. -/
lemma mcmVal_one (w : Nat) (hw : 1 ≤ w) (inp : Inputs) :
    Int.fdiv (mcmA w inp * ((mcmB w inp % 2 : Nat) : Int) * 2^w
      + ((mcmB w inp : Nat) : Int)) 2 = mcmVal w inp 1 := by
  have hstep0 := mcmVal_step w inp 0 (by omega)
  rw [mcmVal_zero w inp] at hstep0
  rw [← hstep0]
  congr 1
  have hm : mcmB w inp / 2^0 % 2 = mcmB w inp % 2 := by norm_num
  rw [hm]
  ring

/-- The accept edge establishes the ghost trace at `t = 1`. -/
lemma mcmAccept_trace (w : Nat) (hw : 1 ≤ w) (inp : Inputs) :
    mcmAccept w inp mcmInit = mcmTrace w inp 1 := by
  have hstep1 := mcmVal_one w hw inp
  have hov1 : decide (1 = w ∧ 2 ≤ w) = false := by
    rw [decide_eq_false_iff_not]
    omega
  by_cases hc1 : ((inp.sign = Sign.SIGNED : Bool) && inp.b.testBit (w-1)) = true
  · have hA : mcmA w inp = -(sval w inp.a) := by rw [mcmA, if_pos hc1]
    have hB : mcmB w inp = uwrap w (-((inp.b : Nat) : Int)) := by
      rw [mcmB, if_pos hc1]
    have hpar : uwrap (w+1) (-(sval w inp.b)) % 2 = mcmB w inp % 2 := by
      have h1 : uwrap (w+1) (-(sval w inp.b)) % 2^1
          = uwrap 1 (-(sval w inp.b)) := uwrap_mod_le (w+1) 1 (by omega) _
      have h2 : uwrap w (-((inp.b : Nat) : Int)) % 2^1
          = uwrap 1 (-((inp.b : Nat) : Int)) := uwrap_mod_le w 1 hw _
      have h3 : uwrap 1 (-(sval w inp.b)) = uwrap 1 (-((inp.b : Nat) : Int)) := by
        apply uwrap_congr
        obtain ⟨k, hk⟩ : (2:Int) ∣ 2^w := dvd_pow_self 2 (by omega)
        rw [pow_one, sval]
        split
        · rfl
        · omega
      rw [pow_one] at h1 h2
      rw [hB]
      exact h1.trans (h3.trans h2.symm)
    have hparI : ((uwrap (w+1) (-(sval w inp.b)) : Nat) : Int) % 2
        = ((mcmB w inp % 2 : Nat) : Int) := by omega
    rw [hA] at hstep1
    simp only [mcmAccept, mcmTrace, mcmInit]
    rw [if_pos hc1]
    rw [hA, hov1, ← hB, hparI, hstep1]
  · have hBn : mcmB w inp = inp.b := by rw [mcmB, if_neg hc1]
    have hbmod : ((inp.b : Nat) : Int) % 2 = ((mcmB w inp % 2 : Nat) : Int) := by
      rw [hBn]
      omega
    by_cases hc2 : ((inp.sign = Sign.UNSIGNED : Bool)) = true
    · have hA : mcmA w inp = ((inp.a : Nat) : Int) := by
        rw [mcmA, if_neg hc1, if_pos hc2]
      rw [hA] at hstep1
      simp only [mcmAccept, mcmTrace, mcmInit]
      rw [if_neg hc1, if_pos hc2]
      rw [hA, hov1, hbmod, ← hBn, hstep1]
    · have hA : mcmA w inp = sval w inp.a := by
        rw [mcmA, if_neg hc1, if_neg hc2]
      rw [hA] at hstep1
      simp only [mcmAccept, mcmTrace, mcmInit]
      rw [if_neg hc1, if_neg hc2]
      rw [hA, hov1, hbmod, ← hBn, hstep1]

/-- Each loop iteration advances the ghost trace. -/
lemma mcmLoop_trace (w : Nat) (hw : 2 ≤ w) (inp : Inputs)
    (ha : inp.a < 2^w) (hb : inp.b < 2^w) (t : Nat)
    (ht1 : 1 ≤ t) (ht2 : t < w) :
    mcmLoop w (mcmTrace w inp t) { mcmTrace w inp t with outValid := false }
      = mcmTrace w inp (t+1) := by
  have hw1 : 1 ≤ w := by omega
  have hMle : w - 1 < 2^(ilBits w) := by
    rw [ilBits]
    exact bitLen_lt (w - 1)
  have hmod : (w - t) % 2^(ilBits w) = w - t := Nat.mod_eq_of_lt (by omega)
  have hadd := mcmAddend w hw1 inp ha
  have hlsb := mcmLSB w inp t ht2
  have hlsbI : ((uwrap (2*w+1) (mcmVal w inp t) : Nat) : Int) % 2
      = ((mcmB w inp / 2^t % 2 : Nat) : Int) := by
    omega
  obtain ⟨hv1, hv2⟩ := mcmVal_bounds w hw1 inp ha hb t (le_of_lt ht2)
  have hc2 : 2*w + 1 - 1 = 2*w := by omega
  have hsvI : sval (2*w+1) (uwrap (2*w+1) (mcmVal w inp t)) = mcmVal w inp t := by
    refine sval_uwrap (2*w+1) (by omega) _ ?_ ?_ <;> rw [hc2] <;> omega
  have hstep := mcmVal_step w inp t ht2
  rw [mcmLoop]
  simp only [mcmTrace, hmod, hsvI, hadd, hlsbI]
  by_cases hlast : t + 1 = w
  · rw [if_pos (show w - t - 1 = 0 by omega)]
    simp only [MCMState.mk.injEq]
    refine ⟨trivial, trivial, ?_, ?_, ?_⟩
    · rw [hstep]
    · congr 1
    · rw [eq_comm, decide_eq_true_eq]
      exact ⟨hlast, hw⟩
  · rw [if_neg (show ¬ (w - t - 1 = 0) by omega)]
    simp only [MCMState.mk.injEq]
    refine ⟨trivial, trivial, ?_, ?_, ?_⟩
    · rw [hstep]
    · congr 1
    · rw [decide_eq_false (by omega)]

/-- A clock edge in the loop phase advances the ghost trace. -/
lemma mcmStep_trace (w : Nat) (inp : Inputs)
    (ha : inp.a < 2^w) (hb : inp.b < 2^w) (t : Nat)
    (ht1 : 1 ≤ t) (ht : t < w) :
    mcmStep w (mcmTrace w inp t) inp false true = mcmTrace w inp (t+1) := by
  have hw2 : 2 ≤ w := by omega
  have hMle : w - 1 < 2^(ilBits w) := by
    rw [ilBits]
    exact bitLen_lt (w - 1)
  have hov : (mcmTrace w inp t).outValid = false := by
    simp only [mcmTrace, decide_eq_false_iff_not, not_and]
    intro h
    omega
  have hip : mcmInProgress (mcmTrace w inp t) = true := by
    simp only [mcmInProgress, mcmTrace, decide_eq_true_eq]
    rw [Nat.mod_eq_of_lt (by omega)]
    omega
  rw [mcmStep]
  simp only [hov, hip, Bool.and_false, Bool.false_and, Bool.and_true,
    Bool.true_and, Bool.false_eq_true, if_false, if_true, ite_false,
    ite_true, Bool.false_or, Bool.or_false]
  exact mcmLoop_trace w hw2 inp ha hb t ht1 ht

/-- Cycle-accurate run follows the ghost trace. -/
lemma mcmRun_trace (w : Nat) (hw : 1 ≤ w) (inp : Inputs)
    (ha : inp.a < 2^w) (hb : inp.b < 2^w) :
    ∀ t, 1 ≤ t → t ≤ w → mcmRun w inp t = mcmTrace w inp t := by
  intro t
  induction t with
  | zero =>
    intro h0 _
    omega
  | succ t ih =>
    intro ht1 htw
    by_cases ht0 : t = 0
    · subst ht0
      have hbase : mcmRun w inp 1 = mcmAccept w inp mcmInit := rfl
      rw [hbase]
      exact mcmAccept_trace w hw inp
    · have hstep : mcmRun w inp (t+1)
          = mcmStep w (mcmRun w inp t) inp (decide (t = 0)) true := by
        rw [mcmRun]
      rw [hstep, decide_eq_false ht0, ih (by omega) (by omega)]
      exact mcmStep_trace w inp ha hb t (by omega) (by omega)

lemma mcmResult_spec (w : Nat) (hw : 1 ≤ w) (inp : Inputs)
    (ha : inp.a < 2^w) (hb : inp.b < 2^w) :
    mcmResult w inp
      = (decide (2 ≤ w), { sign := inp.sign, o := specO w inp }) := by
  rw [mcmResult, mcmRun_trace w hw inp ha hb w hw (le_refl w)]

  rw [mcmTrace, mcmOut]
  have hBlt := mcmB_lt w inp hb
  have hVw : mcmVal w inp w = mcmA w inp * (mcmB w inp : Int) := by
    rw [mcmVal, Nat.mod_eq_of_lt hBlt, Nat.div_eq_of_lt hBlt]
    simp
  have h1 : decide (w = w ∧ 2 ≤ w) = decide (2 ≤ w) := by
    rcases le_or_lt 2 w with h | h <;> simp [h]
  have h2 : uwrap (2*w+1) (mcmVal w inp w) % 2^(2*w) = specO w inp := by
    rw [uwrap_mod_le (2*w+1) (2*w) (by omega), hVw,
      mcmAB_spec w hw inp ha hb]
  rw [h1, h2]

/-! ### `PipelinedMul` -/

/-- One record of the `pipeline_in` array: the (possibly negated,
`w+1`-bit) multiplicand, the (possibly negated) multiplier pattern, the
sign tag and the valid bit. -/
structure PStage where
  a : Nat
  b : Nat
  s : Sign
  v : Bool
deriving DecidableEq, Repr

/-- Registers of `PipelinedMul`: the `pipeline_in` record array and the
`pipeline_out` accumulator array (each `2w` bits), indexed `0..w-1`. -/
structure PMState where
  pin : Nat → PStage
  pout : Nat → Nat

def pmInitStage : PStage := { a := 0, b := 0, s := .UNSIGNED, v := false }

def pmInit : PMState := { pin := fun _ => pmInitStage, pout := fun _ => 0 }

/-- Comb `outp.valid = pipeline_in[width-1].v`. -/
def pmOutValid (w : Nat) (st : PMState) : Bool := (st.pin (w-1)).v

/-- Comb output payload, read from the last stage. -/
def pmOut (w : Nat) (st : PMState) : Outputs :=
  { sign := (st.pin (w-1)).s, o := st.pout (w-1) }

/-- Comb `inp.ready = ~outp.valid | outp.ready`. -/
def pmInpReady (w : Nat) (st : PMState) (outpReady : Bool) : Bool :=
  !(pmOutValid w st) || outpReady

/-- The `pipeline_in[0]` record written on an accepted transaction. -/
def pmAccept0In (w : Nat) (inp : Inputs) : PStage :=
  if (inp.sign = Sign.SIGNED : Bool) && inp.b.testBit (w-1) then
    { a := uwrap (w+1) (-(sval w inp.a)), b := uwrap w (-(sval w inp.b)),
      s := inp.sign, v := true }
  else if (inp.sign = Sign.UNSIGNED : Bool) then
    { a := uwrap (w+1) ((inp.a : Nat) : Int), b := inp.b,
      s := inp.sign, v := true }
  else
    { a := uwrap (w+1) (sval w inp.a), b := inp.b,
      s := inp.sign, v := true }

/-- The `pipeline_out[0]` accumulator written on an accepted
transaction (first partial product). -/
def pmAccept0Out (w : Nat) (inp : Inputs) : Nat :=
  if (inp.sign = Sign.SIGNED : Bool) && inp.b.testBit (w-1) then
    uwrap (2*w) (-(sval w inp.a) * (uwrap (w+1) (-(sval w inp.b)) % 2))
  else if (inp.sign = Sign.UNSIGNED : Bool) then
    uwrap (2*w) ((inp.a : Int) * (inp.b % 2))
  else
    uwrap (2*w) (sval w inp.a * (inp.b % 2))

/-- Clock-edge transition of `PipelinedMul`: the unconditional
`pipeline_in[0].v := 0`, the accept block rewriting stage `0`, and the
ready-gated shift-add stages `1..w-1` (which read pre-edge values). -/
def pmStep (w : Nat) (st : PMState) (inp : Inputs)
    (inpValid outpReady : Bool) : PMState :=
  let ready := pmInpReady w st outpReady
  let accept := ready && inpValid
  { pin := fun i =>
      if i = 0 then
        if accept then pmAccept0In w inp else { st.pin 0 with v := false }
      else if i < w then
        if ready then st.pin (i-1) else st.pin i
      else st.pin i,
    pout := fun i =>
      if i = 0 then
        if accept then pmAccept0Out w inp else st.pout 0
      else if i < w then
        if ready then
          uwrap (2*w) (sval (w+1) (st.pin (i-1)).a
            * (((st.pin (i-1)).b / 2^i % 2 : Nat) : Int) * 2^i
            + sval (2*w) (st.pout (i-1)))
        else st.pout i
      else st.pout i }

/-- Single-transaction run (`inp.valid` during cycle 0 only,
`outp.ready` held high). -/
def pmRun (w : Nat) (inp : Inputs) : Nat → PMState
  | 0 => pmInit
  | j+1 => pmStep w (pmRun w inp j) inp (j = 0) true

/-- The `(outp.valid, outp.payload)` pair of `PipelinedMul` at its
documented latency of `w` cycles. -/
def pmResult (w : Nat) (inp : Inputs) : Bool × Outputs :=
  let st := pmRun w inp w
  (pmOutValid w st, pmOut w st)

/-- Partial-product accumulator value at stage `i`: the low `i+1`
multiplier bits consumed. -/
def pmPartial (w : Nat) (inp : Inputs) (i : Nat) : Nat :=
  uwrap (2*w) (mcmA w inp * ((mcmB w inp % 2^(i+1) : Nat) : Int))

/-- Ghost trace of a single-transaction run at cycle `1 ≤ t ≤ w`: the
accepted record sits at stage `t-1` (the only stage with `v` set, the
unconditional stage-0 `v` clear having blanked the stages behind it),
and every passed stage holds its partial product. -/
def pmTrace (w : Nat) (inp : Inputs) (t : Nat) : PMState :=
  { pin := fun i =>
      if i < w ∧ i + 1 ≤ t then
        { pmAccept0In w inp with v := decide (i + 1 = t) }
      else pmInitStage,
    pout := fun i =>
      if i < w ∧ i + 1 ≤ t then pmPartial w inp i else 0 }

lemma sval_zero (w : Nat) : sval w 0 = 0 := by
  rw [sval, if_pos (pow_pos (by norm_num) _)]
  rfl

lemma uwrap_zero (w : Nat) : uwrap w 0 = 0 := by
  rw [uwrap]
  simp

lemma pmAccept0In_a (w : Nat) (inp : Inputs) :
    (pmAccept0In w inp).a = uwrap (w+1) (mcmA w inp) := by
  rw [pmAccept0In, mcmA]
  by_cases hc1 : ((inp.sign = Sign.SIGNED : Bool) && inp.b.testBit (w-1)) = true
  · rw [if_pos hc1, if_pos hc1]
  · rw [if_neg hc1, if_neg hc1]
    by_cases hc2 : ((inp.sign = Sign.UNSIGNED : Bool)) = true
    · rw [if_pos hc2, if_pos hc2]
    · rw [if_neg hc2, if_neg hc2]

lemma pmAccept0In_b (w : Nat) (inp : Inputs) :
    (pmAccept0In w inp).b = mcmB w inp := by
  rw [pmAccept0In, mcmB]
  by_cases hc1 : ((inp.sign = Sign.SIGNED : Bool) && inp.b.testBit (w-1)) = true
  · rw [if_pos hc1, if_pos hc1]
    show uwrap w (-(sval w inp.b)) = uwrap w (-((inp.b : Nat) : Int))
    apply uwrap_congr
    obtain ⟨k, hk⟩ : ((2:Int)^w) ∣ 2^w := dvd_rfl
    rw [sval]
    split
    · rfl
    · have : -((inp.b : Int) - 2^w) = -(inp.b : Int) + 2^w * 1 := by ring
      rw [this, Int.add_mul_emod_self_left]
  · rw [if_neg hc1, if_neg hc1]
    by_cases hc2 : ((inp.sign = Sign.UNSIGNED : Bool)) = true
    · rw [if_pos hc2]
    · rw [if_neg hc2]

lemma pmAccept0In_s (w : Nat) (inp : Inputs) :
    (pmAccept0In w inp).s = inp.sign := by
  rw [pmAccept0In]
  by_cases hc1 : ((inp.sign = Sign.SIGNED : Bool) && inp.b.testBit (w-1)) = true
  · rw [if_pos hc1]
  · rw [if_neg hc1]
    by_cases hc2 : ((inp.sign = Sign.UNSIGNED : Bool)) = true
    · rw [if_pos hc2]
    · rw [if_neg hc2]

lemma pmAccept0In_v (w : Nat) (inp : Inputs) :
    (pmAccept0In w inp).v = true := by
  rw [pmAccept0In]
  by_cases hc1 : ((inp.sign = Sign.SIGNED : Bool) && inp.b.testBit (w-1)) = true
  · rw [if_pos hc1]
  · rw [if_neg hc1]
    by_cases hc2 : ((inp.sign = Sign.UNSIGNED : Bool)) = true
    · rw [if_pos hc2]
    · rw [if_neg hc2]

lemma pmAccept0Out_partial (w : Nat) (hw : 1 ≤ w) (inp : Inputs) :
    pmAccept0Out w inp = pmPartial w inp 0 := by
  rw [pmAccept0Out, pmPartial, pow_one]
  by_cases hc1 : ((inp.sign = Sign.SIGNED : Bool) && inp.b.testBit (w-1)) = true
  · rw [if_pos hc1]
    have hA : mcmA w inp = -(sval w inp.a) := by rw [mcmA, if_pos hc1]
    have hB : mcmB w inp = uwrap w (-((inp.b : Nat) : Int)) := by
      rw [mcmB, if_pos hc1]
    have hpar : uwrap (w+1) (-(sval w inp.b)) % 2 = mcmB w inp % 2 := by
      have h1 : uwrap (w+1) (-(sval w inp.b)) % 2^1
          = uwrap 1 (-(sval w inp.b)) := uwrap_mod_le (w+1) 1 (by omega) _
      have h2 : uwrap w (-((inp.b : Nat) : Int)) % 2^1
          = uwrap 1 (-((inp.b : Nat) : Int)) := uwrap_mod_le w 1 hw _
      have h3 : uwrap 1 (-(sval w inp.b)) = uwrap 1 (-((inp.b : Nat) : Int)) := by
        apply uwrap_congr
        obtain ⟨k, hk⟩ : (2:Int) ∣ 2^w := dvd_pow_self 2 (by omega)
        rw [pow_one, sval]
        split
        · rfl
        · omega
      rw [pow_one] at h1 h2
      rw [hB]
      exact h1.trans (h3.trans h2.symm)
    have hparI : ((uwrap (w+1) (-(sval w inp.b)) : Nat) : Int) % 2
        = ((mcmB w inp % 2 : Nat) : Int) := by omega
    rw [hA, hparI]
  · rw [if_neg hc1]
    have hB : mcmB w inp = inp.b := by rw [mcmB, if_neg hc1]
    have hbmod : ((inp.b : Nat) : Int) % 2 = ((mcmB w inp % 2 : Nat) : Int) := by
      rw [hB]
      omega
    by_cases hc2 : ((inp.sign = Sign.UNSIGNED : Bool)) = true
    · rw [if_pos hc2]
      have hA : mcmA w inp = ((inp.a : Nat) : Int) := by
        rw [mcmA, if_neg hc1, if_pos hc2]
      rw [hA, hbmod]
    · rw [if_neg hc2]
      have hA : mcmA w inp = sval w inp.a := by
        rw [mcmA, if_neg hc1, if_neg hc2]
      rw [hA, hbmod]

/-- The ready-gated shift-add of stage `i` advances the partial
product. -/
lemma pmShift_step (w : Nat) (hw : 1 ≤ w) (inp : Inputs)
    (ha : inp.a < 2^w) (i : Nat)
    (hi1 : 1 ≤ i) (hiw : i < w) :
    uwrap (2*w) (sval (w+1) (uwrap (w+1) (mcmA w inp))
        * ((mcmB w inp / 2^i % 2 : Nat) : Int) * 2^i
        + sval (2*w) (pmPartial w inp (i-1)))
      = pmPartial w inp i := by
  rw [mcmAddend w hw inp ha]
  have hi0 : i - 1 + 1 = i := by omega
  obtain ⟨hA1, hA2⟩ := mcmA_bounds w hw inp ha
  -- bound the accumulated partial product to pull it out of the store
  have hmlt : mcmB w inp % 2^i < 2^(w-1) := by
    have h1 : mcmB w inp % 2^i < 2^i := Nat.mod_lt _ (pow_pos (by norm_num) _)
    have h2 : (2:Nat)^i ≤ 2^(w-1) := Nat.pow_le_pow_right (by norm_num) (by omega)
    omega
  have hsv : sval (2*w) (pmPartial w inp (i-1))
      = mcmA w inp * ((mcmB w inp % 2^i : Nat) : Int) := by
    rw [pmPartial, hi0]
    have hc : 2*w - 1 = w + (w - 1) := by omega
    have hsplit : (2:Int)^(2*w-1) = 2^w * 2^(w-1) := by
      rw [hc, pow_add]
    have hmI : ((mcmB w inp % 2^i : Nat) : Int) < 2^(w-1) := by
      exact_mod_cast hmlt
    have hm0 : (0:Int) ≤ ((mcmB w inp % 2^i : Nat) : Int) := by positivity
    have hP1 : (0:Int) < 2^(w-1) := pow_pos (by norm_num) _
    have hub : mcmA w inp * ((mcmB w inp % 2^i : Nat) : Int) < 2^(2*w-1) := by
      rw [hsplit]
      rcases le_or_lt (mcmA w inp) 0 with h | h
      · have : mcmA w inp * ((mcmB w inp % 2^i : Nat) : Int) ≤ 0 :=
          mul_nonpos_of_nonpos_of_nonneg h hm0
        nlinarith
      · nlinarith
    have hlb : -((2:Int)^(2*w-1)) ≤ mcmA w inp * ((mcmB w inp % 2^i : Nat) : Int) := by
      rw [hsplit]
      rcases le_or_lt 0 (mcmA w inp) with h | h
      · have : 0 ≤ mcmA w inp * ((mcmB w inp % 2^i : Nat) : Int) :=
          mul_nonneg h hm0
        nlinarith
      · nlinarith
    exact sval_uwrap (2*w) (by omega) _ hlb hub
  rw [hsv]
  rw [pmPartial]
  congr 1
  have hsplitN : mcmB w inp % 2^(i+1)
      = mcmB w inp % 2^i + 2^i * (mcmB w inp / 2^i % 2) := by
    rw [pow_succ, Nat.mod_mul]
  have hsI : ((mcmB w inp % 2^(i+1) : Nat) : Int)
      = (mcmB w inp % 2^i : Nat) + 2^i * ((mcmB w inp / 2^i % 2 : Nat) : Int) := by
    exact_mod_cast hsplitN
  rw [hsI]
  ring

/-- The accept edge establishes the single-transaction ghost trace. -/
lemma pmAccept_trace (w : Nat) (hw : 1 ≤ w) (inp : Inputs) :
    pmStep w pmInit inp true true = pmTrace w inp 1 := by
  rw [pmStep, pmTrace]
  simp only [pmInpReady, pmOutValid, pmInit, pmInitStage, Bool.or_true,
    Bool.true_and, if_true]
  congr 1 <;> funext i
  · by_cases hi0 : i = 0
    · subst hi0
      rw [if_pos rfl, if_pos (show (0:Nat) < w ∧ 0 + 1 ≤ 1 by omega)]
      have hv := pmAccept0In_v w inp
      have hd : decide (0 + 1 = 1) = true := by decide
      rw [hd, ← hv]
    · rw [if_neg hi0, if_neg (show ¬ (i < w ∧ i + 1 ≤ 1) by omega)]
      by_cases hiw : i < w
      · rw [if_pos hiw]
      · rw [if_neg hiw]
  · by_cases hi0 : i = 0
    · subst hi0
      rw [if_pos rfl, if_pos (show (0:Nat) < w ∧ 0 + 1 ≤ 1 by omega)]
      exact pmAccept0Out_partial w hw inp
    · rw [if_neg hi0, if_neg (show ¬ (i < w ∧ i + 1 ≤ 1) by omega)]
      by_cases hiw : i < w
      · rw [if_pos hiw, sval_zero, sval_zero]
        simp [uwrap_zero]
      · rw [if_neg hiw]

/-- A clock edge with the transaction in flight advances the ghost
trace one stage. -/
lemma pmStep_trace (w : Nat) (hw : 1 ≤ w) (inp : Inputs)
    (ha : inp.a < 2^w) (t : Nat) (ht1 : 1 ≤ t) :
    pmStep w (pmTrace w inp t) inp false true = pmTrace w inp (t+1) := by
  rw [pmStep]
  simp only [pmInpReady, pmOutValid, Bool.or_true, Bool.and_false,
    Bool.false_eq_true, if_false, if_true]
  congr 1 <;> funext i
  · by_cases hi0 : i = 0
    · subst hi0
      rw [if_pos rfl, if_pos (show (0:Nat) < w ∧ 0 + 1 ≤ t + 1 by omega),
        decide_eq_false (show ¬ (0 + 1 = t + 1) by omega)]
      simp only [pmTrace]
      rw [if_pos (show (0:Nat) < w ∧ 0 + 1 ≤ t by omega)]
    · rw [if_neg hi0]
      by_cases hiw : i < w
      · by_cases hit : i ≤ t
        · rw [if_pos hiw, if_pos (show i < w ∧ i + 1 ≤ t + 1 by omega)]
          simp only [pmTrace]
          rw [if_pos (show i - 1 < w ∧ i - 1 + 1 ≤ t by omega)]
          have hd : decide (i - 1 + 1 = t) = decide (i + 1 = t + 1) := by
            rw [decide_eq_decide]
            omega
          rw [hd]
        · rw [if_pos hiw, if_neg (show ¬ (i < w ∧ i + 1 ≤ t + 1) by omega)]
          simp only [pmTrace]
          rw [if_neg (show ¬ (i - 1 < w ∧ i - 1 + 1 ≤ t) by omega)]
      · rw [if_neg hiw, if_neg (show ¬ (i < w ∧ i + 1 ≤ t + 1) by omega)]
        simp only [pmTrace]
        rw [if_neg (show ¬ (i < w ∧ i + 1 ≤ t) by omega)]
  · by_cases hi0 : i = 0
    · subst hi0
      rw [if_pos rfl, if_pos (show (0:Nat) < w ∧ 0 + 1 ≤ t + 1 by omega)]
      simp only [pmTrace]
      rw [if_pos (show (0:Nat) < w ∧ 0 + 1 ≤ t by omega)]
    · rw [if_neg hi0]
      by_cases hiw : i < w
      · by_cases hit : i ≤ t
        · rw [if_pos hiw, if_pos (show i < w ∧ i + 1 ≤ t + 1 by omega)]
          have hpina : ((pmTrace w inp t).pin (i-1)).a
              = uwrap (w+1) (mcmA w inp) := by
            simp only [pmTrace]
            rw [if_pos (show i - 1 < w ∧ i - 1 + 1 ≤ t by omega)]
            exact pmAccept0In_a w inp
          have hpinb : ((pmTrace w inp t).pin (i-1)).b = mcmB w inp := by
            simp only [pmTrace]
            rw [if_pos (show i - 1 < w ∧ i - 1 + 1 ≤ t by omega)]
            exact pmAccept0In_b w inp
          have hpout : (pmTrace w inp t).pout (i-1)
              = pmPartial w inp (i-1) := by
            simp only [pmTrace]
            rw [if_pos (show i - 1 < w ∧ i - 1 + 1 ≤ t by omega)]
          rw [hpina, hpinb, hpout,
            pmShift_step w hw inp ha i (by omega) hiw]
        · rw [if_pos hiw, if_neg (show ¬ (i < w ∧ i + 1 ≤ t + 1) by omega)]
          have hpin : (pmTrace w inp t).pin (i-1) = pmInitStage := by
            simp only [pmTrace]
            rw [if_neg (show ¬ (i - 1 < w ∧ i - 1 + 1 ≤ t) by omega)]
          have hpout0 : (pmTrace w inp t).pout (i-1) = 0 := by
            simp only [pmTrace]
            rw [if_neg (show ¬ (i - 1 < w ∧ i - 1 + 1 ≤ t) by omega)]
          rw [hpin, hpout0]
          simp [pmInitStage, sval_zero, uwrap_zero]
      · rw [if_neg hiw, if_neg (show ¬ (i < w ∧ i + 1 ≤ t + 1) by omega)]
        simp only [pmTrace]
        rw [if_neg (show ¬ (i < w ∧ i + 1 ≤ t) by omega)]

/-- The single-transaction run follows the ghost trace. -/
lemma pmRun_trace (w : Nat) (hw : 1 ≤ w) (inp : Inputs)
    (ha : inp.a < 2^w) :
    ∀ t, 1 ≤ t → t ≤ w → pmRun w inp t = pmTrace w inp t := by
  intro t
  induction t with
  | zero =>
    intro h0 _
    omega
  | succ t ih =>
    intro ht1 htw
    by_cases ht0 : t = 0
    · subst ht0
      have hbase : pmRun w inp 1 = pmStep w pmInit inp true true := rfl
      rw [hbase]
      exact pmAccept_trace w hw inp
    · have hstep : pmRun w inp (t+1)
          = pmStep w (pmRun w inp t) inp (decide (t = 0)) true := by
        rw [pmRun]
      rw [hstep, decide_eq_false ht0, ih (by omega) (by omega)]
      exact pmStep_trace w hw inp ha t (by omega)

/-- `PipelinedMul` single-transaction correctness: at cycle `w` the
output is valid with the specified product and the transaction's own
sign tag (this holds for every width `w ≥ 1`). -/
lemma pmResult_spec (w : Nat) (hw : 1 ≤ w) (inp : Inputs)
    (ha : inp.a < 2^w) (hb : inp.b < 2^w) :
    pmResult w inp = (true, { sign := inp.sign, o := specO w inp }) := by
  rw [pmResult, pmRun_trace w hw inp ha w hw (le_refl w)]
  have hcond : w - 1 < w ∧ w - 1 + 1 ≤ w := by omega
  have hpin : (pmTrace w inp w).pin (w-1)
      = { pmAccept0In w inp with v := decide (w - 1 + 1 = w) } := by
    rw [pmTrace]
    simp only
    rw [if_pos hcond]
  have hpout : (pmTrace w inp w).pout (w-1) = pmPartial w inp (w-1) := by
    rw [pmTrace]
    simp only
    rw [if_pos hcond]
  rw [pmOutValid, pmOut, hpin, hpout]
  simp only
  have hv : decide (w - 1 + 1 = w) = true := decide_eq_true (by omega)
  have hs := pmAccept0In_s w inp
  have ho : pmPartial w inp (w-1) = specO w inp := by
    rw [pmPartial]
    have hx : w - 1 + 1 = w := by omega
    rw [hx, Nat.mod_eq_of_lt (mcmB_lt w inp hb)]
    exact mcmAB_spec w hw inp ha hb
  rw [hv, hs, ho]

/-- Before cycle `w` the single-transaction run's output is not valid. -/
lemma pmRun_valid_before (w : Nat) (hw : 1 ≤ w) (inp : Inputs)
    (ha : inp.a < 2^w) (t : Nat) (ht : t < w) :
    pmOutValid w (pmRun w inp t) = false := by
  rcases Nat.eq_zero_or_pos t with ht0 | htpos
  · subst ht0
    rfl
  · rw [pmRun_trace w hw inp ha t htpos (by omega), pmOutValid, pmTrace]
    simp only
    rw [if_neg (by omega : ¬ (w - 1 < w ∧ w - 1 + 1 ≤ t))]
    rfl

end Mul


namespace Div

/-! ### Valid-timing helpers for the latency claim -/

/-- `LongDivider` phase registers during a single-transaction run: the
loop counter holds `w - t` and `outp.valid` rises exactly at cycle `w`
(only when `w ≥ 2`; the counter has zero bits at `w = 1`).  These two
fields evolve independently of the data path. -/
lemma ldRun_phase (w : Nat) (hw : 1 ≤ w) (inp : Inputs) :
    ∀ t, 1 ≤ t → t ≤ w →
    (ldRun w inp t).itersLeft = (w - t) % 2^(ilBits w)
    ∧ (ldRun w inp t).outValid = decide (t = w ∧ 2 ≤ w) := by
  have hMle : w - 1 < 2^(ilBits w) := by
    rw [ilBits]
    exact bitLen_lt (w - 1)
  intro t
  induction t with
  | zero =>
    intro h0 _
    omega
  | succ t ih =>
    intro ht1 htw
    by_cases ht0 : t = 0
    · subst ht0
      have hbase : ldRun w inp 1 = ldAccept w inp ldInit := rfl
      rw [hbase]
      constructor
      · rfl
      · have hov : (ldAccept w inp ldInit).outValid = false := rfl
        rw [hov, eq_comm, decide_eq_false_iff_not]
        omega
    · obtain ⟨hil, hov⟩ := ih (by omega) (by omega)
      have hmod : (w - t) % 2^(ilBits w) = w - t :=
        Nat.mod_eq_of_lt (by omega)
      rw [hmod] at hil
      have hovf : (ldRun w inp t).outValid = false := by
        rw [hov, decide_eq_false_iff_not]
        omega
      have hstep : ldRun w inp (t+1)
          = ldStep w (ldRun w inp t) inp (decide (t = 0)) true := by
        rw [ldRun]
      rw [hstep, decide_eq_false ht0, ldStep]
      simp only [hovf, hil, ldInProgress, ldInpReady, Bool.and_false,
        Bool.false_and, Bool.and_true, Bool.true_and, Bool.false_eq_true,
        if_false, ite_false]
      have hip : decide (¬ (w - t = 0)) = true := by
        rw [decide_eq_true_eq]
        omega
      rw [hip]
      simp only [if_true, ite_true, ldLoop]
      constructor
      · rw [hil]
        congr 1
      · rw [hil]
        by_cases hlast : t + 1 = w
        · rw [if_pos (by omega : w - t - 1 = 0), eq_comm, decide_eq_true_eq]
          omega
        · rw [if_neg (by omega : ¬ (w - t - 1 = 0)), eq_comm,
            decide_eq_false_iff_not]
          omega

/-- The restoring `MulticycleDiv` is not valid at any cycle before its
documented `w + 3` latency. -/
lemma mdValid_before_rest (w : Nat) (hw : 1 ≤ w) (inp : Inputs) :
    ∀ j, j < w + 3 → mdOutValid (mdRun restCore restInit w inp j) = false := by
  intro j hj
  rcases j with _ | (_ | k)
  · rfl
  · rfl
  · rw [mdRun_rest_loop w hw inp k (by omega)]
    rfl

/-- The non-restoring `MulticycleDiv` is not valid at any cycle before
its documented `w + 4` latency. -/
lemma mdValid_before_nr (w : Nat) (hw : 1 ≤ w) (inp : Inputs) :
    ∀ j, j < w + 4 → mdOutValid (mdRun nrCore nrInit w inp j) = false := by
  intro j hj
  rcases j with _ | (_ | k)
  · rfl
  · rfl
  · by_cases hk : k ≤ w
    · rw [mdRun_nr_loop w hw inp k hk]
      rfl
    · have hkw : k = w + 1 := by omega
      subst hkw
      have hidx : w + 1 + 2 = w + 3 := by omega
      rw [hidx, mdRun_nr_restore w hw inp]
      rfl


/-! ### Sign consistency under arbitrary stimulus -/

end Div

namespace Mul

/-! ### Claims on the multipliers -/

/-- C4: both multiplier cores compute the specified product bit
pattern for every width, every sign mode and all in-range operands:
the low `2w` bits of the signed/unsigned product appear on `o`, with
the transaction sign echoed (MulticycleMul asserts valid only for
`w ≥ 2`; PipelinedMul for every `w ≥ 1`). -/
theorem C4_multiplier_product (w : Nat) (hw : 1 ≤ w) (inp : Inputs)
    (ha : inp.a < 2^w) (hb : inp.b < 2^w) :
    mcmResult w inp = (decide (2 ≤ w), { sign := inp.sign, o := specO w inp })
    ∧ pmResult w inp = (true, { sign := inp.sign, o := specO w inp }) :=
  ⟨mcmResult_spec w hw inp ha hb, pmResult_spec w hw inp ha hb⟩

theorem C4_multiplier_product_witness :
    (1 ≤ 8 ∧ (253:Nat) < 2^8 ∧ (251:Nat) < 2^8)
    ∧ (mcmResult 8 { sign := .SIGNED, a := 253, b := 251 }
        = (decide (2 ≤ 8),
           { sign := .SIGNED,
             o := specO 8 { sign := .SIGNED, a := 253, b := 251 } })
      ∧ pmResult 8 { sign := .SIGNED, a := 253, b := 251 }
        = (true,
           { sign := .SIGNED,
             o := specO 8 { sign := .SIGNED, a := 253, b := 251 } })) :=
  ⟨by decide,
   C4_multiplier_product 8 (by decide) { sign := .SIGNED, a := 253, b := 251 }
     (by decide) (by decide)⟩

/-- C5 (corrected): first-valid timing of the four cores in a
single-transaction run.  `MulticycleDiv` is first valid at exactly
`w + 3` (restoring) / `w + 4` (non-restoring) and `PipelinedMul` at
exactly `w`, for every `w ≥ 1`; `LongDivider` and `MulticycleMul` are
first valid at exactly `w` only for `w ≥ 2` (at `w = 1` their
zero-width loop counters keep them from ever asserting valid). -/
theorem C5_latency (w : Nat) (hw : 1 ≤ w)
    (dinp : Div.Inputs) (hn : dinp.n < 2^w) (hd : dinp.d < 2^w)
    (minp : Inputs) (ha : minp.a < 2^w) (hb : minp.b < 2^w) :
    ((Div.mdResult w Div.Impl.RESTORING dinp).1 = true
      ∧ ∀ j, j < w + 3 →
          Div.mdOutValid (Div.mdRun Div.restCore Div.restInit w dinp j)
            = false)
    ∧ ((Div.mdResult w Div.Impl.NON_RESTORING dinp).1 = true
      ∧ ∀ j, j < w + 4 →
          Div.mdOutValid (Div.mdRun Div.nrCore Div.nrInit w dinp j) = false)
    ∧ ((pmResult w minp).1 = true
      ∧ ∀ j, j < w → pmOutValid w (pmRun w minp j) = false)
    ∧ (2 ≤ w →
        ((Div.ldResult w dinp).1 = true
          ∧ ∀ j, j < w → (Div.ldRun w dinp j).outValid = false)
        ∧ ((mcmResult w minp).1 = true
          ∧ ∀ j, j < w → (mcmRun w minp j).outValid = false)) := by
  refine ⟨⟨?_, Div.mdValid_before_rest w hw dinp⟩,
          ⟨?_, Div.mdValid_before_nr w hw dinp⟩,
          ⟨?_, fun j hj => pmRun_valid_before w hw minp ha j hj⟩, ?_⟩
  · rw [Div.mdResult_spec w hw dinp hn hd Div.Impl.RESTORING]
  · rw [Div.mdResult_spec w hw dinp hn hd Div.Impl.NON_RESTORING]
  · rw [pmResult_spec w hw minp ha hb]
  · intro hw2
    refine ⟨⟨?_, ?_⟩, ⟨?_, ?_⟩⟩
    · rw [Div.ldResult_spec w hw dinp hn hd]
      exact decide_eq_true hw2
    · intro j hj
      rcases j with _ | t
      · rfl
      · rw [(Div.ldRun_phase w hw dinp (t+1) (by omega) (by omega)).2]
        exact decide_eq_false (by omega)
    · rw [mcmResult_spec w hw minp ha hb]
      exact decide_eq_true hw2
    · intro j hj
      rcases j with _ | t
      · rfl
      · rw [mcmRun_trace w hw minp ha hb (t+1) (by omega) (by omega)]
        simp only [mcmTrace]
        exact decide_eq_false (by omega)

theorem C5_latency_witness :
    (1 ≤ 2 ∧ (3:Nat) < 2^2 ∧ (2:Nat) < 2^2 ∧ (3:Nat) < 2^2 ∧ (3:Nat) < 2^2)
    ∧ (((Div.mdResult 2 Div.Impl.RESTORING
          { sign := .UNSIGNED, n := 3, d := 2 }).1 = true
      ∧ ∀ j, j < 2 + 3 →
          Div.mdOutValid (Div.mdRun Div.restCore Div.restInit 2
            { sign := .UNSIGNED, n := 3, d := 2 } j) = false)
    ∧ ((Div.mdResult 2 Div.Impl.NON_RESTORING
          { sign := .UNSIGNED, n := 3, d := 2 }).1 = true
      ∧ ∀ j, j < 2 + 4 →
          Div.mdOutValid (Div.mdRun Div.nrCore Div.nrInit 2
            { sign := .UNSIGNED, n := 3, d := 2 } j) = false)
    ∧ ((pmResult 2 { sign := Sign.UNSIGNED, a := 3, b := 3 }).1 = true
      ∧ ∀ j, j < 2 →
          pmOutValid 2 (pmRun 2 { sign := Sign.UNSIGNED, a := 3, b := 3 } j)
            = false)
    ∧ (2 ≤ 2 →
        ((Div.ldResult 2 { sign := .UNSIGNED, n := 3, d := 2 }).1 = true
          ∧ ∀ j, j < 2 →
              (Div.ldRun 2 { sign := .UNSIGNED, n := 3, d := 2 } j).outValid
               = false)
        ∧ ((mcmResult 2 { sign := Sign.UNSIGNED, a := 3, b := 3 }).1 = true
          ∧ ∀ j, j < 2 →
              (mcmRun 2 { sign := Sign.UNSIGNED, a := 3, b := 3 } j).outValid
               = false))) :=
  ⟨by decide,
   C5_latency 2 (by decide) { sign := .UNSIGNED, n := 3, d := 2 }
     (by decide) (by decide) { sign := Sign.UNSIGNED, a := 3, b := 3 }
     (by decide) (by decide)⟩

/-- C5 counterexample to the original claim: at width 1 the documented
latency `W` would require `outp.valid` one cycle after acceptance, but
`LongDivider` and `MulticycleMul` never assert `outp.valid` at width 1
(their `iters_left = Signal(range(1))` has zero bits, so the loop that
raises valid never runs). -/
theorem C5_latency_counterexample :
    (Div.ldResult 1 { sign := .UNSIGNED, n := 1, d := 1 }).1 = false
    ∧ (mcmResult 1 { sign := Sign.UNSIGNED, a := 1, b := 1 }).1 = false
    ∧ (∀ j, j ≤ 8 →
        (Div.ldRun 1 { sign := .UNSIGNED, n := 1, d := 1 } j).outValid
          = false)
    ∧ (∀ j, j ≤ 8 →
        (mcmRun 1 { sign := Sign.UNSIGNED, a := 1, b := 1 } j).outValid
          = false) := by
  decide

/-! ### Pipeline consistency under arbitrary stimulus -/

/-- Stimulus for the stall-drop bug: two back-to-back transactions,
then a one-cycle stall (`outp.ready` low at cycle 2 only). -/
def pmStallInp (j : Nat) : Inputs :=
  if j = 0 then { sign := .UNSIGNED, a := 1, b := 1 }
  else { sign := .UNSIGNED, a := 2, b := 3 }

/-- `PipelinedMul` at width 2 under the stall stimulus. -/
def pmStallRun : Nat → PMState
  | 0 => pmInit
  | j+1 => pmStep 2 (pmStallRun j) (pmStallInp j)
      (decide (j = 0) || decide (j = 1)) (!decide (j = 2))

/-- C7: the ready equation `inp.ready = ~outp.valid | outp.ready`
holds by construction, but a stall does not freeze all registers: the
unconditional `pipeline_in[0].v := 0` clears the stage-0 valid bit
during the stall, dropping the in-flight second transaction.  Its
payload registers survive (`a`, `b` unchanged) and its product (6) is
even computed into `pipeline_out[1]`, but with `v` lost the result is
never presented: `outp.valid` is low at cycle 4 where the delayed
result should have emerged. -/
theorem C7_stall_semantics :
    (∀ (st : PMState) (r : Bool),
        pmInpReady 2 st r = (!(pmOutValid 2 st) || r))
    ∧ (((pmStallRun 2).pin 0).v = true
      ∧ pmOutValid 2 (pmStallRun 2) = true
      ∧ pmInpReady 2 (pmStallRun 2) false = false
      ∧ ((pmStallRun 3).pin 0).a = ((pmStallRun 2).pin 0).a
      ∧ ((pmStallRun 3).pin 0).b = ((pmStallRun 2).pin 0).b
      ∧ ((pmStallRun 3).pin 0).v = false
      ∧ (pmStallRun 4).pout 1 = 6
      ∧ pmOutValid 2 (pmStallRun 4) = false) :=
  ⟨fun st r => rfl, by decide⟩

end Mul

namespace Base10

/-! ### `smolarith/base10.py` -/

/-- `_base10_width(x) = ceil(log10(2**x))`: computed for `x ≥ 1` as the
decimal digit count of `2^x` (`2^x` is never a power of ten for
`x ≥ 1`, so the ceiling is `floor(log10(2^x)) + 1`). -/
def digitsAux : Nat → Nat → Nat
  | 0, _ => 0
  | fuel+1, n => if n = 0 then 0 else digitsAux fuel (n / 10) + 1

def base10Width (x : Nat) : Nat := digitsAux (2^x) (2^x)

/-- `_DoubleDabble._ShiftAdd3` as a combinational function:
`(outp, cout)` from `(inp, cin)`; `shreg = Cat(cin, inp)` is 4 bits wide
and the add-3 correction is suppressed in a `final` cell. -/
def ddSA3 (final : Bool) (inp cin : Nat) : Nat × Nat :=
  let shreg := (cin + 2 * inp) % 16
  if !final && decide (5 ≤ shreg) then
    let plus3 := (shreg + 3) % 16
    (plus3 % 8, plus3 / 8)
  else (shreg % 8, shreg / 8)

/-- Bit `i` of `x` as a `Nat`. -/
def nbit (x i : Nat) : Nat := x / 2^i % 2

/-- Level 0 of the `_DoubleDabble` shift-add network: the cell at depth
`i` (depths `2..w-1`; the root at depth 2 takes the top three input
bits, each later cell chains the previous `outp` and shifts in input
bit `w-1-i`; only the cell at depth `w-1` is final). -/
def ddL0 (w x : Nat) : Nat → Nat × Nat
  | 0 => (0, 0)
  | 1 => (0, 0)
  | 2 => ddSA3 false (nbit x (w-2) + 2 * nbit x (w-1)) (nbit x (w-3))
  | i+3 => ddSA3 (decide (i+3 = w-1)) (ddL0 w x (i+2)).1 (nbit x (w-1-(i+3)))

/-- A level `≥ 1` of the network, at offset `k` from its start depth
`s`: the root merges three carries of the previous level `g`; each
later cell chains the previous `outp` and shifts in the previous
level's carry at the preceding depth. -/
def ddLnAux (w s : Nat) (g : Nat → Nat × Nat) : Nat → Nat × Nat
  | 0 => ddSA3 (decide (w - s = 1)) ((g (s-2)).2 + 2 * (g (s-3)).2) ((g (s-1)).2)
  | k+1 => ddSA3 (decide (s + (k+1) = w-1)) ((ddLnAux w s g k).1) ((g (s+k)).2)

/-- The whole network: level `L` as a function of depth (level `L ≥ 1`
starts at depth `3(L+1)-1`). -/
def ddLevel (w x : Nat) : Nat → (Nat → Nat × Nat)
  | 0 => ddL0 w x
  | L+1 => fun i => ddLnAux w (3*(L+1)+2) (ddLevel w x L) (i - (3*(L+1)+2))

/-- BCD digit `d` of the `_DoubleDabble` output: digits below the last
read `Cat(outp, cout)` of their level's final cell; the last digit
collects the unused carries of the last level. -/
def ddDigit (w x d : Nat) : Nat :=
  let nbd := base10Width w
  if d + 1 < nbd then
    let p := ddLevel w x d (w-1)
    p.1 + 8 * p.2
  else
    let num := w - (3*nbd - 4)
    (List.range (num - 1)).foldl
      (fun acc i => acc + (ddLevel w x (nbd-2) (w-1-i-1)).2 * 2^i) 0


/-! ### `_B2ToB1000` (3-stage pipeline) -/

/-- Registers of `_B2ToB1000._pipelined_3`. -/
structure B2BState where
  b2 : Nat
  c : Nat
  d0g : Nat
  d1g : Nat
  valid0 : Bool
  valid1 : Bool
  outValid : Bool
  p0 : Nat
  p1 : Nat
deriving DecidableEq, Repr

def b2bInit : B2BState :=
  { b2 := 0, c := 0, d0g := 0, d1g := 0, valid0 := false, valid1 := false,
    outValid := false, p0 := 0, p1 := 0 }

/-- `_mac24(x, y) = 24*x + y`. -/
def mac24 (x y : Nat) : Nat := 24 * x + y

/-- Clock edge of `_B2ToB1000` (`x` is the 20-bit input payload;
right-hand sides read pre-edge registers; the whole datapath is gated
on `not_stalled = ~outp.valid | outp.ready`, except the unconditional
`valid[0] := 0`). -/
def b2bStep (st : B2BState) (x : Nat) (inpValid outpReady : Bool) : B2BState :=
  let notStalled := !st.outValid || outpReady
  let v0 := notStalled && inpValid
  let b2n := if notStalled && inpValid then x / 2^10 % 2^10 else st.b2
  let cn := if notStalled && inpValid then
      mac24 (x / 2^10 % 2^10) (x % 2^10) % 2^15
    else st.c
  if notStalled then
    { b2 := b2n, c := cn, valid0 := v0,
      valid1 := st.valid0,
      d0g := mac24 (st.c / 2^10) (st.c % 2^10) % 2^11,
      d1g := (st.b2 + st.c / 2^10) % 2^10,
      outValid := st.valid1,
      p0 := if 999 < st.d0g then (st.d0g + 24) % 2^10 else st.d0g % 2^10,
      p1 := if 999 < st.d0g then (st.d1g + 1) % 2^10 else st.d1g }
  else
    { b2 := b2n, c := cn, valid0 := v0, valid1 := st.valid1,
      d0g := st.d0g, d1g := st.d1g, outValid := st.outValid,
      p0 := st.p0, p1 := st.p1 }

/-! ### `BinaryToBCD` (width-20 base-1000 path) -/

/-- Registers of `BinaryToBCD` on its width-20 path: the `_B2ToB1000`
submodule plus the output-valid flag and the seven registered BCD
digits. -/
structure BCD20State where
  b2b : B2BState
  outValid : Bool
  dig : Nat → Nat

def bcd20Init : BCD20State :=
  { b2b := b2bInit, outValid := false, dig := fun _ => 0 }

/-- Clock edge of the width-20 `BinaryToBCD`: `b2b1000.outp.ready =
~outp.valid | outp.ready`; on a transfer out of the submodule the two
base-1000 digits pass combinationally through two width-10
`_DoubleDabble`s into the digit registers. -/
def bcd20Step (st : BCD20State) (x : Nat) (inpValid outpReady : Bool) :
    BCD20State :=
  let b2bOutReady := !st.outValid || outpReady
  let b2bn := b2bStep st.b2b x inpValid b2bOutReady
  let ov1 := if st.outValid && outpReady then false else st.outValid
  if st.b2b.outValid && b2bOutReady then
    { b2b := b2bn, outValid := true,
      dig := fun d =>
        if d < 3 then ddDigit 10 st.b2b.p0 d
        else if d < 7 then ddDigit 10 st.b2b.p1 (d - 3)
        else st.dig d }
  else
    { b2b := b2bn, outValid := ov1, dig := st.dig }

/-- Single-transaction run of the width-20 `BinaryToBCD` (`inp.valid`
during cycle 0, `outp.ready` held high). -/
def bcd20Run (x : Nat) : Nat → BCD20State
  | 0 => bcd20Init
  | j+1 => bcd20Step (bcd20Run x j) x (j = 0) true

/-! ### Construction-time versus elaborate-time validation -/

def exceptOk {α : Type} : Except String α → Bool
  | .ok _ => true
  | .error _ => false

/-- `_DoubleDabble.__init__`: the only constructor that validates; it
raises for `width <= 3` and otherwise records the digit count. -/
def ddInit (width : Nat) : Except String Nat :=
  if width ≤ 3 then
    .error "BCD conversion is only meaningful for signals of width 4 or greater"
  else
    .ok (base10Width width)

/-- `_B2ToB1000.__init__`: stores `pipeline_stages` without checking. -/
def b2b1000Init (pipelineStages : Nat) : Except String Nat :=
  .ok pipelineStages

/-- `_B2ToB1000.elaborate`: only the 3-stage variant exists; anything
else raises `NotImplementedError` here, at elaboration. -/
def b2b1000Elaborate (pipelineStages : Nat) : Except String Unit :=
  if pipelineStages = 3 then .ok ()
  else .error "NotImplementedError: _B2ToB1000 pipeline stages"

/-- An `impl` argument as passed to `MulticycleDiv.__init__`: one of the
two enum members, or any other Python value. -/
inductive ImplArg
  | RESTORING
  | NON_RESTORING
  | OTHER
deriving DecidableEq, Repr

/-- The `div_impl` attribute after `MulticycleDiv.__init__`: the
`if`/`elif` chain has no `else`, so an unsupported `impl` leaves the
attribute unassigned and the constructor still returns. -/
def mdCtorDivImpl : ImplArg → Option Div.Impl
  | .RESTORING => some .RESTORING
  | .NON_RESTORING => some .NON_RESTORING
  | .OTHER => none

/-- `MulticycleDiv.__init__` never raises. -/
def mdCtor (impl : ImplArg) : Except String (Option Div.Impl) :=
  .ok (mdCtorDivImpl impl)

/-- `MulticycleDiv.elaborate` reads `self.div_impl`; with an unsupported
`impl` this is the first point of failure (an `AttributeError`). -/
def mdElaborateImpl : Option Div.Impl → Except String Div.Impl
  | some i => .ok i
  | none => .error "AttributeError: no attribute div_impl"

inductive Limit
  | LARGEST_POWER_10
  | ENTIRE_RANGE
deriving DecidableEq, Repr

structure BCDCfg where
  width : Nat
  numBcdDigits : Nat
deriving DecidableEq, Repr

/-- `BinaryToBCD.__init__`: no validation at all; the `limit` argument
is accepted but never stored. -/
def bcdInit (width : Nat) (limit : Limit) : Except String BCDCfg :=
  .ok { width := width, numBcdDigits := base10Width width }

inductive BCDChoice
  | DOUBLE_DABBLE
  | B2B1000_SPLIT
deriving DecidableEq, Repr

/-- `BinaryToBCD.elaborate` branch selection.  The source conditions
test the truthy enum literal `BinaryToBCD.Limit.LARGEST_POWER_10`
rather than a stored limit (which `__init__` discards anyway), so the
conjuncts reduce to the width tests.  The first branch constructs
`_DoubleDabble(width)`, whose own constructor check therefore fires
only here; the final branch raises `NotImplementedError`. -/
def bcdElaborate (cfg : BCDCfg) : Except String BCDChoice :=
  if cfg.numBcdDigits < 3 ∨ cfg.width ≤ 10 then
    (ddInit cfg.width).map (fun _ => BCDChoice.DOUBLE_DABBLE)
  else if (3 < cfg.numBcdDigits ∧ cfg.numBcdDigits ≤ 6) ∨ cfg.width ≤ 20 then
    .ok BCDChoice.B2B1000_SPLIT
  else
    .error "NotImplementedError"

theorem C8_construction_validation :
    (∀ wd, exceptOk (ddInit wd) = decide (4 ≤ wd))
    ∧ (∀ s, b2b1000Init s = Except.ok s)
    ∧ (∀ s, exceptOk (b2b1000Elaborate s) = decide (s = 3))
    ∧ (∀ i, mdCtor i = Except.ok (mdCtorDivImpl i))
    ∧ exceptOk (mdElaborateImpl (mdCtorDivImpl ImplArg.OTHER)) = false
    ∧ (∀ wd l, bcdInit wd l
        = Except.ok { width := wd, numBcdDigits := base10Width wd })
    ∧ exceptOk (bcdElaborate { width := 2, numBcdDigits := base10Width 2 })
        = false := by
  refine ⟨?_, fun s => rfl, ?_, fun i => rfl, rfl, fun wd l => rfl, by decide⟩
  · intro wd
    rw [ddInit]
    by_cases h : wd ≤ 3
    · rw [if_pos h]
      simp only [exceptOk]
      rw [eq_comm, decide_eq_false_iff_not]
      omega
    · rw [if_neg h]
      simp only [exceptOk]
      rw [eq_comm, decide_eq_true_eq]
      omega
  · intro s
    rw [b2b1000Elaborate]
    by_cases h : s = 3
    · rw [if_pos h]
      simp only [exceptOk]
      rw [eq_comm, decide_eq_true_eq]
      exact h
    · rw [if_neg h]
      simp only [exceptOk]
      rw [eq_comm, decide_eq_false_iff_not]
      exact h

theorem C8_construction_validation_counterexample :
    b2b1000Init 2 = Except.ok 2
    ∧ exceptOk (b2b1000Elaborate 2) = false
    ∧ mdCtor ImplArg.OTHER = Except.ok none
    ∧ exceptOk (mdElaborateImpl (mdCtorDivImpl ImplArg.OTHER)) = false
    ∧ bcdInit 2 Limit.LARGEST_POWER_10
        = Except.ok { width := 2, numBcdDigits := base10Width 2 }
    ∧ exceptOk (bcdElaborate { width := 2, numBcdDigits := base10Width 2 })
        = false :=
  ⟨rfl, rfl, rfl, rfl, rfl, by decide⟩

/-- C9: `BinaryToBCD` at width 20 converts the input value 543210 in
one transaction to the BCD digit array `0,1,2,3,4,5` (digit 0 is the
least-significant decimal digit; the seventh digit is 0), with
`outp.valid` asserted once the conversion completes (cycle 4) and not
before. -/
theorem C9_bcd_543210 :
    (bcd20Run 543210 4).outValid = true
    ∧ (bcd20Run 543210 4).dig 0 = 0
    ∧ (bcd20Run 543210 4).dig 1 = 1
    ∧ (bcd20Run 543210 4).dig 2 = 2
    ∧ (bcd20Run 543210 4).dig 3 = 3
    ∧ (bcd20Run 543210 4).dig 4 = 4
    ∧ (bcd20Run 543210 4).dig 5 = 5
    ∧ (bcd20Run 543210 4).dig 6 = 0
    ∧ (bcd20Run 543210 3).outValid = false := by
  decide

/-- C10: the `limit` argument of `BinaryToBCD` is discarded by
`__init__` (never stored) and `elaborate` tests a truthy enum literal
instead of it, so the constructed component, the selected conversion
structure, and hence every elaborated behaviour are identical for the
two limit values. -/
theorem C10_limit_irrelevant :
    (∀ wd (l1 l2 : Limit), bcdInit wd l1 = bcdInit wd l2)
    ∧ (∀ wd (l1 l2 : Limit),
        (bcdInit wd l1).map bcdElaborate
          = (bcdInit wd l2).map bcdElaborate) :=
  ⟨fun _ _ _ => rfl, fun _ _ _ => rfl⟩

end Base10

end Spec2Proof
